import Mathlib

/-!
# Verification of the `cdb-rs` (tumu_cdb) constant-database library

Shallow embedding of the reader (`src/reader.rs`), writer (`src/writer.rs`),
codec (`src/uint32.rs`) and the in-memory sink (`src/vecbuf.rs`) of the
repository, together with proofs about the claims of the specification.

Conventions of the embedding:
* bytes are `Nat` (the writer only ever stores values `< 256`; the reader
  never relies on byte range), byte images are `List Nat`;
* `u32` values are `Nat` with an explicit `% u32Mod` wherever the Rust
  arithmetic wraps (release-mode wrapping semantics);
* `usize` arithmetic (64-bit, never overflowing in reach of this library)
  is plain `Nat` arithmetic;
* fallible operations return `Except CDBError` / `Option`;
* a Rust panic (out-of-range direct slice index `buf[a..b]`) is modelled by
  an outer `Option` returning `none`.
-/

namespace Cdb

/-- `2^32`: the modulus of `u32` arithmetic. -/
def u32Mod : Nat := 4294967296

/-- `u32::MAX = 0xffffffff`. -/
def u32Max : Nat := 4294967295

/-! ## Codec (`src/uint32.rs`) -/

/-- Little-endian value of four bytes (`u32::from_le_bytes`). -/
def le32 (b0 b1 b2 b3 : Nat) : Nat :=
  b0 + 256 * b1 + 65536 * b2 + 16777216 * b3

/-- `uint32::unpack`: little-endian decode of the first four bytes. -/
def unpack (data : List Nat) : Nat :=
  le32 (data.getD 0 0) (data.getD 1 0) (data.getD 2 0) (data.getD 3 0)

/-- `uint32::unpack2`: two consecutive little-endian decodes of 8 bytes. -/
def unpack2 (buf : List Nat) : Nat × Nat :=
  (unpack (buf.take 4), unpack (buf.drop 4))

/-- `u32::to_le_bytes` / `uint32::pack`: little-endian encode of a `u32`. -/
def pack32 (v : Nat) : List Nat :=
  [v % 256, v / 256 % 256, v / 65536 % 256, v / 16777216 % 256]

/-- `uint32::pack2`: two consecutive little-endian encodes. -/
def pack2 (a b : Nat) : List Nat := pack32 a ++ pack32 b

/-! ## Hash

The crate declares `mod hash;` in `src/lib.rs` but the file `hash.rs` is not
present in the sources available here. -/

/-- Modelled from the spec: the CDB hash of `src/hash.rs` (missing from the
available sources), §4.2 of the specification:
`h ← 5381; for each byte b: h ← ((h << 5) + h) XOR b`, all arithmetic
modulo `2³²`. `(h << 5) + h = 33·h`. -/
def hash (key : List Nat) : Nat :=
  key.foldl (fun h b => (h * 33 % u32Mod) ^^^ b) 5381

/-! ## Errors

The crate reports errors through `io::Error` values; the three error
messages produced by the library itself are modelled as an enumeration.
Sink (`VecBuf`) writes never fail, so no further I/O error is needed. -/

/-- The errors produced by the library itself:
`"Invalid file format"` (reader), `"Key or data too big"` (writer `add`) and
`"File too big"` (writer `pos_plus` / `finish`). -/
inductive CDBError where
  | badFormat
  | recordTooLarge
  | fileTooBig
  deriving DecidableEq, Repr

/-! ## The in-memory sink (`src/vecbuf.rs`, `VecBuf`) -/

/-- `VecBuf`: a `Vec<u8>` with a cursor, the seekable sink used by the
writer in `no_std` builds (equivalent to `io::Cursor<Vec<u8>>`). -/
structure VecBuf where
  inner : List Nat
  pos : Nat
  deriving DecidableEq, Repr

/-- `VecBuf::new()`. -/
def VecBuf.new : VecBuf := ⟨[], 0⟩

/-- `VecBuf::write`: overwrite `inner[pos .. pos+inlen]` with the first
`inlen = min(buf.len, inner.len - pos)` bytes of `buf`, append the rest at
the end, and advance the cursor by `buf.len`.  (The writer only calls this
with `pos ≤ inner.len`, where it is the splice of `buf` at `pos`.) -/
def VecBuf.write (v : VecBuf) (buf : List Nat) : VecBuf :=
  let inlen := min buf.length (v.inner.length - v.pos)
  { inner := v.inner.take v.pos ++ buf.take inlen
      ++ v.inner.drop (v.pos + inlen) ++ buf.drop inlen,
    pos := v.pos + buf.length }

/-- `VecBuf::seek(SeekFrom::Start(n))` (the writer only seeks to `0`). -/
def VecBuf.seekStart (v : VecBuf) (n : Nat) : VecBuf :=
  { v with pos := n }

/-- When the cursor is inside the buffer, `write` is the splice of `buf`
over positions `pos .. pos + buf.len`. -/
theorem VecBuf.write_eq_splice (v : VecBuf) (buf : List Nat)
    (h : v.pos ≤ v.inner.length) :
    v.write buf =
      ⟨v.inner.take v.pos ++ buf ++ v.inner.drop (v.pos + buf.length),
       v.pos + buf.length⟩ := by
  unfold VecBuf.write
  rcases le_or_lt buf.length (v.inner.length - v.pos) with hle | hlt
  · simp only [min_eq_left hle]
    simp [List.take_of_length_le (le_refl buf.length), List.drop_length]
  · have hmin : min buf.length (v.inner.length - v.pos) = v.inner.length - v.pos :=
      min_eq_right hlt.le
    simp only [hmin]
    have hdrop1 : v.inner.drop (v.pos + (v.inner.length - v.pos)) = [] := by
      apply List.drop_eq_nil_of_le
      omega
    have hdrop2 : v.inner.drop (v.pos + buf.length) = [] := by
      apply List.drop_eq_nil_of_le
      omega
    simp [hdrop1, hdrop2, List.take_append_drop]

/-- Appending at the end of the buffer: write with the cursor at the end. -/
theorem VecBuf.write_append (v : VecBuf) (buf : List Nat)
    (h : v.pos = v.inner.length) :
    v.write buf = ⟨v.inner ++ buf, v.inner.length + buf.length⟩ := by
  rw [VecBuf.write_eq_splice v buf (by omega)]
  have : v.inner.drop (v.pos + buf.length) = [] :=
    List.drop_eq_nil_of_le (by omega)
  simp [h, this]

/-! ## Writer state (`src/writer.rs`, `CDBMake`) -/

/-- `HashPos`: a pending entry `(hash, pos)` of the in-memory bucket index. -/
structure HashPos where
  hash : Nat
  pos : Nat
  deriving DecidableEq, Repr

/-- `HashPos::pack`: the 8 bytes `pack2(hash, pos)` of a table slot. -/
def HashPos.packBytes (hp : HashPos) : List Nat := pack2 hp.hash hp.pos

/-- `CDBMake` over the `VecBuf` sink: 256 buckets of pending entries, the
32-bit position cursor, and the sink. -/
structure CDBMake where
  entries : List (List HashPos)
  pos : Nat
  file : VecBuf
  deriving DecidableEq, Repr

/-- `CDBMake::new`: seek to 0, write 2048 zero bytes, 256 empty buckets,
`pos = 2048`.  (`VecBuf` writes cannot fail.) -/
def CDBMake.new : CDBMake :=
  { entries := List.replicate 256 []
    pos := 2048
    file := (VecBuf.new.seekStart 0).write (List.replicate 2048 0) }

/-- `CDBMake::pos_plus`: wrapping 32-bit advance of `pos` by `len`; the
wrap test `self.pos + len < len` detects overflow and fails with
`FileTooBig` without touching `pos`.  The methods mutate `&mut self` and
return a `Result<(), Error>`, so the model returns the (possibly mutated)
state together with an optional error. -/
def CDBMake.posPlus (m : CDBMake) (len : Nat) : CDBMake × Option CDBError :=
  if (m.pos + len) % u32Mod < len then (m, some .fileTooBig)
  else ({ m with pos := (m.pos + len) % u32Mod }, none)

/-- Rust's `?` on a `&mut self` method returning `Result<(), Error>`:
continue with the mutated state on success, return the error (keeping the
state mutated so far) otherwise. -/
def bindE {σ : Type} (r : σ × Option CDBError) (f : σ → σ × Option CDBError) :
    σ × Option CDBError :=
  match r with
  | (s, none) => f s
  | r => r

@[simp] theorem bindE_ok {σ : Type} (s : σ) (f : σ → σ × Option CDBError) :
    bindE (s, none) f = f s := rfl

@[simp] theorem bindE_err {σ : Type} (s : σ) (e : CDBError)
    (f : σ → σ × Option CDBError) : bindE (s, some e) f = (s, some e) := rfl

/-- `CDBMake::add_end`: push `(hash, pos)` into bucket `hash & 0xff`, then
advance `pos` by `8`, `keylen` and `datalen` in turn, stopping at the
first overflow (the pushed entry is not rolled back). -/
def CDBMake.addEnd (m : CDBMake) (keylen datalen h : Nat) :
    CDBMake × Option CDBError :=
  let m := { m with
    entries := m.entries.modify (fun l => l ++ [HashPos.mk h m.pos]) (h % 256) }
  bindE (m.posPlus 8) fun m =>
  bindE (m.posPlus keylen) fun m =>
  m.posPlus datalen

/-- `CDBMake::add_begin`: write the 8-byte length prefix
`pack2(keylen, datalen)` to the sink. -/
def CDBMake.addBegin (m : CDBMake) (keylen datalen : Nat) : CDBMake :=
  { m with file := m.file.write (pack2 keylen datalen) }

/-- `CDBMake::add`: reject keys or data of length `≥ 0xffffffff`
(`RecordTooLarge`) before anything is written; otherwise write the length
prefix, the key bytes and the data bytes, and register the record
(`add_end`). -/
def CDBMake.add (m : CDBMake) (key data : List Nat) :
    CDBMake × Option CDBError :=
  if key.length ≥ 4294967295 ∨ data.length ≥ 4294967295 then
    (m, some .recordTooLarge)
  else
    let m := m.addBegin key.length data.length
    let m := { m with file := (m.file.write key).write data }
    m.addEnd key.length data.length (hash key)

/-- Run a sequence of `add` calls from a writer state, stopping at the
first error. -/
def CDBMake.runAdds (m : CDBMake) :
    List (List Nat × List Nat) → CDBMake × Option CDBError
  | [] => (m, none)
  | r :: rs => bindE (m.add r.1 r.2) fun m => m.runAdds rs

/-! ## Writer finalization (`CDBMake::finish`) -/

/-- Splice `b` over positions `p .. p + b.length` of `l`
(`uint32::pack2(&mut l[p..p+8], ..)`-style in-place update). -/
def spliceBytes (l : List Nat) (p : Nat) (b : List Nat) : List Nat :=
  l.take p ++ b ++ l.drop (p + b.length)

/-- The empty scratch-table slot `(0, 0)`. -/
def HashPos.zero : HashPos := ⟨0, 0⟩

/-- The `while table[wh].pos != 0` linear-probe loop of `finish`: advance
`wh` by one, wrapping to `0` at `len`, until an empty slot is found.  The
Rust loop has no fuel; it terminates exactly when an empty slot is
reachable, which `finish` guarantees because a table of `2n` slots holds
only `n` entries (`fuel = len` always suffices, see
`probeSlot_finds_empty`). -/
def probeSlot (table : List HashPos) (len : Nat) : Nat → Nat → Nat
  | wh, 0 => wh
  | wh, fuel + 1 =>
    if (table.getD wh HashPos.zero).pos ≠ 0 then
      probeSlot table len (if wh + 1 = len then 0 else wh + 1) fuel
    else wh

/-- One iteration of the `for e in self.entries[i].iter()` loop: start at
`wh = (e.hash >> 8) % len`, linearly probe to an empty slot, store `e`. -/
def insertEntry (table : List HashPos) (len : Nat) (e : HashPos) :
    List HashPos :=
  table.set (probeSlot table len ((e.hash >>> 8) % len) len) e

/-- Insert a bucket's pending entries into the scratch table in order. -/
def insertAll (bucket : List HashPos) (len : Nat) (table : List HashPos) :
    List HashPos :=
  bucket.foldl (fun t e => insertEntry t len e) table

/-- The state threaded through the 256-bucket loop of `finish`: the
2048-byte header image, the scratch table, and the writer's `pos`/sink. -/
structure FinState where
  header : List Nat
  table : List HashPos
  pos : Nat
  file : VecBuf
  deriving DecidableEq, Repr

/-- The `for hp in table.iter_mut().take(len)` loop of `finish`: starting
at slot index `t` with `n` slots left, pack slot `t` to the sink, advance
`pos` by 8 (`pos_plus`, failing with `FileTooBig` on 32-bit overflow), and
reset the slot to `(0, 0)`. -/
def writeSlots : Nat → Nat → FinState → FinState × Option CDBError
  | _, 0, st => (st, none)
  | t, n + 1, st =>
    let st := { st with
      file := st.file.write (st.table.getD t HashPos.zero).packBytes }
    if (st.pos + 8) % u32Mod < 8 then (st, some .fileTooBig)
    else
      writeSlots (t + 1) n
        { st with pos := (st.pos + 8) % u32Mod,
                  table := st.table.set t HashPos.zero }

/-- The body of `finish`'s `for i in 0..256` loop for bucket `i`:
`len = 2·|bucket|`; pack `(self.pos, len as u32)` into header slot `i`;
probe-insert the bucket's entries into the scratch table; write and clear
the first `len` scratch slots. -/
def finishBucket (i : Nat) (bucket : List HashPos) (st : FinState) :
    FinState × Option CDBError :=
  let len := bucket.length * 2
  writeSlots 0 len
    { st with
      header := spliceBytes st.header (i * 8) (pack2 st.pos (len % u32Mod)),
      table := insertAll bucket len st.table }

/-- `finish`'s loop over the 256 buckets, `i` the index of the first. -/
def finishLoop : Nat → List (List HashPos) → FinState → FinState × Option CDBError
  | _, [], st => (st, none)
  | i, b :: bs, st => bindE (finishBucket i b st) (finishLoop (i + 1) bs)

/-- `maxsize` as computed by `finish`:
`entries.iter().fold(1, |acc, e| max(acc, e.len() * 2))`. -/
def CDBMake.maxsize (m : CDBMake) : Nat :=
  m.entries.foldl (fun acc e => max acc (e.length * 2)) 1

/-- `count` as computed by `finish`:
`entries.iter().fold(0, |acc, e| acc + e.len())`. -/
def CDBMake.count (m : CDBMake) : Nat :=
  m.entries.foldl (fun acc e => acc + e.length) 0

/-- `CDBMake::finish`: guard `maxsize + count > 0xffffffff / 8`
(`FileTooBig`); then run the 256-bucket loop with a fresh `maxsize`-slot
scratch table and a zeroed header buffer; finally seek to 0, write the
header over the placeholder, and surrender the sink.  (`flush` on a
`VecBuf` is a no-op.) -/
def CDBMake.finish (m : CDBMake) : Except CDBError VecBuf :=
  if m.maxsize + m.count > 4294967295 / 8 then .error .fileTooBig
  else
    match finishLoop 0 m.entries
        { header := List.replicate 2048 0,
          table := List.replicate m.maxsize HashPos.zero,
          pos := m.pos, file := m.file } with
    | (_, some e) => .error e
    | (st, none) => .ok ((st.file.seekStart 0).write st.header)

/-! ## Reader (`src/reader.rs`)

The reader borrows a `FileBuffer`, which dereferences to a byte slice; the
model works directly on the byte image `List Nat` with `size = image
length` (`CDB { file, size }` always has `size == file.len()`). -/

/-- A contiguous slice `l[a..b]` (defined for `a ≤ b ≤ l.length`;
callers check bounds). -/
def sliceBytes (l : List Nat) (a b : Nat) : List Nat := (l.drop a).take (b - a)

/-- `CDB::read`: `self.file.get(pos..pos + len)` — the bounds-checked
slice used by the lookup path; `none` when the range leaves the image. -/
def CDB.read (file : List Nat) (len pos : Nat) : Option (List Nat) :=
  if pos + len ≤ file.length then some (sliceBytes file pos (pos + len)) else none

/-- `CDB::match_key`: key bytes at `pos` equal `key`; a failed (out of
range) read counts as a mismatch. -/
def CDB.matchKey (file : List Nat) (key : List Nat) (pos : Nat) : Bool :=
  match CDB.read file key.length pos with
  | some x => x = key
  | none => false

/-- `CDB::hash_table`: read `(hpos, hslots)` from primary header slot
`khash & 0xff` (a direct, unchecked index `file[x..x+8]` — `none` models
the panic when the image is shorter than 2048 bytes), and compute the
initial probe position `kpos = hpos + ((khash >> 8) % hslots) * 8`
(wrapping `u32` arithmetic), or `0` when the table is empty. -/
def CDB.hashTable (file : List Nat) (khash : Nat) :
    Option (Nat × Nat × Nat) :=
  let x := khash % 256 * 8
  if x + 8 ≤ file.length then
    let (hpos, hslots) := unpack2 (sliceBytes file x (x + 8))
    let kpos := if hslots > 0 then
        (hpos + ((khash >>> 8) % hslots * 8) % u32Mod) % u32Mod
      else 0
    some (hpos, hslots, kpos)
  else none

/-- The resumable state of `CDBValueIter` (`find`'s iterator). -/
structure VIter where
  key : List Nat
  khash : Nat
  kloop : Nat
  kpos : Nat
  hpos : Nat
  hslots : Nat
  deriving DecidableEq, Repr

/-- `CDBValueIter::find`: hash the key and position the iterator from the
primary header (`none` models the `hash_table` panic on images shorter
than 2048 bytes). -/
def CDB.findStart (file : List Nat) (key : List Nat) : Option VIter :=
  match CDB.hashTable file (hash key) with
  | some (hpos, hslots, kpos) =>
    some ⟨key, hash key, 0, kpos, hpos, hslots⟩
  | none => none

/-- The slot-advance step of the probe loop:
`self.kloop += 1; self.kpos += 8;` and wrap `kpos` back to `hpos` at the
end of the table (`hpos + (hslots << 3)`), all in wrapping `u32`
arithmetic. -/
def VIter.advance (s : VIter) : VIter :=
  let kpos' := (s.kpos + 8) % u32Mod
  { s with
    kloop := s.kloop + 1,
    kpos := if kpos' = (s.hpos + s.hslots * 8 % u32Mod) % u32Mod
      then s.hpos else kpos' }

@[simp] theorem VIter.advance_key (s : VIter) : s.advance.key = s.key := rfl

@[simp] theorem VIter.advance_khash (s : VIter) : s.advance.khash = s.khash := rfl

@[simp] theorem VIter.advance_kloop (s : VIter) :
    s.advance.kloop = s.kloop + 1 := rfl

@[simp] theorem VIter.advance_hpos (s : VIter) : s.advance.hpos = s.hpos := rfl

@[simp] theorem VIter.advance_hslots (s : VIter) :
    s.advance.hslots = s.hslots := rfl

/-- One iteration of the `while self.kloop < self.hslots` probe loop of
`CDBValueIter::next` (the runner `vnextFuel` below checks the loop guard).
First component: `some r` means `next()` returns `r` here (`none` =
iterator end, `some v` = yielded value); `none` means the loop continues.
Second: the iterator state after the iteration.  Third: the trace of every
successful file access this iteration performed, as `(pos, len)` pairs. -/
def vbody (file : List Nat) (s : VIter) :
    Option (Option (List Nat)) × VIter × List (Nat × Nat) :=
  match CDB.read file 8 s.kpos with
  | none => (some none, s, [])
  | some p =>
    let slotPos := s.kpos
    let (khash, pos) := unpack2 p
    if pos = 0 then (some none, s, [(slotPos, 8)])
    else
      let s := s.advance
      if khash = s.khash then
        match CDB.read file 8 pos with
        | none => (some none, s, [(slotPos, 8)])
        | some q =>
          let (klen, dlen) := unpack2 q
          -- `if klen as usize == self.key.len()` then `match_key`
          -- (a failed or mismatching key read falls through to the
          -- next probe), then `return self.cdb.read(dlen, dpos)`.
          let kread := CDB.read file s.key.length ((pos + 8) % u32Mod)
          if klen = s.key.length ∧ kread = some s.key then
            let dpos := ((pos + 8) % u32Mod + s.key.length % u32Mod) % u32Mod
            match CDB.read file dlen dpos with
            | some v => (some (some v), s,
                [(slotPos, 8), (pos, 8), ((pos + 8) % u32Mod, s.key.length),
                 (dpos, dlen)])
            | none => (some none, s,
                [(slotPos, 8), (pos, 8), ((pos + 8) % u32Mod, s.key.length)])
          else
            (none, s,
              (slotPos, 8) :: (pos, 8) ::
                (if klen = s.key.length ∧ kread.isSome then
                  [((pos + 8) % u32Mod, s.key.length)] else []))
      else (none, s, [(slotPos, 8)])

/-- One `next()` call of `CDBValueIter`: run `vbody` iterations while
`kloop < hslots`, with `fuel` bounding the loop (`fuel = hslots - kloop`
makes the `fuel = 0` case coincide with the loop exit; each iteration
increments `kloop`, see `vnextFuel_stable`).  Returns the yielded value
(`none` = iterator end), the paused state, and the access trace. -/
def vnextFuel (file : List Nat) : VIter → Nat →
    Option (List Nat) × VIter × List (Nat × Nat)
  | s, 0 => (none, s, [])
  | s, fuel + 1 =>
    if s.kloop < s.hslots then
      match vbody file s with
      | (some r, s', tr) => (r, s', tr)
      | (none, s', tr) =>
        let (r, s'', tr') := vnextFuel file s' fuel
        (r, s'', tr ++ tr')
    else (none, s, [])

/-- `CDBValueIter::next` (one resumption step). -/
def vnext (file : List Nat) (s : VIter) : Option (List Nat) × VIter :=
  let (r, s', _) := vnextFuel file s (s.hslots - s.kloop)
  (r, s')

/-- Drain `find`'s iterator: the list of values it yields ( `fuel` bounds
the number of yields; `hslots + 1` always suffices since every yield
consumes at least one probe). -/
def vcollect (file : List Nat) : VIter → Nat → List (List Nat)
  | _, 0 => []
  | s, n + 1 =>
    match vnext file s with
    | (none, _) => []
    | (some v, s') => v :: vcollect file s' n

/-- `CDB::find` then draining the iterator (`none` models the
construction-time panic on images shorter than 2048 bytes). -/
def CDB.findAll (file : List Nat) (key : List Nat) : Option (List (List Nat)) :=
  match CDB.findStart file key with
  | some s => some (vcollect file s (s.hslots + 1))
  | none => none

/-- `CDB::get`: the first value `find` yields. -/
def CDB.get (file : List Nat) (key : List Nat) : Option (Option (List Nat)) :=
  match CDB.findStart file key with
  | some s => some (vnext file s).1
  | none => none

/-! ### Full iteration (`CDBKeyValueIter`) -/

/-- The state of `CDBKeyValueIter`: current record offset and the end of
the data region. -/
structure KVIter where
  pos : Nat
  dataEnd : Nat
  deriving DecidableEq, Repr

/-- `CDBKeyValueIter::start`:
`data_end = unpack(file[0..4]).min(size as u32)`, `pos = 2048`.  The
four-byte read is a direct index (`none` models the panic on images
shorter than 4 bytes); `size as u32` truncates. -/
def kvStart (file : List Nat) : Option KVIter :=
  if 4 ≤ file.length then
    some ⟨2048, min (unpack (sliceBytes file 0 4)) (file.length % u32Mod)⟩
  else none

/-- The outcome of one `CDBKeyValueIter::next` call. -/
inductive KVOut where
  /-- `None`: iteration over. -/
  | done
  /-- `Some(Err(..))`: a record's declared length fails the
  `pos + klen + dlen >= data_end` check; `pos` is not advanced, so every
  later call yields the same error again. -/
  | err
  /-- `Some(Ok((key, value)))`. -/
  | item (key value : List Nat)
  deriving DecidableEq, Repr

/-- One `next()` call of `CDBKeyValueIter`.  All file accesses are
direct (unchecked) indexes `file[a..b]`; an out-of-range one is a panic,
modelled by the outer `none`.  Comparisons and the `pos` update are
wrapping `u32` arithmetic, slice offsets are `usize` arithmetic. -/
def kvNext (file : List Nat) (s : KVIter) : Option (KVOut × KVIter) :=
  if (s.pos + 8) % u32Mod ≥ s.dataEnd then some (.done, s)
  else if s.pos + 8 ≤ file.length then
    let (klen, dlen) := unpack2 (sliceBytes file s.pos (s.pos + 8))
    if ((s.pos + klen) % u32Mod + dlen) % u32Mod ≥ s.dataEnd then
      some (.err, s)
    else
      let kpos := s.pos + 8
      let dpos := kpos + klen
      if kpos + klen ≤ file.length then
        if dpos + dlen ≤ file.length then
          some (.item (sliceBytes file kpos (kpos + klen))
              (sliceBytes file dpos (dpos + dlen)),
            { s with
              pos := (s.pos + ((8 + klen) % u32Mod + dlen) % u32Mod) % u32Mod })
        else none
      else none
  else none

/-- Drain the full-record iterator, at most `fuel` records: `none` on a
panic or if `fuel` runs out; the iterator never terminates after yielding
an error (`pos` is not advanced), so draining stops at the first one. -/
def kvCollect (file : List Nat) : KVIter → Nat →
    Option (List (Except CDBError (List Nat × List Nat)))
  | _, 0 => none
  | s, n + 1 =>
    match kvNext file s with
    | none => none
    | some (.done, _) => some []
    | some (.err, _) => some [.error .badFormat]
    | some (.item k v, s') => (kvCollect file s' n).map (.ok (k, v) :: ·)

/-- `CDB::iter()` drained to at most `fuel` records. -/
def CDB.iterAll (file : List Nat) (fuel : Nat) :
    Option (List (Except CDBError (List Nat × List Nat))) :=
  match kvStart file with
  | some s => kvCollect file s fuel
  | none => none

/-! ### Reader construction -/

/-- The validation shared by `CDB::open` and `CDB::from_filedes`:
reject images with `len < 2048 + 8 + 8` or `len > 0xffffffff` as
`BadFormat` (the acquisition of the `FileBuffer` itself is I/O and outside
the model; `size` is set to the image length). -/
def CDB.openCheck (file : List Nat) : Except CDBError (List Nat) :=
  if file.length < 2048 + 8 + 8 ∨ file.length > 4294967295 then
    .error .badFormat
  else .ok file

/-- `CDB::copy_from_slice`: builds the reader directly over the copied
bytes — there is no length validation on this path. -/
def CDB.copyFromSlice (s : List Nat) : Except CDBError (List Nat) :=
  .ok s

/-! ## Derived layout quantities -/

/-- Total number of pending entries across a list of buckets. -/
def sumLens (bs : List (List HashPos)) : Nat := (bs.map List.length).sum

/-- What `CDB::iter()` actually yields for a record list `rs` written in
order: every record wrapped in `Ok`, except that a final record with empty
key and empty value is silently dropped (its header starts exactly 8 bytes
before `data_end`, so the `pos + 8 >= data_end` loop test ends the
iteration before reaching it). -/
def iterExpected : List (List Nat × List Nat) →
    List (Except CDBError (List Nat × List Nat))
  | [] => []
  | r :: rs =>
    if rs.isEmpty && r.1.isEmpty && r.2.isEmpty then []
    else .ok r :: iterExpected rs

/-! ## Basic lemmas about the writer -/

/-- `pos_plus`, resolved: for in-range arguments the wrap test
`(pos + len) % 2³² < len` holds exactly when `pos + len` overflows. -/
theorem CDBMake.posPlus_eq (m : CDBMake) (len : Nat) (hp : m.pos < u32Mod)
    (hl : len < u32Mod) :
    m.posPlus len = if m.pos + len < u32Mod
      then ({ m with pos := m.pos + len }, none)
      else (m, some .fileTooBig) := by
  unfold CDBMake.posPlus
  rcases lt_or_ge (m.pos + len) u32Mod with h | h
  · rw [Nat.mod_eq_of_lt h]
    simp [h, Nat.not_lt.mpr (Nat.le_add_left len m.pos)]
  · have h2 : m.pos + len < 2 * u32Mod := by omega
    have hmod : (m.pos + len) % u32Mod = m.pos + len - u32Mod := by
      rw [Nat.mod_eq_sub_mod h, Nat.mod_eq_of_lt (by omega)]
    rw [hmod]
    simp [Nat.not_lt.mpr h, show m.pos + len - u32Mod < len by omega]

/-- `add_end` never reports `RecordTooLarge` and leaves the sink alone;
its entry push survives any failure. -/
theorem CDBMake.addEnd_spec (m : CDBMake) (keylen datalen h : Nat) :
    (m.addEnd keylen datalen h).2 ≠ some .recordTooLarge ∧
    (m.addEnd keylen datalen h).1.file = m.file ∧
    (m.addEnd keylen datalen h).1.entries =
      m.entries.modify (fun l => l ++ [HashPos.mk h m.pos]) (h % 256) := by
  have pp : ∀ (mm : CDBMake) (l : Nat), (mm.posPlus l).1.file = mm.file ∧
      (mm.posPlus l).1.entries = mm.entries ∧
      (mm.posPlus l).2 ≠ some .recordTooLarge := by
    intro mm l
    unfold CDBMake.posPlus
    split <;> simp
  have chain : ∀ (m1 : CDBMake),
      ((bindE (m1.posPlus 8) fun m => bindE (m.posPlus keylen) fun m =>
        m.posPlus datalen).2 ≠ some .recordTooLarge ∧
      (bindE (m1.posPlus 8) fun m => bindE (m.posPlus keylen) fun m =>
        m.posPlus datalen).1.file = m1.file ∧
      (bindE (m1.posPlus 8) fun m => bindE (m.posPlus keylen) fun m =>
        m.posPlus datalen).1.entries = m1.entries) := by
    intro m1
    rcases h8 : m1.posPlus 8 with ⟨m2, e2⟩
    have h8' := pp m1 8
    rw [h8] at h8'
    cases e2 with
    | some e =>
      simp only [bindE_err]
      exact ⟨h8'.2.2, h8'.1, h8'.2.1⟩
    | none =>
      rcases hk : m2.posPlus keylen with ⟨m3, e3⟩
      have hk' := pp m2 keylen
      rw [hk] at hk'
      cases e3 with
      | some e => simp_all [h8, hk]
      | none =>
        have hd' := pp m3 datalen
        simp_all [h8, hk]
  unfold CDBMake.addEnd
  exact chain _

/-- Claim C9 — oversized record rejection: `add` fails with
`RecordTooLarge` exactly when the key or the data has length
`≥ 2³² - 1`, and on that failure the writer state (sink, buckets,
position) is completely unchanged. -/
theorem add_recordTooLarge_iff (m : CDBMake) (key data : List Nat) :
    ((m.add key data).2 = some .recordTooLarge ↔
      4294967295 ≤ key.length ∨ 4294967295 ≤ data.length) ∧
    (4294967295 ≤ key.length ∨ 4294967295 ≤ data.length →
      (m.add key data).1 = m) := by
  unfold CDBMake.add
  split
  · simp_all [ge_iff_le]
  · rename_i hbig
    rw [ge_iff_le, ge_iff_le] at hbig
    simp only [hbig, iff_false, false_implies, and_true]
    exact (CDBMake.addEnd_spec _ _ _ _).1

/-- Witness for C9: a key of length `2³² - 1` is rejected with the writer
state untouched. -/
theorem add_recordTooLarge_iff_witness :
    (CDBMake.new.add (List.replicate 4294967295 0) []).2 =
      some .recordTooLarge ∧
    (CDBMake.new.add (List.replicate 4294967295 0) []).1 = CDBMake.new := by
  have h : 4294967295 ≤ (List.replicate 4294967295 (0 : Nat)).length ∨
      4294967295 ≤ ([] : List Nat).length :=
    Or.inl (le_of_eq (List.length_replicate 4294967295 0).symm)
  exact ⟨(add_recordTooLarge_iff CDBMake.new _ _).1.mpr h,
    (add_recordTooLarge_iff CDBMake.new _ _).2 h⟩

/-- Claim C10 — non-atomicity of position overflow: when `add` fails with
`FileTooBig`, the record's length prefix, key bytes and data bytes are
already in the sink and the `(hash, pos)` entry is already in bucket
`hash & 0xff`; nothing is rolled back. -/
theorem add_fileTooBig_not_rolled_back (m : CDBMake) (key data : List Nat)
    (h : (m.add key data).2 = some .fileTooBig) :
    (m.add key data).1.file =
      ((m.file.write (pack2 key.length data.length)).write key).write data ∧
    (m.add key data).1.entries =
      m.entries.modify (fun l => l ++ [HashPos.mk (hash key) m.pos])
        (hash key % 256) := by
  unfold CDBMake.add at h ⊢
  split at h
  · simp at h
  · rename_i hbig
    simp only [hbig, if_false]
    have := CDBMake.addEnd_spec
      { m with file := ((m.addBegin key.length data.length).file.write key).write data }
      key.length data.length (hash key)
    unfold CDBMake.addBegin at this ⊢
    exact ⟨this.2.1, this.2.2⟩

/-- Witness for C10: a writer at `pos = 2³² - 4` overflows on
`pos_plus(8)`, yet the ten record bytes are in the sink and the entry is
pushed (`hash([1]) mod 256 = 164`). -/
theorem add_fileTooBig_not_rolled_back_witness :
    (({ entries := List.replicate 256 [], pos := 4294967292,
        file := VecBuf.new : CDBMake }).add [1] [2]).1.file =
      ((VecBuf.new.write (pack2 1 1)).write [1]).write [2] ∧
    (({ entries := List.replicate 256 [], pos := 4294967292,
        file := VecBuf.new : CDBMake }).add [1] [2]).1.entries =
      (List.replicate 256 ([] : List HashPos)).modify
        (fun l => l ++ [HashPos.mk (hash [1]) 4294967292]) (hash [1] % 256) :=
  add_fileTooBig_not_rolled_back
    { entries := List.replicate 256 [], pos := 4294967292, file := VecBuf.new }
    [1] [2] (by decide)

/-- Claim C5 (amended) — reader construction: `open` and `from_filedes`
validate `2064 ≤ len ≤ 2³²-1` and fail with `BadFormat` otherwise;
`copy_from_slice` performs no validation and accepts every byte slice. -/
theorem reader_construction_validation (file : List Nat) :
    (CDB.openCheck file = .ok file ↔
      2064 ≤ file.length ∧ file.length ≤ 4294967295) ∧
    (CDB.openCheck file = .error .badFormat ↔
      file.length < 2064 ∨ 4294967295 < file.length) ∧
    CDB.copyFromSlice file = .ok file := by
  unfold CDB.openCheck CDB.copyFromSlice
  split
  · rename_i hc
    simp_all
    omega
  · rename_i hc
    simp_all

/-- Counterexample for C5 as stated: the empty image is accepted by the
`copy_from_slice` construction path (no `BadFormat`). -/
theorem copyFromSlice_accepts_empty :
    CDB.copyFromSlice ([] : List Nat) = .ok [] := rfl

/-! ## Slicing and codec toolkit

Concrete byte images are thousands of elements long; evaluating `drop
2048` by reduction overflows the elaborator stack, so slices of
block-structured lists are computed through these lemmas instead. -/

@[simp] theorem pack32_length (v : Nat) : (pack32 v).length = 4 := rfl

@[simp] theorem pack2_length (a b : Nat) : (pack2 a b).length = 8 := rfl

@[simp] theorem packBytes_length (hp : HashPos) : hp.packBytes.length = 8 := rfl

theorem pack32_mod (v : Nat) : pack32 (v % u32Mod) = pack32 v := by
  unfold pack32 u32Mod
  simp only [List.cons.injEq, and_true]
  refine ⟨?_, ?_, ?_, ?_⟩ <;> omega

theorem unpack_pack32 (v : Nat) (h : v < u32Mod) : unpack (pack32 v) = v := by
  unfold unpack pack32 le32 u32Mod at *
  simp only [List.getD_cons_zero, List.getD_cons_succ]
  omega

theorem unpack2_pack2 (a b : Nat) (ha : a < u32Mod) (hb : b < u32Mod) :
    unpack2 (pack2 a b) = (a, b) := by
  unfold unpack2 pack2
  rw [List.take_append_of_le_length (by simp), List.drop_left' (by simp),
    List.take_of_length_le (by simp)]
  rw [unpack_pack32 a ha, unpack_pack32 b hb]

theorem sliceBytes_self (A : List Nat) : sliceBytes A 0 A.length = A := by
  simp [sliceBytes]

theorem sliceBytes_append_right (A B : List Nat) (a b : Nat)
    (ha : A.length ≤ a) :
    sliceBytes (A ++ B) a b = sliceBytes B (a - A.length) (b - A.length) := by
  unfold sliceBytes
  have hd : (A ++ B).drop a = B.drop (a - A.length) := by
    conv_lhs => rw [show a = A.length + (a - A.length) by omega]
    exact List.drop_append _
  rw [hd]
  congr 1
  omega

theorem sliceBytes_front (A B : List Nat) (a b : Nat) (hb : b ≤ A.length) :
    sliceBytes (A ++ B) a b = sliceBytes A a b := by
  unfold sliceBytes
  rcases le_or_lt a A.length with hle | hlt
  · rw [List.drop_append_eq_append_drop, Nat.sub_eq_zero_of_le hle,
      List.drop_zero, List.take_append_of_le_length (by rw [List.length_drop]; omega)]
  · have h1 : b - a = 0 := by omega
    rw [h1]
    simp

theorem sliceBytes_exact (A B : List Nat) (n : Nat) (hA : A.length = n) :
    sliceBytes (A ++ B) 0 n = A := by
  rw [sliceBytes_front A B 0 n (by omega)]
  subst hA
  exact sliceBytes_self A

theorem sliceBytes_replicate (x n a b : Nat) :
    sliceBytes (List.replicate n x) a b = List.replicate (min (b - a) (n - a)) x := by
  simp [sliceBytes]

/-! ## Layout of the finished image

The following definitions name the byte regions a successful `finish`
produces; the lemmas relate the writer loops to them. -/

/-- The bytes of a sequence of table slots. -/
def slotsBytes (l : List HashPos) : List Nat :=
  (l.map HashPos.packBytes).flatten

/-- The encoding of one record in the data region:
`(klen, dlen, key, data)`. -/
def recC (r : List Nat × List Nat) : List Nat :=
  pack2 r.1.length r.2.length ++ r.1 ++ r.2

/-- The data region produced by a sequence of `add`s. -/
def encList (rs : List (List Nat × List Nat)) : List Nat :=
  (rs.map recC).flatten

/-- The byte size of one record: `8 + klen + dlen`. -/
def recSize (r : List Nat × List Nat) : Nat := 8 + r.1.length + r.2.length

/-- Total byte size of a record sequence. -/
def sizeSum (rs : List (List Nat × List Nat)) : Nat := (rs.map recSize).sum

@[simp] theorem slotsBytes_nil : slotsBytes [] = [] := rfl

@[simp] theorem slotsBytes_cons (hp : HashPos) (l : List HashPos) :
    slotsBytes (hp :: l) = hp.packBytes ++ slotsBytes l := rfl

@[simp] theorem slotsBytes_length (l : List HashPos) :
    (slotsBytes l).length = 8 * l.length := by
  induction l with
  | nil => rfl
  | cons hp l ih =>
    rw [slotsBytes_cons, List.length_append, packBytes_length, ih,
      List.length_cons]
    omega

@[simp] theorem encList_nil : encList [] = [] := rfl

@[simp] theorem encList_cons (r : List Nat × List Nat)
    (rs : List (List Nat × List Nat)) :
    encList (r :: rs) = recC r ++ encList rs := rfl

@[simp] theorem recC_length (r : List Nat × List Nat) :
    (recC r).length = recSize r := by
  rw [recC, recSize, List.length_append, List.length_append, pack2_length]

@[simp] theorem encList_length (rs : List (List Nat × List Nat)) :
    (encList rs).length = sizeSum rs := by
  induction rs with
  | nil => rfl
  | cons r rs ih =>
    rw [encList_cons, List.length_append, recC_length, ih]
    rw [show sizeSum (r :: rs) = recSize r + sizeSum rs by
      simp [sizeSum]]

/-- `set` at the cut index does not change the prefix. -/
theorem take_set_self {α : Type} (l : List α) (t : Nat) (a : α) :
    (l.set t a).take t = l.take t :=
  List.ext_getElem? fun i => by
    rw [List.getElem?_take, List.getElem?_take]
    split
    · rename_i h'
      rw [List.getElem?_set_ne (by omega)]
    · rfl

/-- The slot-write loop of `finish`, on success: writes the packed slots
`t .. t+n-1`, advances `pos` by `8·n`, zeroes those slots. -/
theorem writeSlots_ok : ∀ (n t : Nat) (st : FinState),
    st.file.pos = st.file.inner.length → st.pos < u32Mod →
    t + n ≤ st.table.length → st.pos + 8 * n < u32Mod →
    writeSlots t n st = (FinState.mk st.header
      (st.table.take t ++ List.replicate n HashPos.zero ++
        st.table.drop (t + n))
      (st.pos + 8 * n)
      (VecBuf.mk (st.file.inner ++ slotsBytes ((st.table.drop t).take n))
        (st.file.inner.length + 8 * n)), none) := by
  intro n
  induction n with
  | zero =>
    intro t st hfp hpos hlen hov
    show (st, none) = _
    simp only [List.take_zero, List.replicate_zero, slotsBytes_nil,
      List.append_nil, List.nil_append, Nat.mul_zero, Nat.add_zero,
      List.take_append_drop]
    rw [← hfp]
  | succ n ih =>
    intro t st hfp hpos hlen hov
    have ht : t < st.table.length := by omega
    unfold writeSlots
    dsimp only
    rw [VecBuf.write_append _ _ hfp]
    rw [if_neg (by
      rw [Nat.mod_eq_of_lt (by omega)]
      omega)]
    rw [Nat.mod_eq_of_lt (by omega)]
    rw [ih (t + 1)]
    · have htake : (st.table.set t HashPos.zero).take (t + 1) =
          st.table.take t ++ [HashPos.zero] := by
        rw [List.take_succ, take_set_self]
        congr 1
        rw [List.getElem?_set_self (by omega)]
        rfl
      have hdrop : ∀ j, t < j → (st.table.set t HashPos.zero).drop j =
          st.table.drop j := fun j hj => List.drop_set_of_lt _ _ hj
      have hslotdec : (st.table.drop t).take (n + 1) =
          st.table.getD t HashPos.zero :: ((st.table.drop (t + 1)).take n) := by
        rw [List.drop_eq_getElem_cons ht, List.take_succ_cons]
        congr 1
        simp [List.getElem?_eq_getElem ht]
      dsimp only
      rw [htake, hdrop (t + 1 + n) (by omega), hdrop (t + 1) (by omega),
        hslotdec, slotsBytes_cons]
      simp only [List.length_append, packBytes_length]
      rw [show t + 1 + n = t + (n + 1) by omega,
        show st.pos + 8 + 8 * n = st.pos + 8 * (n + 1) by omega,
        show st.file.inner.length + 8 + 8 * n =
          st.file.inner.length + 8 * (n + 1) by omega]
      simp only [List.append_assoc, List.singleton_append, List.replicate_succ]
    · simp
    · dsimp only
      omega
    · dsimp only
      rw [List.length_set]
      omega
    · dsimp only
      omega

/-- The slot-write loop overflows the 32-bit position: `FileTooBig`. -/
theorem writeSlots_err : ∀ (n t : Nat) (st : FinState),
    st.pos < u32Mod → 0 < n → u32Mod ≤ st.pos + 8 * n →
    (writeSlots t n st).2 = some .fileTooBig := by
  intro n
  induction n with
  | zero =>
    intro t st _ h0 _
    omega
  | succ n ih =>
    intro t st hpos h0 hov
    unfold writeSlots
    dsimp only
    by_cases h8 : st.pos + 8 < u32Mod
    · rw [if_neg (by rw [Nat.mod_eq_of_lt h8]; omega),
        Nat.mod_eq_of_lt h8]
      exact ih (t + 1) _ (by dsimp only; omega)
        (by
          rcases Nat.eq_zero_or_pos n with rfl | hn
          · omega
          · exact hn)
        (by dsimp only; omega)
    · rw [if_pos (by
        have hlt : st.pos + 8 - u32Mod < 8 := by omega
        rw [Nat.mod_eq_sub_mod (by omega), Nat.mod_eq_of_lt (by unfold u32Mod at *; omega)]
        omega)]

/-- The home slot and every probe step stay below `len`. -/
theorem probeSlot_lt (table : List HashPos) (len : Nat) :
    ∀ (fuel wh : Nat), wh < len → probeSlot table len wh fuel < len := by
  intro fuel
  induction fuel with
  | zero => intro wh h; exact h
  | succ n ih =>
    intro wh h
    unfold probeSlot
    split
    · apply ih
      split
      · omega
      · rename_i hne
        omega
    · exact h

@[simp] theorem insertAll_nil (len : Nat) (t : List HashPos) :
    insertAll [] len t = t := rfl

theorem insertAll_cons (e : HashPos) (b : List HashPos) (len : Nat)
    (t : List HashPos) :
    insertAll (e :: b) len t = insertAll b len (insertEntry t len e) := rfl

@[simp] theorem insertEntry_length (t : List HashPos) (len : Nat)
    (e : HashPos) : (insertEntry t len e).length = t.length := by
  unfold insertEntry
  exact List.length_set t _ e

@[simp] theorem insertAll_length (b : List HashPos) (len : Nat) :
    ∀ (t : List HashPos), (insertAll b len t).length = t.length := by
  induction b with
  | nil => intro t; rfl
  | cons e b ih =>
    intro t
    rw [insertAll_cons, ih, insertEntry_length]

/-- Probe insertion never touches slots at or beyond `len`. -/
theorem insertEntry_drop (t : List HashPos) (len : Nat) (e : HashPos)
    (hlen : 0 < len) (j : Nat) (hj : len ≤ j) :
    (insertEntry t len e).drop j = t.drop j := by
  unfold insertEntry
  exact List.drop_set_of_lt _ _
    (lt_of_lt_of_le (probeSlot_lt t len len _ (Nat.mod_lt _ hlen)) hj)

theorem insertAll_drop (b : List HashPos) (len : Nat) (hlen : 0 < len)
    (j : Nat) (hj : len ≤ j) :
    ∀ (t : List HashPos), (insertAll b len t).drop j = t.drop j := by
  induction b with
  | nil => intro t; rfl
  | cons e b ih =>
    intro t
    rw [insertAll_cons, ih, insertEntry_drop t len e hlen j hj]

theorem spliceBytes_length (l b : List Nat) (p : Nat)
    (h : p + b.length ≤ l.length) :
    (spliceBytes l p b).length = l.length := by
  unfold spliceBytes
  simp only [List.length_append, List.length_take, List.length_drop]
  omega

theorem spliceBytes_take (l b : List Nat) (p : Nat)
    (h : p + b.length ≤ l.length) :
    (spliceBytes l p b).take (p + b.length) = l.take p ++ b := by
  unfold spliceBytes
  exact List.take_left' (by simp; omega)

theorem spliceBytes_drop (l b : List Nat) (p j : Nat)
    (h : p + b.length ≤ l.length) (hj : p + b.length ≤ j) :
    (spliceBytes l p b).drop j = l.drop j := by
  unfold spliceBytes
  have hX : (List.take p l ++ b).length = p + b.length := by simp; omega
  rw [List.drop_append_eq_append_drop, List.drop_eq_nil_of_le (by omega),
    List.nil_append, List.drop_drop, hX]
  congr 1
  omega

/-- Taking strictly before the splice point sees the original bytes. -/
theorem spliceBytes_take_of_le (l b : List Nat) (p q : Nat)
    (hq : q ≤ p) (hql : q ≤ l.length) :
    (spliceBytes l p b).take q = l.take q := by
  unfold spliceBytes
  rw [List.append_assoc, List.take_append_of_le_length (by simp; omega),
    List.take_take, min_eq_left hq]

/-- One bucket of `finish`'s loop, resolved on the success path: header
slot `i` gets `(pos, 2·|b|)`, the table's first `2·|b|` slots are used and
re-zeroed, `pos` advances by `16·|b|`, and the packed slots are appended
to the sink. -/
theorem finishBucket_ok (i : Nat) (b : List HashPos) (st : FinState)
    (hfp : st.file.pos = st.file.inner.length) (hpos : st.pos < u32Mod)
    (htb : b.length * 2 ≤ st.table.length)
    (hov : st.pos + 8 * (b.length * 2) < u32Mod) :
    finishBucket i b st = (FinState.mk
      (spliceBytes st.header (i * 8) (pack2 st.pos ((b.length * 2) % u32Mod)))
      (List.replicate (b.length * 2) HashPos.zero ++
        st.table.drop (b.length * 2))
      (st.pos + 8 * (b.length * 2))
      (VecBuf.mk (st.file.inner ++
          slotsBytes ((insertAll b (b.length * 2) st.table).take (b.length * 2)))
        (st.file.inner.length + 8 * (b.length * 2))), none) := by
  unfold finishBucket
  dsimp only
  rw [writeSlots_ok (b.length * 2) 0
    (FinState.mk
      (spliceBytes st.header (i * 8) (pack2 st.pos ((b.length * 2) % u32Mod)))
      (insertAll b (b.length * 2) st.table) st.pos st.file)
    hfp hpos (by dsimp only; rw [insertAll_length]; omega)
    (by dsimp only; omega)]
  dsimp only
  rcases Nat.eq_zero_or_pos (b.length * 2) with hz | hpos2
  · have hb : b = [] := by
      rcases b with _ | ⟨e, b⟩
      · rfl
      · simp at hz
    subst hb
    simp
  · rw [List.take_zero, List.nil_append, List.drop_zero, Nat.zero_add,
      insertAll_drop b _ hpos2 _ (le_refl _)]

/-- The bucket loop's only error is `FileTooBig` (from `pos_plus`). -/
theorem writeSlots_errKind : ∀ (n t : Nat) (st : FinState),
    (writeSlots t n st).2 = none ∨
      (writeSlots t n st).2 = some CDBError.fileTooBig := by
  intro n
  induction n with
  | zero => intro t st; exact Or.inl rfl
  | succ n ih =>
    intro t st
    unfold writeSlots
    dsimp only
    split
    · exact Or.inr rfl
    · exact ih (t + 1) _

theorem finishBucket_errKind (i : Nat) (b : List HashPos) (st : FinState) :
    (finishBucket i b st).2 = none ∨
      (finishBucket i b st).2 = some CDBError.fileTooBig := by
  unfold finishBucket
  exact writeSlots_errKind _ 0 _

theorem finishLoop_errKind : ∀ (bs : List (List HashPos)) (i : Nat)
    (st : FinState), (finishLoop i bs st).2 = none ∨
      (finishLoop i bs st).2 = some CDBError.fileTooBig := by
  intro bs
  induction bs with
  | nil => intro i st; exact Or.inl rfl
  | cons b bs ih =>
    intro i st
    unfold finishLoop
    rcases hfb : finishBucket i b st with ⟨st1, e⟩
    rcases e with _ | e
    · rw [bindE_ok]
      exact ih (i + 1) st1
    · rw [bindE_err]
      rcases finishBucket_errKind i b st with h | h <;> rw [hfb] at h
      · exact absurd h (by simp)
      · simp at h
        subst h
        exact Or.inr rfl

@[simp] theorem sumLens_nil : sumLens [] = 0 := rfl

@[simp] theorem sumLens_cons (b : List HashPos) (bs : List (List HashPos)) :
    sumLens (b :: bs) = b.length + sumLens bs := by
  unfold sumLens
  simp

/-- The 256-bucket loop of `finish`, on the success path: starting from an
all-zero scratch table of `msize` slots that every bucket fits into, it
returns the table all-zero again, advances `pos` by `16·(total entries)`,
appends that many table bytes to the sink, leaves the header below slot
`i` unchanged, and stores `(entry pos, 2·|first bucket|)` in slot `i`. -/
theorem finishLoop_ok : ∀ (bs : List (List HashPos)) (i : Nat)
    (st : FinState) (msize : Nat),
    st.table = List.replicate msize HashPos.zero →
    st.file.pos = st.file.inner.length →
    st.pos < u32Mod →
    st.pos + 16 * sumLens bs < u32Mod →
    (∀ b ∈ bs, b.length * 2 ≤ msize) →
    st.header.length = 2048 →
    (i + bs.length) * 8 ≤ 2048 →
    ∃ hdr tb, finishLoop i bs st =
      (FinState.mk hdr st.table (st.pos + 16 * sumLens bs)
        (VecBuf.mk (st.file.inner ++ tb)
          (st.file.inner.length + 16 * sumLens bs)), none) ∧
      hdr.length = 2048 ∧
      tb.length = 16 * sumLens bs ∧
      hdr.take (i * 8) = st.header.take (i * 8) ∧
      (∀ b bs', bs = b :: bs' →
        (hdr.drop (i * 8)).take 8 =
          pack2 st.pos ((b.length * 2) % u32Mod)) := by
  intro bs
  induction bs with
  | nil =>
    intro i st msize htab hfp hpos hov hfit hhd hi
    refine ⟨st.header, [], ?_, hhd, by simp, rfl, ?_⟩
    · show (st, none) = _
      simp only [sumLens_nil, Nat.mul_zero, Nat.add_zero, List.append_nil]
      rw [← hfp]
    · intro b bs' h
      exact absurd h (by simp)
  | cons b bs ih =>
    intro i st msize htab hfp hpos hov hfit hhd hi
    simp only [List.length_cons] at hi
    have hsl : sumLens (b :: bs) = b.length + sumLens bs := sumLens_cons b bs
    have hfitb : b.length * 2 ≤ msize := hfit b (List.mem_cons_self b bs)
    have hmin : min (b.length * 2) msize = b.length * 2 := min_eq_left hfitb
    have hsplen : (spliceBytes st.header (i * 8)
        (pack2 st.pos ((b.length * 2) % u32Mod))).length = 2048 := by
      unfold spliceBytes
      simp only [List.length_append, List.length_take, List.length_drop,
        pack2_length]
      omega
    unfold finishLoop
    rw [finishBucket_ok i b st hfp hpos (by rw [htab, List.length_replicate]; omega)
      (by omega), bindE_ok]
    have htab1 : List.replicate (b.length * 2) HashPos.zero ++
        (st.table.drop (b.length * 2)) = List.replicate msize HashPos.zero := by
      rw [htab, List.drop_replicate, ← List.replicate_add]
      congr 1
      omega
    obtain ⟨hdr, tb, heq, hhl, htl, hpre, -⟩ := ih (i + 1)
      (FinState.mk
        (spliceBytes st.header (i * 8) (pack2 st.pos ((b.length * 2) % u32Mod)))
        (List.replicate (b.length * 2) HashPos.zero ++
          st.table.drop (b.length * 2))
        (st.pos + 8 * (b.length * 2))
        (VecBuf.mk (st.file.inner ++
            slotsBytes ((insertAll b (b.length * 2) st.table).take (b.length * 2)))
          (st.file.inner.length + 8 * (b.length * 2))))
      msize htab1
      (by
        dsimp only
        rw [List.length_append, slotsBytes_length, List.length_take,
          insertAll_length, htab, List.length_replicate, hmin])
      (by dsimp only; omega)
      (by dsimp only; omega)
      (fun b' hb' => hfit b' (List.mem_cons_of_mem b hb'))
      (by dsimp only; exact hsplen)
      (by omega)
    refine ⟨hdr, slotsBytes ((insertAll b (b.length * 2) st.table).take
      (b.length * 2)) ++ tb, ?_, hhl, ?_, ?_, ?_⟩
    · rw [heq, htab1, htab]
      simp only [Prod.mk.injEq, FinState.mk.injEq, VecBuf.mk.injEq,
        List.append_assoc, List.length_append, hsl, slotsBytes_length,
        List.length_take, insertAll_length, List.length_replicate, hmin]
      and_intros <;> first | trivial | ring
    · rw [List.length_append, htl, slotsBytes_length, List.length_take,
        insertAll_length, htab, List.length_replicate, hsl]
      rw [hmin]
      ring
    · have hstep : hdr.take ((i + 1) * 8) = (spliceBytes st.header (i * 8)
          (pack2 st.pos ((b.length * 2) % u32Mod))).take ((i + 1) * 8) := hpre
      have : hdr.take (i * 8) = ((hdr.take ((i + 1) * 8)).take (i * 8)) := by
        rw [List.take_take, min_eq_left (by omega)]
      rw [this, hstep, List.take_take, min_eq_left (by omega),
        spliceBytes_take_of_le]
      · omega
      · omega
    · intro b0 bs0 hb0
      have hb0' : b0 = b := by
        injection hb0 with h1 h2
        exact h1.symm
      rw [hb0']
      have h8 : (i + 1) * 8 = i * 8 + 8 := by ring
      have hsp : hdr.take (i * 8 + 8) = st.header.take (i * 8) ++
          pack2 st.pos ((b.length * 2) % u32Mod) := by
        rw [← h8, hpre, h8]
        have hpk : i * 8 + 8 = i * 8 +
            (pack2 st.pos ((b.length * 2) % u32Mod)).length := by simp
        rw [hpk]
        exact spliceBytes_take st.header
          (pack2 st.pos ((b.length * 2) % u32Mod)) (i * 8)
          (by simp only [pack2_length]; omega)
      have hdt : (hdr.drop (i * 8)).take 8 = (hdr.take (i * 8 + 8)).drop (i * 8) := by
        rw [List.drop_take]
        congr 1
        omega
      rw [hdt, hsp, List.drop_append_eq_append_drop,
        List.drop_eq_nil_of_le (by rw [List.length_take]; omega),
        List.nil_append, List.length_take,
        show i * 8 - min (i * 8) st.header.length = 0 from by omega,
        List.drop_zero]

/-- `CDBMake::new` resolved: 2048 zero bytes in the sink, cursor at the
end. -/
theorem CDBMake_new_file :
    CDBMake.new.file = VecBuf.mk (List.replicate 2048 0) 2048 := by
  show (VecBuf.new.seekStart 0).write (List.replicate 2048 0) = _
  rw [VecBuf.write_append _ _ rfl]
  simp [VecBuf.new, VecBuf.seekStart, List.length_replicate,
    -List.reduceReplicate]

theorem sumLens_replicate_nil (k : Nat) :
    sumLens (List.replicate k []) = 0 := by
  induction k with
  | zero => rfl
  | succ k ih => rw [List.replicate_succ, sumLens_cons, ih]; rfl

theorem maxsize_foldl_nil : ∀ (k a : Nat),
    List.foldl (fun acc (e : List HashPos) => max acc (e.length * 2)) a
      (List.replicate k []) = a := by
  intro k
  induction k with
  | zero => intro a; rfl
  | succ k ih =>
    intro a
    rw [List.replicate_succ, List.foldl_cons, ih]
    simp

theorem count_foldl_nil : ∀ (k a : Nat),
    List.foldl (fun acc (e : List HashPos) => acc + e.length) a
      (List.replicate k []) = a := by
  intro k
  induction k with
  | zero => intro a; rfl
  | succ k ih =>
    intro a
    rw [List.replicate_succ, List.foldl_cons, ih]
    rfl

theorem maxsize_new : CDBMake.new.maxsize = 1 := by
  unfold CDBMake.maxsize
  rw [show CDBMake.new.entries = List.replicate 256 ([] : List HashPos)
    from rfl]
  exact maxsize_foldl_nil 256 1

theorem count_new : CDBMake.new.count = 0 := by
  unfold CDBMake.count
  rw [show CDBMake.new.entries = List.replicate 256 ([] : List HashPos)
    from rfl]
  exact count_foldl_nil 256 0

/-- A successful checked read stays inside the image. -/
theorem CDB.read_some_bound {file : List Nat} {len pos : Nat} {x : List Nat}
    (h : CDB.read file len pos = some x) : pos + len ≤ file.length := by
  unfold CDB.read at h
  split at h
  · assumption
  · exact absurd h (by simp)

/-- `vbody` never changes `hslots`, `key`, `hpos`; when it continues the
loop it has incremented `kloop` by one. -/
theorem vbody_spec (file : List Nat) (s : VIter) :
    (vbody file s).2.1.hslots = s.hslots ∧ (vbody file s).2.1.key = s.key ∧
    (vbody file s).2.1.hpos = s.hpos ∧
    ((vbody file s).1 = none → (vbody file s).2.1.kloop = s.kloop + 1) := by
  unfold vbody
  dsimp only
  repeat' split
  all_goals simp_all

/-- A successful checked read is exactly an in-range slice. -/
theorem CDB.read_eq_some {file : List Nat} {len pos : Nat} {x : List Nat} :
    CDB.read file len pos = some x ↔
      pos + len ≤ file.length ∧ x = sliceBytes file pos (pos + len) := by
  unfold CDB.read
  split <;> simp_all [eq_comm]

theorem CDB.read_isSome {file : List Nat} {len pos : Nat} :
    (CDB.read file len pos).isSome ↔ pos + len ≤ file.length := by
  unfold CDB.read
  split <;> simp_all

/-- Every access `vbody` records lies inside the image. -/
theorem vbody_trace (file : List Nat) (s : VIter) :
    ∀ a ∈ (vbody file s).2.2, a.1 + a.2 ≤ file.length := by
  intro a ha
  unfold vbody at ha
  rcases h1 : CDB.read file 8 s.kpos with _ | p
  · rw [h1] at ha
    simp at ha
  · rw [h1] at ha
    have b1 := CDB.read_some_bound h1
    dsimp only [unpack2] at ha
    by_cases h2 : unpack (p.drop 4) = 0
    · rw [if_pos h2] at ha
      simp at ha
      subst ha
      dsimp
      omega
    · rw [if_neg h2] at ha
      by_cases h3 : unpack (p.take 4) = s.advance.khash
      · rw [if_pos h3] at ha
        rcases h4 : CDB.read file 8 (unpack (p.drop 4)) with _ | q
        · rw [h4] at ha
          simp at ha
          subst ha
          dsimp
          omega
        · rw [h4] at ha
          have b2 := CDB.read_some_bound h4
          dsimp only [unpack2] at ha
          by_cases h5 : unpack (q.take 4) = s.advance.key.length ∧
              CDB.read file s.advance.key.length
                ((unpack (p.drop 4) + 8) % u32Mod) = some s.advance.key
          · rw [if_pos h5] at ha
            have b3 := CDB.read_some_bound h5.2
            simp only [VIter.advance_key] at b3
            rcases h6 : CDB.read file (unpack (q.drop 4))
                (((unpack (p.drop 4) + 8) % u32Mod +
                  s.advance.key.length % u32Mod) % u32Mod) with _ | v
            · rw [h6] at ha
              simp at ha
              rcases ha with rfl | rfl | rfl <;> dsimp <;> omega
            · rw [h6] at ha
              have b4 := CDB.read_some_bound h6
              simp at b4
              simp at ha
              rcases ha with rfl | rfl | rfl | rfl <;> dsimp <;> omega
          · rw [if_neg h5] at ha
            by_cases h7 : unpack (q.take 4) = s.advance.key.length ∧
                (CDB.read file s.advance.key.length
                  ((unpack (p.drop 4) + 8) % u32Mod)).isSome
            · rw [if_pos h7] at ha
              have b3 := CDB.read_isSome.mp h7.2
              simp only [VIter.advance_key] at b3
              simp at ha
              rcases ha with rfl | rfl | rfl <;> dsimp <;> omega
            · rw [if_neg h7] at ha
              simp at ha
              rcases ha with rfl | rfl <;> dsimp <;> omega
      · rw [if_neg h3] at ha
        simp at ha
        subst ha
        dsimp
        omega

/-- With the loop guard false, `next()` returns `None` at once. -/
theorem vnextFuel_exhausted (file : List Nat) (s : VIter)
    (h : ¬ s.kloop < s.hslots) (fuel : Nat) :
    vnextFuel file s fuel = (none, s, []) := by
  cases fuel with
  | zero => rfl
  | succ n =>
    unfold vnextFuel
    rw [if_neg h]

/-- `next()` terminates: any fuel of at least `hslots - kloop` iterations
(each iteration increments `kloop`) gives the same outcome. -/
theorem vnextFuel_stable (file : List Nat) : ∀ (d : Nat) (s : VIter)
    (f1 f2 : Nat), s.hslots - s.kloop = d → d ≤ f1 → d ≤ f2 →
    vnextFuel file s f1 = vnextFuel file s f2 := by
  intro d
  induction d with
  | zero =>
    intro s f1 f2 hd _ _
    have h : ¬ s.kloop < s.hslots := by omega
    rw [vnextFuel_exhausted file s h f1, vnextFuel_exhausted file s h f2]
  | succ e ih =>
    intro s f1 f2 hd h1 h2
    obtain ⟨a, rfl⟩ : ∃ a, f1 = a + 1 := ⟨f1 - 1, by omega⟩
    obtain ⟨b, rfl⟩ : ∃ b, f2 = b + 1 := ⟨f2 - 1, by omega⟩
    have hk : s.kloop < s.hslots := by omega
    unfold vnextFuel
    rw [if_pos hk, if_pos hk]
    rcases hv : vbody file s with ⟨r, s', tr⟩
    have hs := vbody_spec file s
    rw [hv] at hs
    rcases r with _ | r
    · have hd' : s'.hslots - s'.kloop = e := by
        have := hs.2.2.2 rfl
        have := hs.1
        dsimp at *
        omega
      dsimp only
      rw [ih s' a b hd' (by omega) (by omega)]
    · rfl

/-- Every access `next()` records lies inside the image, whatever the
iterator state and the image contents. -/
theorem vnextFuel_trace (file : List Nat) : ∀ (fuel : Nat) (s : VIter),
    ∀ a ∈ (vnextFuel file s fuel).2.2, a.1 + a.2 ≤ file.length := by
  intro fuel
  induction fuel with
  | zero => intro s a ha; simp [vnextFuel] at ha
  | succ n ih =>
    intro s a ha
    unfold vnextFuel at ha
    by_cases hk : s.kloop < s.hslots
    · rw [if_pos hk] at ha
      rcases hv : vbody file s with ⟨r, s', tr⟩
      rw [hv] at ha
      have htr := vbody_trace file s
      rw [hv] at htr
      rcases r with _ | r
      · dsimp at ha
        rcases List.mem_append.mp ha with h | h
        · exact htr a h
        · exact ih s' a h
      · exact htr a ha
    · rw [if_neg hk] at ha
      simp at ha

/-- `find` positions its iterator on any image of at least 2048 bytes
(the header read `file[x..x+8]` has `x + 8 ≤ 2048`). -/
theorem findStart_isSome (file key : List Nat) (h : 2048 ≤ file.length) :
    (CDB.findStart file key).isSome := by
  unfold CDB.findStart CDB.hashTable
  have hx : hash key % 256 * 8 + 8 ≤ file.length := by
    have := Nat.mod_lt (hash key) (show 0 < 256 by norm_num)
    omega
  rw [if_pos hx]
  simp [unpack2]

/-- A 2080-byte adversarial image: the first header word declares
`data_end = 2064`, and the record at 2048 declares `klen = 7`,
`dlen = 8`, so its extent `2048 + 8 + 7 + 8 = 2071` runs past `data_end`
but survives the `pos + klen + dlen >= data_end` check (`2063 < 2064`). -/
def cImg6 : List Nat :=
  pack32 2064 ++ List.replicate 2044 0 ++ pack32 7 ++ pack32 8 ++
    List.replicate 24 9

theorem cImg6_length : cImg6.length = 2080 := by
  simp [cImg6, -List.reduceReplicate]

theorem cImg6_head_slice : sliceBytes cImg6 0 4 = pack32 2064 := by
  unfold cImg6
  exact sliceBytes_exact (pack32 2064) _ 4 rfl

theorem cImg6_record_slice : unpack2 (sliceBytes cImg6 2048 2056) = (7, 8) := by
  have hg : cImg6 = (pack32 2064 ++ List.replicate 2044 0) ++
      (pack2 7 8 ++ List.replicate 24 9) := by
    simp [cImg6, pack2, List.append_assoc, -List.reduceReplicate]
  have hL : (pack32 2064 ++ List.replicate 2044 0).length = 2048 := by
    simp [-List.reduceReplicate]
  rw [hg, sliceBytes_append_right _ _ 2048 2056 (by rw [hL]), hL]
  rw [show (2048 : Nat) - 2048 = 0 from rfl, show (2056 : Nat) - 2048 = 8 from rfl]
  rw [sliceBytes_exact _ _ 8 (by simp)]
  exact unpack2_pack2 7 8 (by norm_num [u32Mod]) (by norm_num [u32Mod])

theorem cImg6_key_slice : sliceBytes cImg6 2056 2063 = List.replicate 7 9 := by
  have hg : cImg6 = (pack32 2064 ++ List.replicate 2044 0 ++ pack32 7 ++ pack32 8) ++
      List.replicate 24 9 := by
    simp [cImg6, List.append_assoc, -List.reduceReplicate]
  have hL : (pack32 2064 ++ List.replicate 2044 0 ++ pack32 7 ++ pack32 8).length =
      2056 := by
    simp [-List.reduceReplicate]
  rw [hg, sliceBytes_append_right _ _ 2056 2063 (by rw [hL]; try norm_num), hL]
  rw [sliceBytes_replicate]
  norm_num

theorem cImg6_value_slice : sliceBytes cImg6 2063 2071 = List.replicate 8 9 := by
  have hg : cImg6 = (pack32 2064 ++ List.replicate 2044 0 ++ pack32 7 ++ pack32 8) ++
      List.replicate 24 9 := by
    simp [cImg6, List.append_assoc, -List.reduceReplicate]
  have hL : (pack32 2064 ++ List.replicate 2044 0 ++ pack32 7 ++ pack32 8).length =
      2056 := by
    simp [-List.reduceReplicate]
  rw [hg, sliceBytes_append_right _ _ 2063 2071 (by rw [hL]; try norm_num), hL]
  rw [sliceBytes_replicate]
  norm_num

/-- Counterexample for C6 as stated: at `pos = 2048` the record's extent
`pos + 8 + klen + dlen = 2071` exceeds `data_end = 2064`, so the claim
predicts a `BadFormat` error, but `next()` yields the record (reading 7
bytes past the data region) and advances. -/
theorem kv_error_check_counterexample :
    kvStart cImg6 = some ⟨2048, 2064⟩ ∧
    unpack2 (sliceBytes cImg6 2048 2056) = (7, 8) ∧
    kvNext cImg6 ⟨2048, 2064⟩ =
      some (.item (List.replicate 7 9) (List.replicate 8 9), ⟨2071, 2064⟩) := by
  refine ⟨?_, cImg6_record_slice, ?_⟩
  · unfold kvStart
    rw [if_pos (by rw [cImg6_length]; norm_num), cImg6_head_slice,
      unpack_pack32 2064 (by norm_num [u32Mod]), cImg6_length]
    norm_num [u32Mod]
  · unfold kvNext
    rw [cImg6_record_slice, cImg6_length]
    norm_num [u32Mod]
    rw [cImg6_key_slice, cImg6_value_slice]
    exact ⟨rfl, rfl⟩

/-- Claim C6 (amended) — the full-iteration error condition: with
`(pos + 8) % 2³² < data_end` (so the call does not end) and the 8-byte
length prefix inside the image, `next()` yields the `BadFormat` error
exactly when `pos + klen + dlen ≥ data_end` (wrapping 32-bit arithmetic;
the code omits the `+ 8` and uses `≥` where the claim says
`pos + 8 + klen + dlen > data_end`); otherwise, whenever the record's full
extent also lies inside the image, it yields the record and advances `pos`
by `8 + klen + dlen`. -/
theorem kvNext_error_condition (file : List Nat) (s : KVIter)
    (h1 : (s.pos + 8) % u32Mod < s.dataEnd) (h2 : s.pos + 8 ≤ file.length) :
    (kvNext file s = some (.err, s) ↔
      ((s.pos + (unpack2 (sliceBytes file s.pos (s.pos + 8))).1) % u32Mod +
        (unpack2 (sliceBytes file s.pos (s.pos + 8))).2) % u32Mod ≥ s.dataEnd) ∧
    (((s.pos + (unpack2 (sliceBytes file s.pos (s.pos + 8))).1) % u32Mod +
        (unpack2 (sliceBytes file s.pos (s.pos + 8))).2) % u32Mod < s.dataEnd →
      s.pos + 8 + (unpack2 (sliceBytes file s.pos (s.pos + 8))).1 +
        (unpack2 (sliceBytes file s.pos (s.pos + 8))).2 ≤ file.length →
      kvNext file s = some (.item
        (sliceBytes file (s.pos + 8)
          (s.pos + 8 + (unpack2 (sliceBytes file s.pos (s.pos + 8))).1))
        (sliceBytes file
          (s.pos + 8 + (unpack2 (sliceBytes file s.pos (s.pos + 8))).1)
          (s.pos + 8 + (unpack2 (sliceBytes file s.pos (s.pos + 8))).1 +
            (unpack2 (sliceBytes file s.pos (s.pos + 8))).2)),
        ⟨(s.pos + ((8 + (unpack2 (sliceBytes file s.pos (s.pos + 8))).1) % u32Mod +
            (unpack2 (sliceBytes file s.pos (s.pos + 8))).2) % u32Mod) % u32Mod,
          s.dataEnd⟩)) := by
  unfold kvNext
  rcases hu : unpack2 (sliceBytes file s.pos (s.pos + 8)) with ⟨klen, dlen⟩
  simp only [hu, ge_iff_le]
  rw [if_neg (Nat.not_le.mpr h1), if_pos h2]
  constructor
  · constructor
    · intro h
      by_contra hno
      rw [if_neg hno] at h
      split at h <;> simp_all
    · intro hge
      rw [if_pos hge]
  · intro hlt hext
    rw [if_neg (Nat.not_le.mpr hlt), if_pos (by omega), if_pos (by omega)]

/-- Witness for C6 (amended) at the concrete image `cImg6` and the start
state of its iterator. -/
theorem kvNext_error_condition_witness :
    (kvNext cImg6 ⟨2048, 2064⟩ = some (.err, ⟨2048, 2064⟩) ↔
      ((2048 + (unpack2 (sliceBytes cImg6 2048 (2048 + 8))).1) % u32Mod +
        (unpack2 (sliceBytes cImg6 2048 (2048 + 8))).2) % u32Mod ≥ 2064) ∧
    (((2048 + (unpack2 (sliceBytes cImg6 2048 (2048 + 8))).1) % u32Mod +
        (unpack2 (sliceBytes cImg6 2048 (2048 + 8))).2) % u32Mod < 2064 →
      2048 + 8 + (unpack2 (sliceBytes cImg6 2048 (2048 + 8))).1 +
        (unpack2 (sliceBytes cImg6 2048 (2048 + 8))).2 ≤ cImg6.length →
      kvNext cImg6 ⟨2048, 2064⟩ = some (.item
        (sliceBytes cImg6 (2048 + 8)
          (2048 + 8 + (unpack2 (sliceBytes cImg6 2048 (2048 + 8))).1))
        (sliceBytes cImg6
          (2048 + 8 + (unpack2 (sliceBytes cImg6 2048 (2048 + 8))).1)
          (2048 + 8 + (unpack2 (sliceBytes cImg6 2048 (2048 + 8))).1 +
            (unpack2 (sliceBytes cImg6 2048 (2048 + 8))).2)),
        ⟨(2048 + ((8 + (unpack2 (sliceBytes cImg6 2048 (2048 + 8))).1) % u32Mod +
            (unpack2 (sliceBytes cImg6 2048 (2048 + 8))).2) % u32Mod) % u32Mod,
          2064⟩)) :=
  by
  have h := kvNext_error_condition cImg6 ⟨2048, 2064⟩
    (by show (2048 + 8) % u32Mod < 2064; norm_num [u32Mod])
    (by show 2048 + 8 ≤ cImg6.length; rw [cImg6_length]; norm_num)
  dsimp only at h
  exact h

/-- A 2064-byte adversarial image (within the claim's size range): the
record at 2048 declares `klen = 7`, `dlen = 8`; the value copy
`file[2063..2071]` runs past the end of the 2064-byte image, and the
iterator indexes the image directly (no checked slice), so `next()`
panics instead of ending the iteration. -/
def cImg4 : List Nat :=
  pack32 2064 ++ List.replicate 2044 0 ++ pack32 7 ++ pack32 8 ++
    List.replicate 8 9

theorem cImg4_length : cImg4.length = 2064 := by
  simp [cImg4, -List.reduceReplicate]

theorem cImg4_record_slice : unpack2 (sliceBytes cImg4 2048 2056) = (7, 8) := by
  have hg : cImg4 = (pack32 2064 ++ List.replicate 2044 0) ++
      (pack2 7 8 ++ List.replicate 8 9) := by
    simp [cImg4, pack2, List.append_assoc, -List.reduceReplicate]
  have hL : (pack32 2064 ++ List.replicate 2044 0).length = 2048 := by
    simp [-List.reduceReplicate]
  rw [hg, sliceBytes_append_right _ _ 2048 2056 (by rw [hL]), hL]
  rw [show (2048 : Nat) - 2048 = 0 from rfl, show (2056 : Nat) - 2048 = 8 from rfl]
  rw [sliceBytes_exact _ _ 8 (by simp)]
  exact unpack2_pack2 7 8 (by norm_num [u32Mod]) (by norm_num [u32Mod])

/-- Counterexample for C4 as stated: on the 2064-byte image `cImg4`
(within `[2064, 2³²)`), a full-iteration `next()` call reaches an
out-of-range direct index (`none` = panic) instead of terminating the
iteration, contradicting "every file access in reader iteration goes
through a checked slice, and any out-of-range access terminates the
iteration". -/
theorem kv_unchecked_access_counterexample :
    cImg4.length = 2064 ∧
    kvStart cImg4 = some ⟨2048, 2064⟩ ∧
    kvNext cImg4 ⟨2048, 2064⟩ = none := by
  refine ⟨cImg4_length, ?_, ?_⟩
  · unfold kvStart
    have hs : sliceBytes cImg4 0 4 = pack32 2064 := by
      unfold cImg4
      exact sliceBytes_exact (pack32 2064) _ 4 rfl
    rw [if_pos (by rw [cImg4_length]; norm_num), hs,
      unpack_pack32 2064 (by norm_num [u32Mod]), cImg4_length]
    norm_num [u32Mod]
  · unfold kvNext
    rw [cImg4_record_slice, cImg4_length]
    norm_num [u32Mod]

/-- Claim C4 (amended) — bound safety of the lookup path: on any image in
`[2064, 2³²)` bytes (arbitrary contents) and for any key, `find`
constructs its iterator without a panic, a `next()` call terminates
within `hslots - kloop` probe iterations (any larger fuel gives the same
outcome), and every byte the probe loop reads lies inside the image (all
its accesses go through the checked `CDB::read`).  The full-iteration
side of the original claim is false: see
`kv_unchecked_access_counterexample`. -/
theorem find_bound_safety (file key : List Nat) (s : VIter) (fuel : Nat)
    (h1 : 2064 ≤ file.length) (h2 : file.length ≤ 4294967295) :
    (CDB.findStart file key).isSome ∧
    (s.hslots - s.kloop ≤ fuel →
      vnextFuel file s fuel = vnextFuel file s (s.hslots - s.kloop)) ∧
    (∀ a ∈ (vnextFuel file s fuel).2.2, a.1 + a.2 ≤ file.length) :=
  ⟨findStart_isSome file key (by omega),
   fun h => vnextFuel_stable file (s.hslots - s.kloop) s fuel
     (s.hslots - s.kloop) rfl h (le_refl _),
   fun a ha => vnextFuel_trace file fuel s a ha⟩

/-- Witness for C4 (amended) at the concrete image `cImg6`, the empty key
and an exhausted iterator state. -/
theorem find_bound_safety_witness :
    (CDB.findStart cImg6 []).isSome ∧
    vnextFuel cImg6 ⟨[], 5381, 0, 0, 0, 0⟩ 1 =
      vnextFuel cImg6 ⟨[], 5381, 0, 0, 0, 0⟩
        ((⟨[], 5381, 0, 0, 0, 0⟩ : VIter).hslots -
          (⟨[], 5381, 0, 0, 0, 0⟩ : VIter).kloop) := by
  have h := find_bound_safety cImg6 [] ⟨[], 5381, 0, 0, 0, 0⟩ 1
    (by rw [cImg6_length]; norm_num) (by rw [cImg6_length]; norm_num)
  exact ⟨h.1, h.2.1 (by norm_num)⟩


/-! ## C7: the empty-bucket header slot -/

/-- C7: what `finish` writes for a bucket with no entries.  The claim says
the header slot gets `(0, 0)`; the code unconditionally packs
`(self.pos, len as u32)`, so an empty bucket's slot holds the *current
file position* paired with `0` — only the slot count is `0`.  No table
bytes are emitted and `pos`, the scratch table and the sink are untouched,
as the claim says. -/
theorem finishBucket_empty_slot (i : Nat) (st : FinState) :
    finishBucket i [] st =
      ({ st with header := spliceBytes st.header (i * 8) (pack2 st.pos 0) },
        none) := by
  unfold finishBucket
  dsimp only
  simp only [List.length_nil, Nat.zero_mul, Nat.zero_mod, insertAll_nil]
  rfl

/-- C7 counterexample: finishing a freshly created writer (every bucket
empty) produces an image whose header slot 0 holds `(2048, 0)`, not the
`(0, 0)` the claim requires. -/
theorem finish_empty_header_slot_counterexample :
    ∃ v : VecBuf, CDBMake.new.finish = Except.ok v ∧
      unpack2 (sliceBytes v.inner 0 8) = (2048, 0) := by
  have hrep : List.replicate 256 ([] : List HashPos) =
      [] :: List.replicate 255 [] := by
    rw [show (256 : Nat) = 255 + 1 from by norm_num, List.replicate_succ]
  obtain ⟨hdr, tb, heq, hhl, htl, hpre, hslot⟩ :=
    finishLoop_ok (List.replicate 256 []) 0
      (FinState.mk (List.replicate 2048 0)
        (List.replicate CDBMake.new.maxsize HashPos.zero)
        CDBMake.new.pos CDBMake.new.file) CDBMake.new.maxsize
      (by dsimp only)
      (by rw [CDBMake_new_file]; dsimp only; rw [List.length_replicate])
      (by rw [show CDBMake.new.pos = 2048 from rfl]; norm_num [u32Mod])
      (by
        rw [show CDBMake.new.pos = 2048 from rfl, sumLens_replicate_nil]
        norm_num [u32Mod])
      (fun b hb => by
        rw [List.eq_of_mem_replicate hb, maxsize_new]
        simp)
      (by dsimp only; rw [List.length_replicate])
      (by rw [List.length_replicate])
  have htb : tb = [] := by
    rw [← List.length_eq_zero]
    rw [htl, sumLens_replicate_nil]
  have hslot0 := hslot [] (List.replicate 255 []) hrep
  dsimp only at hslot0
  simp only [List.length_nil, Nat.zero_mul, Nat.zero_mod, List.drop_zero]
    at hslot0
  refine ⟨VecBuf.mk hdr 2048, ?_, ?_⟩
  · unfold CDBMake.finish
    rw [if_neg (by rw [maxsize_new, count_new]; norm_num)]
    rw [show CDBMake.new.entries = List.replicate 256 ([] : List HashPos)
      from rfl, heq]
    dsimp only
    rw [htb, sumLens_replicate_nil, CDBMake_new_file]
    dsimp only [VecBuf.seekStart]
    rw [VecBuf.write_eq_splice _ hdr (by dsimp only; omega)]
    dsimp only
    rw [List.append_nil, List.take_zero, List.nil_append, hhl,
      List.drop_replicate]
    simp only [Nat.sub_self, List.replicate_zero, List.append_nil,
      Nat.zero_add]
  · have hsl8 : sliceBytes (VecBuf.mk hdr 2048).inner 0 8 = hdr.take 8 := by
      unfold sliceBytes
      dsimp only
      rw [Nat.sub_zero, List.drop_zero]
    rw [hsl8, hslot0, show CDBMake.new.pos = 2048 from rfl]
    exact unpack2_pack2 2048 0 (by norm_num [u32Mod]) (by norm_num [u32Mod])

/-! ## C8: the `finish` size guard -/

/-- C8: `finish` fails with `FileTooBig` iff
`maxsize + count > 0xffffffff / 8` — integer division, so the threshold
is `536870911`, not the claim's `2³²/8 = 536870912` — or the later
finalization loop overflows the 32-bit position (`pos_plus`), which is
also reported as `FileTooBig`. -/
theorem finish_fileTooBig_iff (m : CDBMake) :
    m.finish = Except.error CDBError.fileTooBig ↔
      536870911 < m.maxsize + m.count ∨
      (finishLoop 0 m.entries
        (FinState.mk (List.replicate 2048 0)
          (List.replicate m.maxsize HashPos.zero) m.pos m.file)).2 ≠
        none := by
  unfold CDBMake.finish
  by_cases hg : m.maxsize + m.count > 4294967295 / 8
  · rw [if_pos hg]
    exact ⟨fun _ => Or.inl (by omega), fun _ => rfl⟩
  · rw [if_neg hg]
    rcases hl : finishLoop 0 m.entries
      (FinState.mk (List.replicate 2048 0)
        (List.replicate m.maxsize HashPos.zero) m.pos m.file) with ⟨st1, e⟩
    rcases e with _ | e
    · dsimp only
      constructor
      · intro h
        exact absurd h (by simp)
      · rintro (h | h)
        · omega
        · exact absurd rfl h
    · have he : e = CDBError.fileTooBig := by
        rcases finishLoop_errKind m.entries 0
          (FinState.mk (List.replicate 2048 0)
            (List.replicate m.maxsize HashPos.zero) m.pos m.file) with h | h <;>
          rw [hl] at h
        · exact absurd h (by simp)
        · simpa using h
      subst he
      dsimp only
      constructor
      · intro _
        right
        simp
      · intro _
        rfl

/-- C8 counterexample: a writer whose buckets give
`maxsize + count = 536870912` exactly.  The claim's threshold
(`> 2³²/8 = 536870912`) says the guard passes; the code's integer-division
threshold `0xffffffff / 8 = 536870911` makes `finish` fail with
`FileTooBig`. -/
theorem maxsize_two_buckets (n1 n2 p : Nat) (f : VecBuf) :
    (CDBMake.mk [List.replicate n1 HashPos.zero,
      List.replicate n2 HashPos.zero] p f).maxsize =
      max (max 1 (n1 * 2)) (n2 * 2) := by
  unfold CDBMake.maxsize
  dsimp only
  rw [List.foldl_cons, List.foldl_cons, List.foldl_nil]
  simp only [List.length_replicate]

theorem count_two_buckets (n1 n2 p : Nat) (f : VecBuf) :
    (CDBMake.mk [List.replicate n1 HashPos.zero,
      List.replicate n2 HashPos.zero] p f).count = 0 + n1 + n2 := by
  unfold CDBMake.count
  dsimp only
  rw [List.foldl_cons, List.foldl_cons, List.foldl_nil]
  simp only [List.length_replicate]

theorem finish_guard_threshold_counterexample :
    ∃ m : CDBMake, m.maxsize + m.count = 536870912 ∧
      m.finish = Except.error CDBError.fileTooBig := by
  refine ⟨CDBMake.mk [List.replicate 178956970 HashPos.zero,
    List.replicate 2 HashPos.zero] 2048 VecBuf.new, ?_, ?_⟩
  · rw [maxsize_two_buckets, count_two_buckets]
    omega
  · unfold CDBMake.finish
    rw [if_pos]
    rw [maxsize_two_buckets, count_two_buckets]
    omega


/-! ## The `add` path, resolved -/

@[simp] theorem sizeSum_nil : sizeSum [] = 0 := rfl

@[simp] theorem sizeSum_cons (r : List Nat × List Nat)
    (rs : List (List Nat × List Nat)) :
    sizeSum (r :: rs) = recSize r + sizeSum rs := by
  unfold sizeSum
  simp

/-- Appending one entry to bucket `i` grows the total entry count by 1. -/
theorem sumLens_modify_append (x : HashPos) :
    ∀ (i : Nat) (l : List (List HashPos)), i < l.length →
    sumLens (l.modify (fun b => b ++ [x]) i) = sumLens l + 1 := by
  intro i
  induction i with
  | zero =>
    intro l hl
    rcases l with _ | ⟨b, l⟩
    · simp at hl
    · rw [List.modify_zero_cons, sumLens_cons, sumLens_cons]
      simp only [List.length_append, List.length_cons, List.length_nil]
      omega
  | succ i ih =>
    intro l hl
    rcases l with _ | ⟨b, l⟩
    · simp at hl
    · rw [List.modify_succ_cons, sumLens_cons, sumLens_cons,
        ih l (by simp only [List.length_cons] at hl; omega)]
      omega

theorem foldl_add_len : ∀ (es : List (List HashPos)) (a : Nat),
    List.foldl (fun acc e => acc + e.length) a es = a + sumLens es := by
  intro es
  induction es with
  | nil => intro a; rfl
  | cons e es ih =>
    intro a
    rw [List.foldl_cons, ih, sumLens_cons]
    omega

/-- `count` is the total number of pending entries. -/
theorem count_eq_sumLens (m : CDBMake) : m.count = sumLens m.entries := by
  unfold CDBMake.count
  rw [foldl_add_len]
  omega

theorem foldl_max_le : ∀ (es : List (List HashPos)) (a c : Nat),
    a ≤ 1 + 2 * c →
    List.foldl (fun acc e => max acc (e.length * 2)) a es ≤
      1 + 2 * List.foldl (fun acc e => acc + e.length) c es := by
  intro es
  induction es with
  | nil => intro a c h; exact h
  | cons e es ih =>
    intro a c h
    rw [List.foldl_cons, List.foldl_cons]
    exact ih _ _ (by omega)

/-- `maxsize` is at most `1 + 2·count`. -/
theorem maxsize_le (m : CDBMake) : m.maxsize ≤ 1 + 2 * m.count :=
  foldl_max_le m.entries 1 0 (by omega)

theorem le_foldl_max : ∀ (es : List (List HashPos)) (a : Nat),
    a ≤ List.foldl (fun acc e => max acc (e.length * 2)) a es := by
  intro es
  induction es with
  | nil => intro a; exact le_refl a
  | cons e es ih =>
    intro a
    rw [List.foldl_cons]
    exact le_trans (le_max_left _ _) (ih _)

theorem foldl_max_fit : ∀ (es : List (List HashPos)) (a : Nat) (b : List HashPos),
    b ∈ es → b.length * 2 ≤
      List.foldl (fun acc e => max acc (e.length * 2)) a es := by
  intro es
  induction es with
  | nil => intro a b hb; exact absurd hb (by simp)
  | cons e es ih =>
    intro a b hb
    rw [List.foldl_cons]
    rcases List.mem_cons.mp hb with rfl | hb
    · calc b.length * 2 ≤ max a (b.length * 2) := le_max_right _ _
        _ ≤ _ := le_foldl_max es _
    · exact ih _ b hb

/-- Every bucket fits in the `maxsize`-slot scratch table. -/
theorem maxsize_fit (m : CDBMake) (b : List HashPos) (hb : b ∈ m.entries) :
    b.length * 2 ≤ m.maxsize :=
  foldl_max_fit m.entries 1 b hb

/-- `add_end`, resolved on the success path. -/
theorem CDBMake.addEnd_ok (m : CDBMake) (keylen datalen h : Nat)
    (hkl : keylen < u32Mod) (hdl : datalen < u32Mod)
    (hov : m.pos + 8 + keylen + datalen < u32Mod) :
    m.addEnd keylen datalen h = (CDBMake.mk
      (m.entries.modify (fun l => l ++ [HashPos.mk h m.pos]) (h % 256))
      (m.pos + 8 + keylen + datalen) m.file, none) := by
  have hM : u32Mod = 4294967296 := rfl
  unfold CDBMake.addEnd
  dsimp only
  rw [CDBMake.posPlus_eq _ 8 (by dsimp only; omega) (by omega)]
  rw [if_pos (show (CDBMake.mk
      (m.entries.modify (fun l => l ++ [HashPos.mk h m.pos]) (h % 256))
      m.pos m.file).pos + 8 < u32Mod from by dsimp only; omega)]
  rw [bindE_ok]
  rw [CDBMake.posPlus_eq _ keylen (by dsimp only; omega) hkl]
  rw [if_pos (show (CDBMake.mk
      (m.entries.modify (fun l => l ++ [HashPos.mk h m.pos]) (h % 256))
      (m.pos + 8) m.file).pos + keylen < u32Mod from by dsimp only; omega)]
  rw [bindE_ok]
  rw [CDBMake.posPlus_eq _ datalen (by dsimp only; omega) hdl]
  rw [if_pos (show (CDBMake.mk
      (m.entries.modify (fun l => l ++ [HashPos.mk h m.pos]) (h % 256))
      (m.pos + 8 + keylen) m.file).pos + datalen < u32Mod from by
        dsimp only; omega)]

/-- `add`, resolved on the success path: the encoded record is appended to
the sink, the entry `(hash key, old pos)` is pushed into bucket
`hash key & 0xff`, and `pos` advances by the record size. -/
theorem CDBMake.add_ok (m : CDBMake) (key data : List Nat)
    (hfp : m.file.pos = m.file.inner.length)
    (hk : key.length < 4294967295) (hd : data.length < 4294967295)
    (hov : m.pos + (8 + key.length + data.length) < u32Mod) :
    m.add key data = (CDBMake.mk
      (m.entries.modify (fun l => l ++ [HashPos.mk (hash key) m.pos])
        (hash key % 256))
      (m.pos + (8 + key.length + data.length))
      (VecBuf.mk (m.file.inner ++ recC (key, data))
        (m.file.inner.length + (8 + key.length + data.length))), none) := by
  have hM : u32Mod = 4294967296 := rfl
  unfold CDBMake.add
  rw [if_neg (by omega)]
  unfold CDBMake.addBegin
  dsimp only
  rw [VecBuf.write_append m.file _ hfp]
  rw [VecBuf.write_append (VecBuf.mk
      (m.file.inner ++ pack2 key.length data.length)
      (m.file.inner.length + (pack2 key.length data.length).length)) key
    (by dsimp only; rw [List.length_append])]
  rw [VecBuf.write_append (VecBuf.mk
      (m.file.inner ++ pack2 key.length data.length ++ key)
      ((m.file.inner ++ pack2 key.length data.length).length + key.length))
      data
    (by dsimp only; simp only [List.length_append])]
  rw [CDBMake.addEnd_ok (CDBMake.mk m.entries m.pos (VecBuf.mk
      (m.file.inner ++ pack2 key.length data.length ++ key ++ data)
      ((m.file.inner ++ pack2 key.length data.length ++ key).length +
        data.length)))
    key.length data.length (hash key) (by omega) (by omega)
    (by dsimp only; omega)]
  simp only [Prod.mk.injEq, CDBMake.mk.injEq, VecBuf.mk.injEq, recC,
    List.append_assoc, List.length_append, pack2_length]
  and_intros <;> first | trivial | ring

/-- A successful run of `add` over a record list: the encoded records are
appended in order, `pos` tracks the total size, and one entry per record
is pushed into the buckets. -/
theorem runAdds_ok : ∀ (rs : List (List Nat × List Nat)) (m : CDBMake),
    m.file.pos = m.file.inner.length →
    m.pos = m.file.inner.length →
    m.entries.length = 256 →
    m.pos + sizeSum rs < u32Mod →
    (∀ r ∈ rs, r.1.length < 4294967295 ∧ r.2.length < 4294967295) →
    ∃ M, m.runAdds rs = (M, none) ∧
      M.file.inner = m.file.inner ++ encList rs ∧
      M.file.pos = M.file.inner.length ∧
      M.pos = m.pos + sizeSum rs ∧
      M.entries.length = 256 ∧
      sumLens M.entries = sumLens m.entries + rs.length := by
  intro rs
  induction rs with
  | nil =>
    intro m h1 h2 h3 h4 h5
    exact ⟨m, rfl, by simp, h1, by simp, h3, by simp⟩
  | cons r rs ih =>
    rcases r with ⟨k, d⟩
    intro m h1 h2 h3 h4 h5
    have h5r := h5 (k, d) (List.mem_cons_self _ _)
    have hrec : recSize (k, d) = 8 + k.length + d.length := rfl
    rw [sizeSum_cons] at h4
    unfold CDBMake.runAdds
    rw [CDBMake.add_ok m k d h1 h5r.1 h5r.2 (by omega), bindE_ok]
    obtain ⟨M, hrun, hinner, hfp2, hpos2, hlen2, hsum2⟩ := ih
      (CDBMake.mk
        (m.entries.modify (fun l => l ++ [HashPos.mk (hash k) m.pos])
          (hash k % 256))
        (m.pos + (8 + k.length + d.length))
        (VecBuf.mk (m.file.inner ++ recC (k, d))
          (m.file.inner.length + (8 + k.length + d.length))))
      (by dsimp only; rw [List.length_append, recC_length, hrec])
      (by dsimp only; rw [List.length_append, recC_length, hrec, h2])
      (by dsimp only; rw [List.length_modify]; exact h3)
      (by dsimp only; omega)
      (fun r' hr' => h5 r' (List.mem_cons_of_mem _ hr'))
    refine ⟨M, hrun, ?_, hfp2, ?_, hlen2, ?_⟩
    · rw [hinner]
      dsimp only
      rw [encList_cons, List.append_assoc]
    · rw [hpos2]
      dsimp only
      rw [sizeSum_cons, hrec]
      ring
    · rw [hsum2]
      dsimp only
      rw [sumLens_modify_append (HashPos.mk (hash k) m.pos) (hash k % 256)
        m.entries (by rw [h3]; exact Nat.mod_lt _ (by norm_num))]
      rw [List.length_cons]
      ring


/-! ## Full iteration over a well-formed data region -/

/-- Slicing out exactly the middle list of a three-part append. -/
theorem sliceBytes_seg (A B C : List Nat) (a b : Nat)
    (ha : A.length = a) (hb : b = a + B.length) :
    sliceBytes (A ++ B ++ C) a b = B := by
  subst ha
  subst hb
  rw [List.append_assoc,
    sliceBytes_append_right A (B ++ C) _ _ (le_refl _),
    Nat.sub_self, Nat.add_sub_cancel_left]
  exact sliceBytes_exact B C B.length rfl

/-- One `next()` call of the full-record iterator positioned at an encoded
record that is not the final 8 bytes before `data_end`: the record is
yielded and `pos` advances past it. -/
theorem kvNext_record (pre rest k d : List Nat) (dEnd : Nat)
    (hlt : pre.length + 8 < dEnd)
    (hd1 : pre.length + 8 + k.length + d.length ≤ dEnd)
    (hdu : dEnd < u32Mod) :
    kvNext (pre ++ recC (k, d) ++ rest) (KVIter.mk pre.length dEnd) =
      some (KVOut.item k d,
        KVIter.mk (pre.length + (8 + k.length + d.length)) dEnd) := by
  have hM : u32Mod = 4294967296 := rfl
  have hrec : recSize (k, d) = 8 + k.length + d.length := rfl
  have hflen : (pre ++ recC (k, d) ++ rest).length =
      pre.length + (8 + k.length + d.length) + rest.length := by
    simp only [List.length_append, recC_length, hrec]
  have hs1 : sliceBytes (pre ++ recC (k, d) ++ rest) pre.length
      (pre.length + 8) = pack2 k.length d.length := by
    rw [show pre ++ recC (k, d) ++ rest =
        pre ++ pack2 k.length d.length ++ (k ++ (d ++ rest)) from by
      simp [recC, List.append_assoc]]
    exact sliceBytes_seg _ _ _ _ _ rfl (by rw [pack2_length])
  have hs2 : sliceBytes (pre ++ recC (k, d) ++ rest) (pre.length + 8)
      (pre.length + 8 + k.length) = k := by
    rw [show pre ++ recC (k, d) ++ rest =
        (pre ++ pack2 k.length d.length) ++ k ++ (d ++ rest) from by
      simp [recC, List.append_assoc]]
    exact sliceBytes_seg _ _ _ _ _ (by simp) rfl
  have hs3 : sliceBytes (pre ++ recC (k, d) ++ rest)
      (pre.length + 8 + k.length)
      (pre.length + 8 + k.length + d.length) = d := by
    rw [show pre ++ recC (k, d) ++ rest =
        (pre ++ pack2 k.length d.length ++ k) ++ d ++ rest from by
      simp [recC, List.append_assoc]]
    exact sliceBytes_seg _ _ _ _ _ (by simp [Nat.add_assoc]) rfl
  unfold kvNext
  dsimp only
  rw [Nat.mod_eq_of_lt (show pre.length + 8 < u32Mod from by omega)]
  rw [if_neg (show ¬ pre.length + 8 ≥ dEnd from by omega)]
  rw [if_pos (show pre.length + 8 ≤ (pre ++ recC (k, d) ++ rest).length
    from by rw [hflen]; omega)]
  rw [hs1, unpack2_pack2 _ _ (by omega) (by omega)]
  dsimp only
  rw [Nat.mod_eq_of_lt (show pre.length + k.length < u32Mod from by omega),
    Nat.mod_eq_of_lt
      (show pre.length + k.length + d.length < u32Mod from by omega)]
  rw [if_neg (show ¬ pre.length + k.length + d.length ≥ dEnd from by omega)]
  rw [if_pos (show pre.length + 8 + k.length ≤
      (pre ++ recC (k, d) ++ rest).length from by rw [hflen]; omega)]
  rw [if_pos (show pre.length + 8 + k.length + d.length ≤
      (pre ++ recC (k, d) ++ rest).length from by rw [hflen]; omega)]
  rw [hs2, hs3]
  rw [Nat.mod_eq_of_lt (show 8 + k.length < u32Mod from by omega),
    Nat.mod_eq_of_lt (show 8 + k.length + d.length < u32Mod from by omega),
    Nat.mod_eq_of_lt
      (show pre.length + (8 + k.length + d.length) < u32Mod from by omega)]


theorem recSize_ge_8 (r : List Nat × List Nat) : 8 ≤ recSize r := by
  unfold recSize
  omega

theorem recSize_le_sizeSum : ∀ (rs : List (List Nat × List Nat))
    (r : List Nat × List Nat), r ∈ rs → recSize r ≤ sizeSum rs := by
  intro rs
  induction rs with
  | nil => intro r hr; exact absurd hr (by simp)
  | cons r0 rs ih =>
    intro r hr
    rw [sizeSum_cons]
    rcases List.mem_cons.mp hr with rfl | hr
    · omega
    · have := ih r hr
      omega

/-- Draining the full-record iterator over a data region holding the
encoded records `rs` yields `iterExpected rs`: every record wrapped in
`Ok`, except a trailing fully-empty record, which is dropped. -/
theorem kvCollect_run : ∀ (rs : List (List Nat × List Nat))
    (pre post : List Nat) (fuel : Nat),
    rs.length < fuel →
    pre.length + sizeSum rs + 8 < u32Mod →
    kvCollect (pre ++ encList rs ++ post)
      (KVIter.mk pre.length (pre.length + sizeSum rs)) fuel =
      some (iterExpected rs) := by
  have hM : u32Mod = 4294967296 := rfl
  intro rs
  induction rs with
  | nil =>
    intro pre post fuel hf hb
    rcases fuel with _ | n
    · omega
    unfold kvCollect
    have hn : kvNext (pre ++ encList [] ++ post)
        (KVIter.mk pre.length (pre.length + sizeSum [])) =
        some (KVOut.done,
          KVIter.mk pre.length (pre.length + sizeSum [])) := by
      unfold kvNext
      dsimp only
      rw [Nat.mod_eq_of_lt (show pre.length + 8 < u32Mod from by
        rw [sizeSum_nil] at hb
        omega)]
      rw [if_pos (show pre.length + 8 ≥ pre.length + sizeSum [] from by
        rw [sizeSum_nil]
        omega)]
    rw [hn]
    rfl
  | cons r rs ih =>
    rcases r with ⟨k, d⟩
    intro pre post fuel hf hb
    rcases fuel with _ | n
    · omega
    have hrec : recSize (k, d) = 8 + k.length + d.length := rfl
    by_cases hE : rs = [] ∧ k = [] ∧ d = []
    · obtain ⟨rfl, rfl, rfl⟩ := hE
      have h8 : sizeSum [(([] : List Nat), ([] : List Nat))] = 8 := rfl
      unfold kvCollect
      have hn : kvNext (pre ++ encList [(([] : List Nat), ([] : List Nat))]
            ++ post)
          (KVIter.mk pre.length
            (pre.length + sizeSum [(([] : List Nat), ([] : List Nat))])) =
          some (KVOut.done, KVIter.mk pre.length
            (pre.length + sizeSum [(([] : List Nat), ([] : List Nat))])) := by
        unfold kvNext
        dsimp only
        rw [Nat.mod_eq_of_lt (show pre.length + 8 < u32Mod from by
          rw [h8] at hb
          omega)]
        rw [if_pos (show pre.length + 8 ≥
            pre.length + sizeSum [(([] : List Nat), ([] : List Nat))] from by
          rw [h8])]
      rw [hn]
      rfl
    · have hEpos : 0 < k.length + d.length + sizeSum rs := by
        by_contra h0
        push_neg at h0
        refine hE ⟨?_, List.length_eq_zero.mp (by omega),
          List.length_eq_zero.mp (by omega)⟩
        rcases hr : rs with _ | ⟨r0, rs0⟩
        · rfl
        · exfalso
          have h80 : 8 ≤ recSize r0 := recSize_ge_8 r0
          rw [hr, sizeSum_cons] at h0
          omega
      rw [sizeSum_cons, hrec] at hb
      have hfeq : pre ++ encList ((k, d) :: rs) ++ post =
          (pre ++ recC (k, d)) ++ encList rs ++ post := by
        rw [encList_cons]
        simp [List.append_assoc]
      have hplen : (pre ++ recC (k, d)).length =
          pre.length + (8 + k.length + d.length) := by
        rw [List.length_append, recC_length, hrec]
      have hnext : kvNext (pre ++ encList ((k, d) :: rs) ++ post)
          (KVIter.mk pre.length (pre.length + sizeSum ((k, d) :: rs))) =
          some (KVOut.item k d,
            KVIter.mk (pre.length + (8 + k.length + d.length))
              (pre.length + sizeSum ((k, d) :: rs))) := by
        rw [hfeq, show pre ++ recC (k, d) ++ encList rs ++ post =
            pre ++ recC (k, d) ++ (encList rs ++ post) from by
          simp [List.append_assoc]]
        exact kvNext_record pre (encList rs ++ post) k d _
          (by rw [sizeSum_cons, hrec]; omega)
          (by rw [sizeSum_cons, hrec]; omega)
          (by rw [sizeSum_cons, hrec]; omega)
      unfold kvCollect
      rw [hnext]
      dsimp only
      have hs' : KVIter.mk (pre.length + (8 + k.length + d.length))
          (pre.length + sizeSum ((k, d) :: rs)) =
          KVIter.mk (pre ++ recC (k, d)).length
            ((pre ++ recC (k, d)).length + sizeSum rs) := by
        rw [hplen, sizeSum_cons, hrec]
        congr 1
        omega
      rw [hs', show pre ++ encList ((k, d) :: rs) ++ post =
          (pre ++ recC (k, d)) ++ encList rs ++ post from hfeq]
      rw [ih (pre ++ recC (k, d)) post n
        (by simp only [List.length_cons] at hf; omega)
        (by rw [hplen]; omega)]
      rw [show iterExpected ((k, d) :: rs) =
          Except.ok (k, d) :: iterExpected rs from by
        rw [iterExpected]
        rw [if_neg (by
          simp only [Bool.and_eq_true, List.isEmpty_iff]
          exact fun h => hE ⟨h.1.1, h.1.2, h.2⟩)]]
      rfl


/-- Build-then-iterate, end to end: starting from a fresh writer, a
successful `add` sequence followed by `finish` yields an image whose full
iteration returns `iterExpected rs`. -/
theorem build_iter_spec (rs : List (List Nat × List Nat))
    (hb : 2048 + sizeSum rs + 24 * rs.length + 8 < u32Mod) :
    ∃ M v, CDBMake.new.runAdds rs = (M, none) ∧
      M.finish = Except.ok v ∧
      CDB.iterAll v.inner (rs.length + 1) = some (iterExpected rs) := by
  have hM : u32Mod = 4294967296 := rfl
  have hrecb : ∀ r ∈ rs, recSize r ≤ sizeSum rs := recSize_le_sizeSum rs
  obtain ⟨M, hrun, hinner, hfpM, hposM, hlenM, hsumM⟩ := runAdds_ok rs
    CDBMake.new
    (by rw [CDBMake_new_file]; dsimp only; rw [List.length_replicate])
    (by
      rw [show CDBMake.new.pos = 2048 from rfl, CDBMake_new_file]
      dsimp only
      rw [List.length_replicate])
    (by
      rw [show CDBMake.new.entries = List.replicate 256 ([] : List HashPos)
        from rfl, List.length_replicate])
    (by rw [show CDBMake.new.pos = 2048 from rfl]; omega)
    (fun r hr => by
      have h := hrecb r hr
      unfold recSize at h
      constructor <;> omega)
  have hinner' : M.file.inner = List.replicate 2048 0 ++ encList rs := by
    rw [hinner, CDBMake_new_file]
  have hposM' : M.pos = 2048 + sizeSum rs := by
    rw [hposM, show CDBMake.new.pos = 2048 from rfl]
  have hsumM' : sumLens M.entries = rs.length := by
    rw [hsumM, show CDBMake.new.entries = List.replicate 256
      ([] : List HashPos) from rfl, sumLens_replicate_nil, Nat.zero_add]
  have hcnt : M.count = rs.length := by rw [count_eq_sumLens, hsumM']
  have hguard : M.maxsize + M.count ≤ 536870911 := by
    have h1 := maxsize_le M
    omega
  obtain ⟨hdr, tb, hloop, hhl, htl, hpre2, hslot⟩ := finishLoop_ok M.entries 0
    (FinState.mk (List.replicate 2048 0)
      (List.replicate M.maxsize HashPos.zero) M.pos M.file) M.maxsize
    (by dsimp only)
    (by dsimp only; exact hfpM)
    (by dsimp only; omega)
    (by dsimp only; rw [hsumM']; omega)
    (fun b hbb => maxsize_fit M b hbb)
    (by dsimp only; rw [List.length_replicate])
    (by rw [Nat.zero_add, hlenM])
  rcases hME : M.entries with _ | ⟨b0, bs0⟩
  · rw [hME] at hlenM
    simp at hlenM
  have hslot0 := hslot b0 bs0 hME
  simp only [Nat.zero_mul, List.drop_zero] at hslot0
  have hw4 : hdr.take 4 = pack32 M.pos := by
    have h1 : hdr.take 4 = (hdr.take 8).take 4 := by
      rw [List.take_take]
      norm_num
    rw [h1, hslot0, pack2]
    exact List.take_left' (pack32_length _)
  have htl' : tb.length = 16 * rs.length := by rw [htl, hsumM']
  have hfin : M.finish =
      Except.ok (VecBuf.mk (hdr ++ (encList rs ++ tb)) 2048) := by
    unfold CDBMake.finish
    rw [if_neg (show ¬ M.maxsize + M.count > 4294967295 / 8 from by omega)]
    rw [hloop]
    dsimp only [VecBuf.seekStart]
    rw [VecBuf.write_eq_splice (VecBuf.mk (M.file.inner ++ tb) 0) hdr
      (by dsimp only; omega)]
    dsimp only
    rw [List.take_zero, List.nil_append, hhl]
    simp only [Nat.zero_add]
    rw [hinner', show (List.replicate 2048 0 ++ encList rs) ++ tb =
        List.replicate 2048 0 ++ (encList rs ++ tb) from by
      rw [List.append_assoc]]
    have hdrop : (List.replicate 2048 (0 : Nat) ++
        (encList rs ++ tb)).drop 2048 = encList rs ++ tb :=
      List.drop_left' (by rw [List.length_replicate])
    rw [hdrop]
  have hvlen : (hdr ++ (encList rs ++ tb)).length =
      2048 + (sizeSum rs + 16 * rs.length) := by
    simp only [List.length_append, hhl, encList_length, htl']
  have hstart : kvStart (hdr ++ (encList rs ++ tb)) =
      some (KVIter.mk 2048 (2048 + sizeSum rs)) := by
    unfold kvStart
    rw [if_pos (show 4 ≤ (hdr ++ (encList rs ++ tb)).length from by
      rw [hvlen]; omega)]
    have hs4 : sliceBytes (hdr ++ (encList rs ++ tb)) 0 4 = pack32 M.pos := by
      rw [sliceBytes_front hdr _ 0 4 (by omega)]
      unfold sliceBytes
      rw [List.drop_zero, show (4 : Nat) - 0 = 4 from rfl, hw4]
    rw [hs4, unpack_pack32 M.pos (by omega), hvlen]
    rw [Nat.mod_eq_of_lt (show 2048 + (sizeSum rs + 16 * rs.length) < u32Mod
      from by omega)]
    have hmin : min M.pos (2048 + (sizeSum rs + 16 * rs.length)) = M.pos :=
      min_eq_left (by omega)
    rw [hmin, hposM']
  have hcoll := kvCollect_run rs hdr tb (rs.length + 1) (by omega)
    (by rw [hhl]; omega)
  rw [hhl, List.append_assoc] at hcoll
  refine ⟨M, VecBuf.mk (hdr ++ (encList rs ++ tb)) 2048, hrun, hfin, ?_⟩
  unfold CDB.iterAll
  dsimp only
  rw [hstart]
  exact hcoll


/-! ## C1: build/iterate round trip -/

/-- C1: for any record sequence whose total size fits (the single bound
covers the `add` limits, the `pos_plus` overflow checks and the `finish`
size guard), building the database succeeds and `iter()` yields exactly
the records in order, each wrapped in `Ok` — except that a final record
with empty key **and** empty value is dropped (`iterExpected rs`): its
header starts exactly 8 bytes before `data_end`, so the iterator's
`pos + 8 >= data_end` test ends the iteration before yielding it. -/
theorem build_iter_round_trip (rs : List (List Nat × List Nat))
    (hb : 2048 + sizeSum rs + 24 * rs.length + 8 < u32Mod) :
    ∃ M v, CDBMake.new.runAdds rs = (M, none) ∧
      M.finish = Except.ok v ∧
      CDB.iterAll v.inner (rs.length + 1) = some (iterExpected rs) :=
  build_iter_spec rs hb

/-- C1 witness: the one-record database `[([5], [7])]` round-trips. -/
theorem build_iter_round_trip_witness :
    ∃ M v, CDBMake.new.runAdds [([5], [7])] = (M, none) ∧
      M.finish = Except.ok v ∧
      CDB.iterAll v.inner 2 = some [Except.ok ([5], [7])] := by
  obtain ⟨M, v, h1, h2, h3⟩ := build_iter_round_trip [([5], [7])] (by decide)
  exact ⟨M, v, h1, h2, h3⟩

/-- C1 counterexample: the database built from the single record
`([], [])` — empty key, empty value — loses it: `iter()` ends
immediately, yielding `[]` instead of the claim's `[Ok(([], []))]`. -/
theorem build_iter_drops_trailing_empty :
    ∃ M v, CDBMake.new.runAdds [([], [])] = (M, none) ∧
      M.finish = Except.ok v ∧
      CDB.iterAll v.inner 2 = some [] := by
  obtain ⟨M, v, h1, h2, h3⟩ := build_iter_spec [([], [])] (by decide)
  exact ⟨M, v, h1, h2, h3⟩


/-! ## The lookup path over a finished image -/

/-- The scratch table of bucket `b` as `finish` writes it: probe-insert
the bucket's entries into `msize` zero slots, keep the first
`2·|b|`. -/
def bTable (b : List HashPos) (msize : Nat) : List HashPos :=
  (insertAll b (b.length * 2) (List.replicate msize HashPos.zero)).take
    (b.length * 2)

/-- `e` is the pending entry of the `j`-th record of `rs`, for a writer
whose data region starts at `base`. -/
def entryRecord (rs : List (List Nat × List Nat)) (base : Nat)
    (e : HashPos) : Prop :=
  ∃ j, j < rs.length ∧ e.hash = hash (rs.getD j ([], [])).1 ∧
    e.pos = base + sizeSum (rs.take j)

theorem hash_foldl_lt : ∀ (l : List Nat) (a : Nat), a < u32Mod →
    (∀ x ∈ l, x < 256) →
    List.foldl (fun h b => (h * 33 % u32Mod) ^^^ b) a l < u32Mod := by
  have h32 : u32Mod = 2 ^ 32 := by norm_num [u32Mod]
  intro l
  induction l with
  | nil => intro a ha _; exact ha
  | cons x l ih =>
    intro a ha hb
    rw [List.foldl_cons]
    refine ih _ ?_ (fun y hy => hb y (List.mem_cons_of_mem _ hy))
    rw [h32]
    refine Nat.xor_lt_two_pow ?_ ?_
    · rw [← h32]
      exact Nat.mod_lt _ (by norm_num [u32Mod])
    · have := hb x (List.mem_cons_self _ _)
      omega

/-- The hash of a byte-valued key is a 32-bit value. -/
theorem hash_lt (key : List Nat) (hk : ∀ x ∈ key, x < 256) :
    hash key < u32Mod := by
  unfold hash
  exact hash_foldl_lt key 5381 (by norm_num [u32Mod]) hk

theorem sliceBytes_drop_take (l : List Nat) (a n : Nat) :
    sliceBytes l a (a + n) = (l.drop a).take n := by
  unfold sliceBytes
  rw [Nat.add_sub_cancel_left]

theorem sliceBytes_inner (A B C : List Nat) (a b : Nat)
    (ha : A.length ≤ a) (hb : b ≤ A.length + B.length) :
    sliceBytes (A ++ B ++ C) a b =
      sliceBytes B (a - A.length) (b - A.length) := by
  rw [List.append_assoc, sliceBytes_append_right A (B ++ C) a b ha,
    sliceBytes_front B C _ _ (by omega)]

/-- Reading 8 bytes at slot offset `8·w` of a packed slot sequence. -/
theorem slotsBytes_slice : ∀ (T : List HashPos) (w : Nat), w < T.length →
    sliceBytes (slotsBytes T) (8 * w) (8 * w + 8) =
      (T.getD w HashPos.zero).packBytes := by
  intro T
  induction T with
  | nil => intro w hw; exact absurd hw (by simp)
  | cons e T ih =>
    intro w hw
    rcases w with _ | w
    · rw [slotsBytes_cons, Nat.mul_zero, sliceBytes_drop_take,
        List.drop_zero, List.take_left' (packBytes_length e)]
      rfl
    · rw [slotsBytes_cons,
        sliceBytes_append_right e.packBytes _ _ _
          (by rw [packBytes_length]; omega),
        packBytes_length,
        show 8 * (w + 1) - 8 = 8 * w from by ring_nf; omega,
        show 8 * (w + 1) + 8 - 8 = 8 * (w + 1) from by omega]
      rw [show (8 : Nat) * (w + 1) = 8 * w + 8 from by ring]
      rw [ih w (by simp only [List.length_cons] at hw; omega)]
      rfl

/-- `finishLoop` splits over an append of bucket lists. -/
theorem finishLoop_append : ∀ (bs1 bs2 : List (List HashPos)) (i : Nat)
    (st : FinState),
    finishLoop i (bs1 ++ bs2) st =
      bindE (finishLoop i bs1 st)
        (finishLoop (i + bs1.length) bs2) := by
  intro bs1
  induction bs1 with
  | nil =>
    intro bs2 i st
    rw [List.nil_append, show finishLoop i [] st = (st, none) from rfl,
      bindE_ok, List.length_nil, Nat.add_zero]
  | cons b bs1 ih =>
    intro bs2 i st
    rw [List.cons_append]
    rw [show finishLoop i (b :: (bs1 ++ bs2)) st =
        bindE (finishBucket i b st) (finishLoop (i + 1) (bs1 ++ bs2))
      from rfl]
    rw [show finishLoop i (b :: bs1) st =
        bindE (finishBucket i b st) (finishLoop (i + 1) bs1) from rfl]
    rcases hfb : finishBucket i b st with ⟨st1, e⟩
    rcases e with _ | e
    · rw [bindE_ok, bindE_ok, ih]
      rw [show i + (b :: bs1).length = i + 1 + bs1.length from by
        simp only [List.length_cons]
        omega]
    · simp only [bindE_err]


theorem mem_modify {α : Type} (f : α → α) :
    ∀ (i : Nat) (l : List α) (b : α), b ∈ l.modify f i →
      b ∈ l ∨ ∃ a, a ∈ l ∧ b = f a := by
  intro i
  induction i with
  | zero =>
    intro l b hb
    rcases l with _ | ⟨x, l⟩
    · exact Or.inl hb
    · rw [List.modify_zero_cons] at hb
      rcases List.mem_cons.mp hb with rfl | hb
      · exact Or.inr ⟨x, List.mem_cons_self _ _, rfl⟩
      · exact Or.inl (List.mem_cons_of_mem _ hb)
  | succ i ih =>
    intro l b hb
    rcases l with _ | ⟨x, l⟩
    · exact Or.inl hb
    · rw [List.modify_succ_cons] at hb
      rcases List.mem_cons.mp hb with rfl | hb
      · exact Or.inl (List.mem_cons_self _ _)
      · rcases ih l b hb with h | ⟨a, ha, rfl⟩
        · exact Or.inl (List.mem_cons_of_mem _ h)
        · exact Or.inr ⟨a, List.mem_cons_of_mem _ ha, rfl⟩

theorem insertAll_mem : ∀ (b : List HashPos) (len : Nat)
    (t : List HashPos) (e : HashPos), e ∈ insertAll b len t →
      e ∈ t ∨ e ∈ b := by
  intro b
  induction b with
  | nil => intro len t e he; exact Or.inl he
  | cons x b ih =>
    intro len t e he
    rw [insertAll_cons] at he
    rcases ih len _ e he with h | h
    · unfold insertEntry at h
      rcases List.mem_or_eq_of_mem_set h with h | rfl
      · exact Or.inl h
      · exact Or.inr (List.mem_cons_self _ _)
    · exact Or.inr (List.mem_cons_of_mem _ h)

/-- Every slot of a written bucket table is empty or one of the bucket's
entries. -/
theorem bTable_slot (b : List HashPos) (msize w : Nat)
    (hw : w < (bTable b msize).length) :
    (bTable b msize).getD w HashPos.zero = HashPos.zero ∨
      (bTable b msize).getD w HashPos.zero ∈ b := by
  have hmem : (bTable b msize).getD w HashPos.zero ∈ bTable b msize := by
    rw [List.getD_eq_getElem?_getD, List.getElem?_eq_getElem hw]
    exact List.getElem_mem hw
  have hmem2 : (bTable b msize).getD w HashPos.zero ∈
      insertAll b (b.length * 2) (List.replicate msize HashPos.zero) :=
    List.mem_of_mem_take hmem
  rcases insertAll_mem b _ _ _ hmem2 with h | h
  · exact Or.inl (List.eq_of_mem_replicate h)
  · exact Or.inr h

theorem bTable_length (b : List HashPos) (msize : Nat)
    (hfit : b.length * 2 ≤ msize) :
    (bTable b msize).length = b.length * 2 := by
  unfold bTable
  rw [List.length_take, insertAll_length, List.length_replicate]
  omega

/-- The record slices of the data region: the `j`-th record's header,
key and value bytes. -/
theorem encList_record_slices : ∀ (rs : List (List Nat × List Nat))
    (j : Nat), j < rs.length → ∀ (pre post : List Nat),
    sliceBytes (pre ++ encList rs ++ post)
        (pre.length + sizeSum (rs.take j))
        (pre.length + sizeSum (rs.take j) + 8) =
      pack2 (rs.getD j ([], [])).1.length (rs.getD j ([], [])).2.length ∧
    sliceBytes (pre ++ encList rs ++ post)
        (pre.length + sizeSum (rs.take j) + 8)
        (pre.length + sizeSum (rs.take j) + 8 +
          (rs.getD j ([], [])).1.length) =
      (rs.getD j ([], [])).1 := by
  intro rs
  induction rs with
  | nil => intro j hj; exact absurd hj (by simp)
  | cons r rs ih =>
    intro j hj pre post
    rcases j with _ | j
    · rcases r with ⟨k, d⟩
      simp only [List.take_zero, sizeSum_nil, Nat.add_zero,
        List.getD_cons_zero]
      constructor
      · rw [show pre ++ encList ((k, d) :: rs) ++ post =
            pre ++ pack2 k.length d.length ++ (k ++ (d ++
              (encList rs ++ post))) from by
          rw [encList_cons]
          simp [recC, List.append_assoc]]
        exact sliceBytes_seg _ _ _ _ _ rfl (by rw [pack2_length])
      · rw [show pre ++ encList ((k, d) :: rs) ++ post =
            (pre ++ pack2 k.length d.length) ++ k ++ (d ++
              (encList rs ++ post)) from by
          rw [encList_cons]
          simp [recC, List.append_assoc]]
        exact sliceBytes_seg _ _ _ _ _ (by simp) rfl
    · have hj' : j < rs.length := by
        simp only [List.length_cons] at hj
        omega
      have hrw : pre ++ encList (r :: rs) ++ post =
          (pre ++ recC r) ++ encList rs ++ post := by
        rw [encList_cons]
        simp [List.append_assoc]
      have hlen : (pre ++ recC r).length = pre.length + recSize r := by
        rw [List.length_append, recC_length]
      have hoff : pre.length + sizeSum ((r :: rs).take (j + 1)) =
          (pre ++ recC r).length + sizeSum (rs.take j) := by
        rw [List.take_succ_cons, sizeSum_cons, hlen]
        omega
      have := ih j hj' (pre ++ recC r) post
      rw [hrw, List.getD_cons_succ, hoff]
      exact this


/-- Every pending entry after a successful `add` run is either inherited
from the starting writer or records one of the added records: its hash is
the record key's hash and its position is the record's offset. -/
theorem runAdds_entries : ∀ (rs : List (List Nat × List Nat)) (m : CDBMake),
    m.file.pos = m.file.inner.length →
    m.pos = m.file.inner.length →
    m.entries.length = 256 →
    m.pos + sizeSum rs < u32Mod →
    (∀ r ∈ rs, r.1.length < 4294967295 ∧ r.2.length < 4294967295) →
    ∀ M, m.runAdds rs = (M, none) →
    ∀ b e, b ∈ M.entries → e ∈ b →
      (∃ b0, b0 ∈ m.entries ∧ e ∈ b0) ∨ entryRecord rs m.pos e := by
  intro rs
  induction rs with
  | nil =>
    intro m h1 h2 h3 h4 h5 M hrun b e hb he
    have hMm : M = m := by
      have : (m, (none : Option CDBError)) = (M, none) := hrun
      exact (Prod.mk.injEq _ _ _ _ ▸ this).1.symm
    subst hMm
    exact Or.inl ⟨b, hb, he⟩
  | cons r rs ih =>
    rcases r with ⟨k, d⟩
    intro m h1 h2 h3 h4 h5 M hrun b e hb he
    have h5r := h5 (k, d) (List.mem_cons_self _ _)
    have hrec : recSize (k, d) = 8 + k.length + d.length := rfl
    rw [sizeSum_cons] at h4
    unfold CDBMake.runAdds at hrun
    rw [CDBMake.add_ok m k d h1 h5r.1 h5r.2 (by omega), bindE_ok] at hrun
    have hres := ih
      (CDBMake.mk
        (m.entries.modify (fun l => l ++ [HashPos.mk (hash k) m.pos])
          (hash k % 256))
        (m.pos + (8 + k.length + d.length))
        (VecBuf.mk (m.file.inner ++ recC (k, d))
          (m.file.inner.length + (8 + k.length + d.length))))
      (by dsimp only; rw [List.length_append, recC_length, hrec])
      (by dsimp only; rw [List.length_append, recC_length, hrec, h2])
      (by dsimp only; rw [List.length_modify]; exact h3)
      (by dsimp only; omega)
      (fun r' hr' => h5 r' (List.mem_cons_of_mem _ hr'))
      M hrun b e hb he
    rcases hres with ⟨b0, hb0, he0⟩ | ⟨j, hj, hh, hp⟩
    · dsimp only at hb0
      rcases mem_modify _ _ _ _ hb0 with h | ⟨a, ha, rfl⟩
      · exact Or.inl ⟨b0, h, he0⟩
      · rcases List.mem_append.mp he0 with h | h
        · exact Or.inl ⟨a, ha, h⟩
        · have hex : e = HashPos.mk (hash k) m.pos := by
            simpa using h
          subst hex
          exact Or.inr ⟨0, by simp, by simp, by simp⟩
    · dsimp only at hp
      refine Or.inr ⟨j + 1, ?_, ?_, ?_⟩
      · simp only [List.length_cons]
        omega
      · rw [List.getD_cons_succ]
        exact hh
      · rw [List.take_succ_cons, sizeSum_cons, hp, hrec]
        ring


/-- The probe loop of `find` yields nothing when every slot of the table
it walks is either empty, has a different hash, or points at a record
whose key does not match: each iteration either ends the iterator or
moves to the next slot. -/
theorem vnextFuel_none (file : List Nat) (T : List HashPos) :
    ∀ (fuel : Nat) (s : VIter),
    s.hslots = T.length →
    s.hpos + 8 * T.length ≤ file.length →
    file.length < u32Mod →
    (∀ w, w < T.length →
      sliceBytes file (s.hpos + 8 * w) (s.hpos + 8 * w + 8) =
        (T.getD w HashPos.zero).packBytes) →
    (∀ w, w < T.length → (T.getD w HashPos.zero).hash < u32Mod ∧
      (T.getD w HashPos.zero).pos < u32Mod) →
    (∀ w, w < T.length → (T.getD w HashPos.zero).pos ≠ 0 →
      (T.getD w HashPos.zero).hash = s.khash →
      ∃ kl dl, (T.getD w HashPos.zero).pos + 8 ≤ file.length ∧
        sliceBytes file (T.getD w HashPos.zero).pos
          ((T.getD w HashPos.zero).pos + 8) = pack2 kl dl ∧
        kl < u32Mod ∧ dl < u32Mod ∧
        (kl = s.key.length →
          CDB.read file s.key.length
            (((T.getD w HashPos.zero).pos + 8) % u32Mod) ≠ some s.key)) →
    (∃ w, w < T.length ∧ s.kpos = s.hpos + 8 * w) →
    (vnextFuel file s fuel).1 = none := by
  intro fuel
  induction fuel with
  | zero =>
    intro s _ _ _ _ _ _ _
    rfl
  | succ fuel ih =>
    intro s hTl hbound hflt hslot hlt hmiss hinv
    by_cases hloop : s.kloop < s.hslots
    swap
    · show (if s.kloop < s.hslots then _ else ((none, s, []) :
        Option (List Nat) × VIter × List (Nat × Nat))).1 = none
      rw [if_neg hloop]
    obtain ⟨w, hw, hkpos⟩ := hinv
    have hM : u32Mod = 4294967296 := rfl
    have hread : CDB.read file 8 s.kpos =
        some ((T.getD w HashPos.zero).packBytes) := by
      unfold CDB.read
      rw [if_pos (show s.kpos + 8 ≤ file.length from by
        rw [hkpos]; omega)]
      rw [hkpos, hslot w hw]
    have hadv : ∃ w', w' < T.length ∧ s.advance.kpos = s.hpos + 8 * w' := by
      unfold VIter.advance
      dsimp only
      rw [hkpos]
      rw [Nat.mod_eq_of_lt (show s.hpos + 8 * w + 8 < u32Mod from by omega),
        Nat.mod_eq_of_lt (show s.hslots * 8 < u32Mod from by
          rw [hTl]; omega),
        Nat.mod_eq_of_lt (show s.hpos + s.hslots * 8 < u32Mod from by
          rw [hTl]; omega)]
      by_cases hwrap : s.hpos + 8 * w + 8 = s.hpos + s.hslots * 8
      · rw [if_pos hwrap]
        exact ⟨0, by omega, by omega⟩
      · rw [if_neg hwrap]
        refine ⟨w + 1, by omega, by omega⟩
    have hstep : ((vbody file s).1, (vbody file s).2.1) =
        (none, s.advance) → (vnextFuel file s (fuel + 1)).1 = none := by
      intro h12
      rcases hvb : vbody file s with ⟨o, s1, tr⟩
      rw [hvb] at h12
      dsimp only at h12
      rw [Prod.mk.injEq] at h12
      obtain ⟨rfl, rfl⟩ := h12
      show (if s.kloop < s.hslots then _ else ((none, s, []) :
        Option (List Nat) × VIter × List (Nat × Nat))).1 = none
      rw [if_pos hloop, hvb]
      dsimp only
      have hihres := ih s.advance (by rw [VIter.advance_hslots]; exact hTl)
        (by rw [VIter.advance_hpos]; exact hbound) hflt
        (fun w' hw' => by rw [VIter.advance_hpos]; exact hslot w' hw')
        hlt
        (fun w' hw' h1 h2 => by
          rw [VIter.advance_khash] at h2
          obtain ⟨kl, dl, a1, a2, a3, a4, a5⟩ := hmiss w' hw' h1 h2
          refine ⟨kl, dl, a1, a2, a3, a4, ?_⟩
          rw [VIter.advance_key]
          exact a5)
        hadv
      rcases hrec : vnextFuel file s.advance fuel with ⟨r, s2, tr2⟩
      rw [hrec] at hihres
      exact hihres
    have hpk : (T.getD w HashPos.zero).packBytes =
        pack2 (T.getD w HashPos.zero).hash (T.getD w HashPos.zero).pos := rfl
    by_cases hz : (T.getD w HashPos.zero).pos = 0
    · show (if s.kloop < s.hslots then _ else ((none, s, []) :
        Option (List Nat) × VIter × List (Nat × Nat))).1 = none
      rw [if_pos hloop]
      have hvb : vbody file s =
          (some none, s, [(s.kpos, 8)]) := by
        unfold vbody
        rw [hread]
        dsimp only
        rw [hpk, unpack2_pack2 _ _ (hlt w hw).1 (hlt w hw).2]
        dsimp only
        rw [if_pos hz]
      rw [hvb]
    · by_cases hh : (T.getD w HashPos.zero).hash = s.khash
      · obtain ⟨kl, dl, hpb, hsl, hklu, hdlu, hkr⟩ := hmiss w hw hz hh
        have hread2 : CDB.read file 8 (T.getD w HashPos.zero).pos =
            some (pack2 kl dl) := by
          unfold CDB.read
          rw [if_pos hpb, hsl]
        refine hstep ?_
        unfold vbody
        rw [hread]
        dsimp only
        rw [hpk, unpack2_pack2 _ _ (hlt w hw).1 (hlt w hw).2]
        dsimp only
        rw [if_neg hz]
        simp only [VIter.advance_khash, VIter.advance_key]
        rw [if_pos hh, hread2]
        dsimp only
        rw [unpack2_pack2 kl dl hklu hdlu]
        dsimp only
        rw [if_neg (by
          rintro ⟨hkl, hkread⟩
          exact hkr hkl hkread)]
      · refine hstep ?_
        unfold vbody
        rw [hread]
        dsimp only
        rw [hpk, unpack2_pack2 _ _ (hlt w hw).1 (hlt w hw).2]
        dsimp only
        rw [if_neg hz]
        simp only [VIter.advance_khash]
        rw [if_neg hh]


@[simp] theorem sumLens_append (a b : List (List HashPos)) :
    sumLens (a ++ b) = sumLens a + sumLens b := by
  unfold sumLens
  rw [List.map_append, List.sum_append]

theorem sizeSum_take_le (rs : List (List Nat × List Nat)) (j : Nat) :
    sizeSum (rs.take j) ≤ sizeSum rs := by
  conv_rhs => rw [← List.take_append_drop j rs]
  unfold sizeSum
  rw [List.map_append, List.sum_append]
  omega

theorem sizeSum_take_succ (rs : List (List Nat × List Nat)) (j : Nat)
    (hj : j < rs.length) :
    sizeSum (rs.take (j + 1)) =
      sizeSum (rs.take j) + recSize (rs.getD j ([], [])) := by
  rw [List.take_succ, List.getElem?_eq_getElem hj]
  unfold sizeSum
  rw [List.map_append, List.sum_append]
  rw [List.getD_eq_getElem rs ([], []) hj]
  simp

set_option maxRecDepth 2000 in
/-- Absent key, end to end: building from a fresh writer and looking up a
key that differs from every input key yields nothing, through the real
header slot, hash-table probe and record comparison path. -/
theorem absent_key_spec (rs : List (List Nat × List Nat)) (k : List Nat)
    (hb : 2048 + sizeSum rs + 24 * rs.length + 8 < u32Mod)
    (hbytes : ∀ r ∈ rs, ∀ x ∈ r.1, x < 256)
    (habs : ∀ r ∈ rs, r.1 ≠ k) :
    ∃ M v, CDBMake.new.runAdds rs = (M, none) ∧
      M.finish = Except.ok v ∧
      CDB.findAll v.inner k = some [] ∧
      CDB.get v.inner k = some none := by
  have hM : u32Mod = 4294967296 := rfl
  have hrecb : ∀ r ∈ rs, recSize r ≤ sizeSum rs := recSize_le_sizeSum rs
  have hargs1 : CDBMake.new.file.pos = CDBMake.new.file.inner.length := by
    rw [CDBMake_new_file]
    dsimp only
    rw [List.length_replicate]
  have hargs2 : CDBMake.new.pos = CDBMake.new.file.inner.length := by
    rw [show CDBMake.new.pos = 2048 from rfl, CDBMake_new_file]
    dsimp only
    rw [List.length_replicate]
  have hargs3 : CDBMake.new.entries.length = 256 := by
    rw [show CDBMake.new.entries = List.replicate 256 ([] : List HashPos)
      from rfl, List.length_replicate]
  have hargs4 : CDBMake.new.pos + sizeSum rs < u32Mod := by
    rw [show CDBMake.new.pos = 2048 from rfl]
    omega
  have hargs5 : ∀ r ∈ rs, r.1.length < 4294967295 ∧
      r.2.length < 4294967295 := fun r hr => by
    have h := hrecb r hr
    unfold recSize at h
    constructor <;> omega
  obtain ⟨M, hrun, hinner, hfpM, hposM, hlenM, hsumM⟩ := runAdds_ok rs
    CDBMake.new hargs1 hargs2 hargs3 hargs4 hargs5
  have hentry : ∀ b e, b ∈ M.entries → e ∈ b → entryRecord rs 2048 e := by
    intro b e hbM heb
    rcases runAdds_entries rs CDBMake.new hargs1 hargs2 hargs3 hargs4 hargs5
      M hrun b e hbM heb with ⟨b0, hb0, he0⟩ | h
    · rw [show CDBMake.new.entries = List.replicate 256 ([] : List HashPos)
        from rfl] at hb0
      rw [List.eq_of_mem_replicate hb0] at he0
      exact absurd he0 (by simp)
    · rw [show CDBMake.new.pos = 2048 from rfl] at h
      exact h
  have hinner' : M.file.inner = List.replicate 2048 0 ++ encList rs := by
    rw [hinner, CDBMake_new_file]
  have hposM' : M.pos = 2048 + sizeSum rs := by
    rw [hposM, show CDBMake.new.pos = 2048 from rfl]
  have hsumM' : sumLens M.entries = rs.length := by
    rw [hsumM, show CDBMake.new.entries = List.replicate 256
      ([] : List HashPos) from rfl, sumLens_replicate_nil, Nat.zero_add]
  have hcnt : M.count = rs.length := by rw [count_eq_sumLens, hsumM']
  have hguard : M.maxsize + M.count ≤ 536870911 := by
    have h1 := maxsize_le M
    omega
  -- the bucket of the key, and the split of the 256 buckets around it
  have hj256 : hash k % 256 < 256 := Nat.mod_lt _ (by norm_num)
  have hjlen : hash k % 256 < M.entries.length := by omega
  have hsplitE : M.entries = M.entries.take (hash k % 256) ++
      (M.entries.getD (hash k % 256) [] ::
        M.entries.drop (hash k % 256 + 1)) := by
    rw [List.getD_eq_getElem M.entries [] hjlen,
      ← List.drop_eq_getElem_cons hjlen, List.take_append_drop]
  have hbs1len : (M.entries.take (hash k % 256)).length = hash k % 256 := by
    rw [List.length_take]
    omega
  have hsum_split : sumLens (M.entries.take (hash k % 256)) +
      sumLens (M.entries.getD (hash k % 256) [] ::
        M.entries.drop (hash k % 256 + 1)) = rs.length := by
    rw [← sumLens_append, ← hsplitE, hsumM']
  have hbjmem : M.entries.getD (hash k % 256) [] ∈ M.entries := by
    rw [List.getD_eq_getElem M.entries [] hjlen]
    exact List.getElem_mem hjlen
  have hfitbj : (M.entries.getD (hash k % 256) []).length * 2 ≤ M.maxsize :=
    maxsize_fit M _ hbjmem
  have hbjlen : (M.entries.getD (hash k % 256) []).length ≤ rs.length := by
    have := hsum_split
    rw [sumLens_cons] at this
    omega
  have hS1le : sumLens (M.entries.take (hash k % 256)) ≤ rs.length := by
    have := hsum_split
    rw [sumLens_cons] at this
    omega
  obtain ⟨hdr1, tb1, hloop1, hh1, ht1, -, -⟩ := finishLoop_ok
    (M.entries.take (hash k % 256)) 0
    (FinState.mk (List.replicate 2048 0)
      (List.replicate M.maxsize HashPos.zero) M.pos M.file) M.maxsize
    (by dsimp only)
    (by dsimp only; exact hfpM)
    (by dsimp only; omega)
    (by dsimp only; omega)
    (fun b hbb => maxsize_fit M b (List.mem_of_mem_take hbb))
    (by dsimp only; rw [List.length_replicate])
    (by rw [Nat.zero_add, hbs1len]; omega)
  dsimp only at hloop1
  obtain ⟨hdr, tb2, hloop2, hhl, htl2, hpre2, hslot2⟩ := finishLoop_ok
    (M.entries.getD (hash k % 256) [] ::
      M.entries.drop (hash k % 256 + 1)) (hash k % 256)
    (FinState.mk hdr1 (List.replicate M.maxsize HashPos.zero)
      (M.pos + 16 * sumLens (M.entries.take (hash k % 256)))
      (VecBuf.mk (M.file.inner ++ tb1)
        (M.file.inner.length + 16 * sumLens (M.entries.take (hash k % 256)))))
    M.maxsize
    (by dsimp only)
    (by dsimp only; rw [List.length_append, ht1])
    (by dsimp only; omega)
    (by
      dsimp only
      rw [sumLens_cons]
      rw [sumLens_cons] at hsum_split
      omega)
    (fun b hbb => by
      rcases List.mem_cons.mp hbb with rfl | hbb
      · exact hfitbj
      · exact maxsize_fit M b (List.mem_of_mem_drop hbb))
    (by dsimp only; exact hh1)
    (by
      have h2 : (M.entries.getD (hash k % 256) [] ::
          M.entries.drop (hash k % 256 + 1)).length = 256 - hash k % 256 := by
        rw [List.length_cons, List.length_drop]
        omega
      rw [h2]
      omega)
  dsimp only at hloop2
  have hslotj := hslot2 (M.entries.getD (hash k % 256) [])
    (M.entries.drop (hash k % 256 + 1)) rfl
  dsimp only at hslotj
  rw [sumLens_cons] at hsum_split
  have hfb := finishBucket_ok (hash k % 256)
    (M.entries.getD (hash k % 256) [])
    (FinState.mk hdr1 (List.replicate M.maxsize HashPos.zero)
      (M.pos + 16 * sumLens (M.entries.take (hash k % 256)))
      (VecBuf.mk (M.file.inner ++ tb1)
        (M.file.inner.length + 16 * sumLens (M.entries.take (hash k % 256)))))
    (by dsimp only; rw [List.length_append, ht1])
    (by dsimp only; omega)
    (by dsimp only; rw [List.length_replicate]; exact hfitbj)
    (by dsimp only; omega)
  dsimp only at hfb
  obtain ⟨hdr2, tb3, hloop3, -, -, -, -⟩ := finishLoop_ok
    (M.entries.drop (hash k % 256 + 1)) (hash k % 256 + 1)
    (FinState.mk
      (spliceBytes hdr1 (hash k % 256 * 8)
        (pack2 (M.pos + 16 * sumLens (M.entries.take (hash k % 256)))
          ((M.entries.getD (hash k % 256) []).length * 2 % u32Mod)))
      (List.replicate ((M.entries.getD (hash k % 256) []).length * 2)
          HashPos.zero ++
        (List.replicate M.maxsize HashPos.zero).drop
          ((M.entries.getD (hash k % 256) []).length * 2))
      (M.pos + 16 * sumLens (M.entries.take (hash k % 256)) +
        8 * ((M.entries.getD (hash k % 256) []).length * 2))
      (VecBuf.mk ((M.file.inner ++ tb1) ++
          slotsBytes ((insertAll (M.entries.getD (hash k % 256) [])
              ((M.entries.getD (hash k % 256) []).length * 2)
              (List.replicate M.maxsize HashPos.zero)).take
            ((M.entries.getD (hash k % 256) []).length * 2)))
        ((M.file.inner ++ tb1).length +
          8 * ((M.entries.getD (hash k % 256) []).length * 2))))
    M.maxsize
    (by
      dsimp only
      rw [List.drop_replicate, ← List.replicate_add,
        show (M.entries.getD (hash k % 256) []).length * 2 +
          (M.maxsize - (M.entries.getD (hash k % 256) []).length * 2) =
          M.maxsize from by omega])
    (by
      dsimp only
      simp only [List.length_append, slotsBytes_length, List.length_take,
        insertAll_length, List.length_replicate]
      rw [min_eq_left hfitbj])
    (by dsimp only; omega)
    (by dsimp only; omega)
    (fun b hbb => maxsize_fit M b (List.mem_of_mem_drop hbb))
    (by
      dsimp only
      rw [spliceBytes_length _ _ _ (by
        simp only [pack2_length]
        rw [hh1]
        omega)]
      exact hh1)
    (by
      rw [List.length_drop]
      omega)
  dsimp only at hloop3
  have hEQ : finishLoop (hash k % 256)
      (M.entries.getD (hash k % 256) [] ::
        M.entries.drop (hash k % 256 + 1))
      (FinState.mk hdr1 (List.replicate M.maxsize HashPos.zero)
        (M.pos + 16 * sumLens (M.entries.take (hash k % 256)))
        (VecBuf.mk (M.file.inner ++ tb1)
          (M.file.inner.length +
            16 * sumLens (M.entries.take (hash k % 256))))) =
      (FinState.mk hdr2
        (List.replicate ((M.entries.getD (hash k % 256) []).length * 2)
            HashPos.zero ++
          (List.replicate M.maxsize HashPos.zero).drop
            ((M.entries.getD (hash k % 256) []).length * 2))
        (M.pos + 16 * sumLens (M.entries.take (hash k % 256)) +
          8 * ((M.entries.getD (hash k % 256) []).length * 2) +
          16 * sumLens (M.entries.drop (hash k % 256 + 1)))
        (VecBuf.mk (((M.file.inner ++ tb1) ++
            slotsBytes ((insertAll (M.entries.getD (hash k % 256) [])
                ((M.entries.getD (hash k % 256) []).length * 2)
                (List.replicate M.maxsize HashPos.zero)).take
              ((M.entries.getD (hash k % 256) []).length * 2))) ++ tb3)
          (((M.file.inner ++ tb1) ++
            slotsBytes ((insertAll (M.entries.getD (hash k % 256) [])
                ((M.entries.getD (hash k % 256) []).length * 2)
                (List.replicate M.maxsize HashPos.zero)).take
              ((M.entries.getD (hash k % 256) []).length * 2))).length +
            16 * sumLens (M.entries.drop (hash k % 256 + 1)))), none) := by
    rw [show finishLoop (hash k % 256)
        (M.entries.getD (hash k % 256) [] ::
          M.entries.drop (hash k % 256 + 1))
        (FinState.mk hdr1 (List.replicate M.maxsize HashPos.zero)
          (M.pos + 16 * sumLens (M.entries.take (hash k % 256)))
          (VecBuf.mk (M.file.inner ++ tb1)
            (M.file.inner.length +
              16 * sumLens (M.entries.take (hash k % 256))))) =
      bindE (finishBucket (hash k % 256) (M.entries.getD (hash k % 256) [])
        (FinState.mk hdr1 (List.replicate M.maxsize HashPos.zero)
          (M.pos + 16 * sumLens (M.entries.take (hash k % 256)))
          (VecBuf.mk (M.file.inner ++ tb1)
            (M.file.inner.length +
              16 * sumLens (M.entries.take (hash k % 256))))))
        (finishLoop (hash k % 256 + 1)
          (M.entries.drop (hash k % 256 + 1))) from rfl]
    rw [hfb, bindE_ok]
    exact hloop3
  have hsame := hloop2.symm.trans hEQ
  have htb2 : tb2 =
      slotsBytes ((insertAll (M.entries.getD (hash k % 256) [])
          ((M.entries.getD (hash k % 256) []).length * 2)
          (List.replicate M.maxsize HashPos.zero)).take
        ((M.entries.getD (hash k % 256) []).length * 2)) ++ tb3 := by
    have hinj : (M.file.inner ++ tb1) ++ tb2 =
        ((M.file.inner ++ tb1) ++
          slotsBytes ((insertAll (M.entries.getD (hash k % 256) [])
              ((M.entries.getD (hash k % 256) []).length * 2)
              (List.replicate M.maxsize HashPos.zero)).take
            ((M.entries.getD (hash k % 256) []).length * 2))) ++ tb3 := by
      have h0 := congrArg (fun p => p.1.file.inner) hsame
      dsimp only at h0
      exact h0
    rw [List.append_assoc (M.file.inner ++ tb1)] at hinj
    exact List.append_cancel_left hinj
  rw [sumLens_cons] at htl2
  have hloopfull : finishLoop 0 M.entries
      (FinState.mk (List.replicate 2048 0)
        (List.replicate M.maxsize HashPos.zero) M.pos M.file) =
      (FinState.mk hdr (List.replicate M.maxsize HashPos.zero)
        (M.pos + 16 * sumLens (M.entries.take (hash k % 256)) +
          16 * sumLens (M.entries.getD (hash k % 256) [] ::
            M.entries.drop (hash k % 256 + 1)))
        (VecBuf.mk ((M.file.inner ++ tb1) ++ tb2)
          ((M.file.inner ++ tb1).length +
            16 * sumLens (M.entries.getD (hash k % 256) [] ::
              M.entries.drop (hash k % 256 + 1)))), none) := by
    conv_lhs => rw [hsplitE]
    rw [finishLoop_append, hloop1, bindE_ok, hbs1len, Nat.zero_add]
    exact hloop2
  have hfin : M.finish = Except.ok (VecBuf.mk
      (hdr ++ (encList rs ++ (tb1 ++ tb2))) 2048) := by
    unfold CDBMake.finish
    rw [if_neg (show ¬ M.maxsize + M.count > 4294967295 / 8 from by omega)]
    rw [hloopfull]
    dsimp only [VecBuf.seekStart]
    rw [VecBuf.write_eq_splice
      (VecBuf.mk ((M.file.inner ++ tb1) ++ tb2) 0) hdr
      (by dsimp only; omega)]
    dsimp only
    rw [List.take_zero, List.nil_append, hhl]
    simp only [Nat.zero_add]
    rw [hinner']
    rw [show ((List.replicate 2048 (0 : Nat) ++ encList rs) ++ tb1) ++ tb2 =
        List.replicate 2048 (0 : Nat) ++ (encList rs ++ (tb1 ++ tb2)) from by
      simp only [List.append_assoc]]
    have hdrop : (List.replicate 2048 (0 : Nat) ++
        (encList rs ++ (tb1 ++ tb2))).drop 2048 =
        encList rs ++ (tb1 ++ tb2) :=
      List.drop_left' (by rw [List.length_replicate])
    rw [hdrop]
  have hvlen : (hdr ++ (encList rs ++ (tb1 ++ tb2))).length =
      2048 + sizeSum rs + 16 * rs.length := by
    simp only [List.length_append, hhl, encList_length, ht1, htl2]
    omega
  have himgassoc : hdr ++ (encList rs ++ (tb1 ++ tb2)) =
      hdr ++ encList rs ++ (tb1 ++ tb2) := (List.append_assoc _ _ _).symm
  have htail : ∀ s0 : VIter,
      CDB.findStart (hdr ++ (encList rs ++ (tb1 ++ tb2))) k = some s0 →
      (∀ fuel, (vnextFuel (hdr ++ (encList rs ++ (tb1 ++ tb2))) s0 fuel).1 =
        none) →
      CDB.findAll (hdr ++ (encList rs ++ (tb1 ++ tb2))) k = some [] ∧
      CDB.get (hdr ++ (encList rs ++ (tb1 ++ tb2))) k = some none := by
    intro s0 hfs hnone
    have hvn : vnext (hdr ++ (encList rs ++ (tb1 ++ tb2))) s0 =
        (none, (vnextFuel (hdr ++ (encList rs ++ (tb1 ++ tb2))) s0
          (s0.hslots - s0.kloop)).2.1) := by
      unfold vnext
      rcases hvf : vnextFuel (hdr ++ (encList rs ++ (tb1 ++ tb2))) s0
        (s0.hslots - s0.kloop) with ⟨r, s2, tr2⟩
      have h0 := hnone (s0.hslots - s0.kloop)
      rw [hvf] at h0
      dsimp only at h0
      dsimp only
      rw [h0]
    constructor
    · unfold CDB.findAll
      rw [hfs]
      refine congrArg some ?_
      rw [show vcollect (hdr ++ (encList rs ++ (tb1 ++ tb2))) s0
          (s0.hslots + 1) =
        match vnext (hdr ++ (encList rs ++ (tb1 ++ tb2))) s0 with
        | (none, _) => []
        | (some v, s') =>
          v :: vcollect (hdr ++ (encList rs ++ (tb1 ++ tb2))) s' s0.hslots
        from rfl]
      rw [hvn]
    · unfold CDB.get
      rw [hfs]
      refine congrArg some ?_
      rw [hvn]
  have hslotbytes : sliceBytes (hdr ++ (encList rs ++ (tb1 ++ tb2)))
      (hash k % 256 * 8) (hash k % 256 * 8 + 8) =
      pack2 (M.pos + 16 * sumLens (M.entries.take (hash k % 256)))
        ((M.entries.getD (hash k % 256) []).length * 2 % u32Mod) := by
    rw [sliceBytes_front hdr _ _ _ (by rw [hhl]; omega),
      sliceBytes_drop_take]
    exact hslotj
  have hmod2l : (M.entries.getD (hash k % 256) []).length * 2 % u32Mod =
      (M.entries.getD (hash k % 256) []).length * 2 :=
    Nat.mod_eq_of_lt (by omega)
  have hposbu : M.pos + 16 * sumLens (M.entries.take (hash k % 256)) <
      u32Mod := by omega
  have hAlen : (hdr ++ encList rs ++ tb1).length =
      M.pos + 16 * sumLens (M.entries.take (hash k % 256)) := by
    simp only [List.length_append, hhl, encList_length, ht1]
    omega
  have hformv : hdr ++ (encList rs ++ (tb1 ++ tb2)) =
      (hdr ++ encList rs ++ tb1) ++
        slotsBytes (bTable (M.entries.getD (hash k % 256) []) M.maxsize) ++
        tb3 := by
    rw [htb2]
    unfold bTable
    simp only [List.append_assoc]
  have hTlen : (bTable (M.entries.getD (hash k % 256) []) M.maxsize).length =
      (M.entries.getD (hash k % 256) []).length * 2 :=
    bTable_length _ _ hfitbj
  have hftcommon : hash k % 256 * 8 + 8 ≤
      (hdr ++ (encList rs ++ (tb1 ++ tb2))).length := by
    rw [hvlen]
    omega
  by_cases hlz : (M.entries.getD (hash k % 256) []).length = 0
  · have hft : CDB.hashTable (hdr ++ (encList rs ++ (tb1 ++ tb2)))
        (hash k) =
        some (M.pos + 16 * sumLens (M.entries.take (hash k % 256)),
          (M.entries.getD (hash k % 256) []).length * 2, 0) := by
      unfold CDB.hashTable
      dsimp only
      rw [if_pos hftcommon, hslotbytes, hmod2l,
        unpack2_pack2 _ _ hposbu (by omega)]
      dsimp only
      rw [if_neg (show ¬ (M.entries.getD (hash k % 256) []).length * 2 > 0
        from by omega)]
    have hfs : CDB.findStart (hdr ++ (encList rs ++ (tb1 ++ tb2))) k =
        some (VIter.mk k (hash k) 0 0
          (M.pos + 16 * sumLens (M.entries.take (hash k % 256)))
          ((M.entries.getD (hash k % 256) []).length * 2)) := by
      unfold CDB.findStart
      rw [hft]
    have hnone : ∀ fuel,
        (vnextFuel (hdr ++ (encList rs ++ (tb1 ++ tb2)))
          (VIter.mk k (hash k) 0 0
            (M.pos + 16 * sumLens (M.entries.take (hash k % 256)))
            ((M.entries.getD (hash k % 256) []).length * 2)) fuel).1 =
          none := by
      intro fuel
      rcases fuel with _ | n
      · rfl
      · unfold vnextFuel
        dsimp only
        rw [if_neg (show ¬ (0 : Nat) <
          (M.entries.getD (hash k % 256) []).length * 2 from by omega)]
    obtain ⟨hfa, hg⟩ := htail _ hfs hnone
    exact ⟨M, _, hrun, hfin, hfa, hg⟩
  · have hw0 : (hash k >>> 8) %
        ((M.entries.getD (hash k % 256) []).length * 2) <
        (M.entries.getD (hash k % 256) []).length * 2 :=
      Nat.mod_lt _ (by omega)
    have hft : CDB.hashTable (hdr ++ (encList rs ++ (tb1 ++ tb2)))
        (hash k) =
        some (M.pos + 16 * sumLens (M.entries.take (hash k % 256)),
          (M.entries.getD (hash k % 256) []).length * 2,
          M.pos + 16 * sumLens (M.entries.take (hash k % 256)) +
            (hash k >>> 8) %
              ((M.entries.getD (hash k % 256) []).length * 2) * 8) := by
      unfold CDB.hashTable
      dsimp only
      rw [if_pos hftcommon, hslotbytes, hmod2l,
        unpack2_pack2 _ _ hposbu (by omega)]
      dsimp only
      rw [if_pos (show (M.entries.getD (hash k % 256) []).length * 2 > 0
        from by omega)]
      rw [Nat.mod_eq_of_lt (show (hash k >>> 8) %
          ((M.entries.getD (hash k % 256) []).length * 2) * 8 < u32Mod
        from by omega)]
      rw [Nat.mod_eq_of_lt (show
          M.pos + 16 * sumLens (M.entries.take (hash k % 256)) +
            (hash k >>> 8) %
              ((M.entries.getD (hash k % 256) []).length * 2) * 8 < u32Mod
        from by omega)]
    have hfs : CDB.findStart (hdr ++ (encList rs ++ (tb1 ++ tb2))) k =
        some (VIter.mk k (hash k) 0
          (M.pos + 16 * sumLens (M.entries.take (hash k % 256)) +
            (hash k >>> 8) %
              ((M.entries.getD (hash k % 256) []).length * 2) * 8)
          (M.pos + 16 * sumLens (M.entries.take (hash k % 256)))
          ((M.entries.getD (hash k % 256) []).length * 2)) := by
      unfold CDB.findStart
      rw [hft]
    have hnone : ∀ fuel,
        (vnextFuel (hdr ++ (encList rs ++ (tb1 ++ tb2)))
          (VIter.mk k (hash k) 0
            (M.pos + 16 * sumLens (M.entries.take (hash k % 256)) +
              (hash k >>> 8) %
                ((M.entries.getD (hash k % 256) []).length * 2) * 8)
            (M.pos + 16 * sumLens (M.entries.take (hash k % 256)))
            ((M.entries.getD (hash k % 256) []).length * 2)) fuel).1 =
          none := by
      intro fuel
      refine vnextFuel_none (hdr ++ (encList rs ++ (tb1 ++ tb2)))
        (bTable (M.entries.getD (hash k % 256) []) M.maxsize) fuel _
        (by dsimp only; rw [hTlen])
        (by dsimp only; rw [hTlen, hvlen]; omega)
        (by rw [hvlen]; omega)
        ?_ ?_ ?_ ?_
      · intro w hw
        dsimp only
        rw [hformv, sliceBytes_inner (hdr ++ encList rs ++ tb1)
          (slotsBytes (bTable (M.entries.getD (hash k % 256) []) M.maxsize))
          tb3
          (M.pos + 16 * sumLens (M.entries.take (hash k % 256)) + 8 * w)
          (M.pos + 16 * sumLens (M.entries.take (hash k % 256)) + 8 * w + 8)
          (by rw [hAlen]; omega)
          (by
            rw [hAlen, slotsBytes_length, hTlen]
            rw [hTlen] at hw
            omega)]
        rw [hAlen, Nat.add_sub_cancel_left,
          show M.pos + 16 * sumLens (M.entries.take (hash k % 256)) +
              8 * w + 8 -
              (M.pos + 16 * sumLens (M.entries.take (hash k % 256))) =
            8 * w + 8 from by omega]
        exact slotsBytes_slice _ w hw
      · intro w hw
        rcases bTable_slot (M.entries.getD (hash k % 256) []) M.maxsize w hw
          with hz | hmem
        · refine ⟨?_, ?_⟩ <;> rw [hz] <;>
            norm_num [HashPos.zero, u32Mod]
        · obtain ⟨j2, hj2, hh2, hp2⟩ := hentry _ _ hbjmem hmem
          have hjmem : rs.getD j2 ([], []) ∈ rs := by
            rw [List.getD_eq_getElem rs ([], []) hj2]
            exact List.getElem_mem hj2
          constructor
          · rw [hh2]
            exact hash_lt _ (hbytes _ hjmem)
          · rw [hp2]
            have := sizeSum_take_le rs j2
            omega
      · intro w hw h1 h2
        rcases bTable_slot (M.entries.getD (hash k % 256) []) M.maxsize w hw
          with hz | hmem
        · rw [hz] at h1
          exact absurd rfl h1
        · obtain ⟨j2, hj2, hh2, hp2⟩ := hentry _ _ hbjmem hmem
          have hjmem : rs.getD j2 ([], []) ∈ rs := by
            rw [List.getD_eq_getElem rs ([], []) hj2]
            exact List.getElem_mem hj2
          have hszx := hrecb _ hjmem
          unfold recSize at hszx
          have hst := sizeSum_take_succ rs j2 hj2
          unfold recSize at hst
          have hstle := sizeSum_take_le rs (j2 + 1)
          have hrecslices := encList_record_slices rs j2 hj2 hdr (tb1 ++ tb2)
          rw [hhl] at hrecslices
          refine ⟨(rs.getD j2 ([], [])).1.length,
            (rs.getD j2 ([], [])).2.length, ?_, ?_, ?_, ?_, ?_⟩
          · rw [hp2, hvlen]
            omega
          · rw [hp2, himgassoc]
            exact hrecslices.1
          · omega
          · omega
          · intro hkl hcontra
            dsimp only at hkl hcontra
            rw [Nat.mod_eq_of_lt (show
                ((bTable (M.entries.getD (hash k % 256) [])
                  M.maxsize).getD w HashPos.zero).pos + 8 < u32Mod
              from by rw [hp2]; omega)] at hcontra
            unfold CDB.read at hcontra
            rw [if_pos (show
                ((bTable (M.entries.getD (hash k % 256) [])
                  M.maxsize).getD w HashPos.zero).pos + 8 + k.length ≤
                (hdr ++ (encList rs ++ (tb1 ++ tb2))).length
              from by rw [hp2, hvlen]; omega)] at hcontra
            rw [hp2, himgassoc] at hcontra
            have hkey := hrecslices.2
            rw [hkl] at hkey
            rw [hkey] at hcontra
            have hKK : (rs.getD j2 ([], [])).1 = k := by
              injection hcontra
            exact habs _ hjmem hKK
      · exact ⟨(hash k >>> 8) %
            ((M.entries.getD (hash k % 256) []).length * 2),
          by rw [hTlen]; exact hw0,
          by dsimp only; ring⟩
    obtain ⟨hfa, hg⟩ := htail _ hfs hnone
    exact ⟨M, _, hrun, hfin, hfa, hg⟩


/-! ## C3: absent keys -/

/-- C3: for any record sequence built through the writer (byte-valued
keys, total size within the 32-bit limits) and any key `k` different from
every input key, `find(k)` on the finished image yields no value and
`get(k)` returns `None`. -/
theorem absent_key_find_get (rs : List (List Nat × List Nat))
    (k : List Nat)
    (hb : 2048 + sizeSum rs + 24 * rs.length + 8 < u32Mod)
    (hbytes : ∀ r ∈ rs, ∀ x ∈ r.1, x < 256)
    (habs : ∀ r ∈ rs, r.1 ≠ k) :
    ∃ M v, CDBMake.new.runAdds rs = (M, none) ∧
      M.finish = Except.ok v ∧
      CDB.findAll v.inner k = some [] ∧
      CDB.get v.inner k = some none :=
  absent_key_spec rs k hb hbytes habs

/-- C3 witness: the key `[6]` is absent from the database built from
`[([5], [7])]`. -/
theorem absent_key_find_get_witness :
    ∃ M v, CDBMake.new.runAdds [([5], [7])] = (M, none) ∧
      M.finish = Except.ok v ∧
      CDB.findAll v.inner [6] = some [] ∧
      CDB.get v.inner [6] = some none :=
  absent_key_find_get [([5], [7])] [6] (by decide) (by decide) (by decide)


/-! ## C2 groundwork: the exact bucket contents -/

/-- The pending entries that land in bucket `i`, for records `rs` written
from file position `base`: one entry `(hash key, offset)` per record whose
key hashes into bucket `i`, in input order. -/
def bucketEntries : List (List Nat × List Nat) → Nat → Nat → List HashPos
  | [], _, _ => []
  | r :: rs, base, i =>
    (if hash r.1 % 256 = i then [HashPos.mk (hash r.1) base] else []) ++
      bucketEntries rs (base + recSize r) i

theorem getD_modify_self {α : Type} (f : α → α) (i : Nat) (l : List α)
    (d : α) (h : i < l.length) :
    (l.modify f i).getD i d = f (l.getD i d) := by
  rw [List.getD_eq_getElem?_getD, List.getElem?_modify_eq,
    List.getElem?_eq_getElem h, List.getD_eq_getElem l d h]
  rfl

theorem getD_modify_ne {α : Type} (f : α → α) (i j : Nat) (l : List α)
    (d : α) (h : i ≠ j) :
    (l.modify f i).getD j d = l.getD j d := by
  rw [List.getD_eq_getElem?_getD, List.getElem?_modify_ne _ _ h,
    ← List.getD_eq_getElem?_getD]

/-- A successful `add` run fills each bucket with exactly the entries of
its records, in input order. -/
theorem runAdds_buckets : ∀ (rs : List (List Nat × List Nat)) (m : CDBMake),
    m.file.pos = m.file.inner.length →
    m.pos = m.file.inner.length →
    m.entries.length = 256 →
    m.pos + sizeSum rs < u32Mod →
    (∀ r ∈ rs, r.1.length < 4294967295 ∧ r.2.length < 4294967295) →
    ∀ M, m.runAdds rs = (M, none) →
    ∀ i, i < 256 →
      M.entries.getD i [] = m.entries.getD i [] ++ bucketEntries rs m.pos i := by
  intro rs
  induction rs with
  | nil =>
    intro m h1 h2 h3 h4 h5 M hrun i hi
    have hMm : M = m := by
      have : (m, (none : Option CDBError)) = (M, none) := hrun
      exact (Prod.mk.injEq _ _ _ _ ▸ this).1.symm
    rw [hMm, show bucketEntries [] m.pos i = [] from rfl, List.append_nil]
  | cons r rs ih =>
    rcases r with ⟨k, d⟩
    intro m h1 h2 h3 h4 h5 M hrun i hi
    have h5r := h5 (k, d) (List.mem_cons_self _ _)
    have hrec : recSize (k, d) = 8 + k.length + d.length := rfl
    rw [sizeSum_cons] at h4
    unfold CDBMake.runAdds at hrun
    rw [CDBMake.add_ok m k d h1 h5r.1 h5r.2 (by omega), bindE_ok] at hrun
    have hres := ih
      (CDBMake.mk
        (m.entries.modify (fun l => l ++ [HashPos.mk (hash k) m.pos])
          (hash k % 256))
        (m.pos + (8 + k.length + d.length))
        (VecBuf.mk (m.file.inner ++ recC (k, d))
          (m.file.inner.length + (8 + k.length + d.length))))
      (by dsimp only; rw [List.length_append, recC_length, hrec])
      (by dsimp only; rw [List.length_append, recC_length, hrec, h2])
      (by dsimp only; rw [List.length_modify]; exact h3)
      (by dsimp only; omega)
      (fun r' hr' => h5 r' (List.mem_cons_of_mem _ hr'))
      M hrun i hi
    dsimp only at hres
    rw [hres]
    rw [show bucketEntries ((k, d) :: rs) m.pos i =
      (if hash k % 256 = i then [HashPos.mk (hash k) m.pos] else []) ++
        bucketEntries rs (m.pos + recSize (k, d)) i from rfl]
    rw [hrec]
    by_cases hik : hash k % 256 = i
    · subst hik
      rw [getD_modify_self _ _ _ _ (by omega), if_pos rfl]
      rw [List.append_assoc]
    · rw [getD_modify_ne _ _ _ _ _ hik, if_neg hik, List.nil_append]

/-- The value slice of the `j`-th record. -/
theorem encList_value_slice : ∀ (rs : List (List Nat × List Nat))
    (j : Nat), j < rs.length → ∀ (pre post : List Nat),
    sliceBytes (pre ++ encList rs ++ post)
        (pre.length + sizeSum (rs.take j) + 8 +
          (rs.getD j ([], [])).1.length)
        (pre.length + sizeSum (rs.take j) + 8 +
          (rs.getD j ([], [])).1.length + (rs.getD j ([], [])).2.length) =
      (rs.getD j ([], [])).2 := by
  intro rs
  induction rs with
  | nil => intro j hj; exact absurd hj (by simp)
  | cons r rs ih =>
    intro j hj pre post
    rcases j with _ | j
    · rcases r with ⟨k, d⟩
      simp only [List.take_zero, sizeSum_nil, Nat.add_zero,
        List.getD_cons_zero]
      rw [show pre ++ encList ((k, d) :: rs) ++ post =
          (pre ++ pack2 k.length d.length ++ k) ++ d ++
            (encList rs ++ post) from by
        rw [encList_cons]
        simp [recC, List.append_assoc]]
      exact sliceBytes_seg _ _ _ _ _ (by simp [Nat.add_assoc]) rfl
    · have hj' : j < rs.length := by
        simp only [List.length_cons] at hj
        omega
      have hrw : pre ++ encList (r :: rs) ++ post =
          (pre ++ recC r) ++ encList rs ++ post := by
        rw [encList_cons]
        simp [List.append_assoc]
      have hlen : (pre ++ recC r).length = pre.length + recSize r := by
        rw [List.length_append, recC_length]
      have hoff : pre.length + sizeSum ((r :: rs).take (j + 1)) =
          (pre ++ recC r).length + sizeSum (rs.take j) := by
        rw [List.take_succ_cons, sizeSum_cons, hlen]
        omega
      have := ih j hj' (pre ++ recC r) post
      rw [hrw, List.getD_cons_succ, hoff]
      exact this


/-! ## C2 groundwork: cyclic-probe arithmetic -/

theorem cyc_mod_add (len a e : Nat) : (a % len + e) % len = (a + e) % len := by
  conv_lhs => rw [Nat.add_mod]
  conv_rhs => rw [Nat.add_mod]
  rw [Nat.mod_mod_of_dvd a dvd_rfl]

theorem cyc_home_hit (len h w : Nat) (hh : h < len) (hw : w < len) :
    (h + (w + len - h) % len) % len = w := by
  rcases le_or_lt h w with hle | hlt
  · rw [Nat.mod_eq_sub_mod (show len ≤ w + len - h by omega),
      show w + len - h - len = w - h by omega,
      Nat.mod_eq_of_lt (show w - h < len by omega),
      show h + (w - h) = w by omega, Nat.mod_eq_of_lt hw]
  · rw [Nat.mod_eq_of_lt (show w + len - h < len by omega),
      show h + (w + len - h) = w + len by omega, Nat.add_mod_right,
      Nat.mod_eq_of_lt hw]

theorem cyc_dist (len h d : Nat) (hh : h < len) (hd : d < len) :
    ((h + d) % len + len - h) % len = d := by
  rcases Nat.lt_or_ge (h + d) len with hlt | hge
  · rw [Nat.mod_eq_of_lt hlt, show h + d + len - h = d + len by omega,
      Nat.add_mod_right, Nat.mod_eq_of_lt hd]
  · rw [Nat.mod_eq_sub_mod hge,
      Nat.mod_eq_of_lt (show h + d - len < len by omega),
      show h + d - len + len - h = d by omega, Nat.mod_eq_of_lt hd]

/-- `probeSlot` finds the FIRST empty slot in cyclic order from `wh`,
provided one exists within `fuel` steps. -/
theorem probeSlot_first_empty (table : List HashPos) (len : Nat) :
    ∀ (fuel wh : Nat), wh < len →
    (∃ d, d < fuel ∧ (table.getD ((wh + d) % len) HashPos.zero).pos = 0) →
    ∃ d, d < fuel ∧
      (∀ e, e < d → (table.getD ((wh + e) % len) HashPos.zero).pos ≠ 0) ∧
      (table.getD ((wh + d) % len) HashPos.zero).pos = 0 ∧
      probeSlot table len wh fuel = (wh + d) % len := by
  intro fuel
  induction fuel with
  | zero =>
    intro wh h hex
    rcases hex with ⟨d, hd, _⟩
    omega
  | succ n ih =>
    intro wh h hex
    by_cases h0 : (table.getD wh HashPos.zero).pos = 0
    · refine ⟨0, by omega, fun e he => absurd he (by omega), ?_, ?_⟩
      · rw [Nat.add_zero, Nat.mod_eq_of_lt h]
        exact h0
      · unfold probeSlot
        rw [if_neg (fun hc => hc h0), Nat.add_zero, Nat.mod_eq_of_lt h]
    · set wh' := if wh + 1 = len then 0 else wh + 1 with hwh'
      have hlt' : wh' < len := by
        rw [hwh']
        split <;> omega
      have hstep : ∀ e, (wh' + e) % len = (wh + (e + 1)) % len := by
        intro e
        rw [hwh']
        split
        · rename_i heq
          rw [Nat.zero_add, show wh + (e + 1) = e + len by omega,
            Nat.add_mod_right]
        · congr 1
          omega
      rcases hex with ⟨d, hd, hde⟩
      have hd0 : d ≠ 0 := by
        intro h'
        subst h'
        rw [Nat.add_zero, Nat.mod_eq_of_lt h] at hde
        exact h0 hde
      obtain ⟨d', rfl⟩ : ∃ d', d = d' + 1 := ⟨d - 1, by omega⟩
      have hex' : ∃ e, e < n ∧
          (table.getD ((wh' + e) % len) HashPos.zero).pos = 0 :=
        ⟨d', by omega, by rw [hstep]; exact hde⟩
      rcases ih wh' hlt' hex' with ⟨e, he, hmin, hemp, hps⟩
      refine ⟨e + 1, by omega, ?_, ?_, ?_⟩
      · intro f hf
        rcases f with _ | f
        · rw [Nat.add_zero, Nat.mod_eq_of_lt h]
          exact h0
        · rw [← hstep f]
          exact hmin f (by omega)
      · rw [← hstep]
        exact hemp
      · unfold probeSlot
        rw [if_pos h0, ← hwh', hps, hstep]


/-! ## C2 groundwork: table occupancy bookkeeping -/

theorem countP_set_incr {α : Type} (p : α → Bool) :
    ∀ (l : List α) (w : Nat) (a d : α), w < l.length →
    p (l.getD w d) = false → p a = true →
    (l.set w a).countP p = l.countP p + 1 := by
  intro l
  induction l with
  | nil =>
    intro w a d hw
    exact absurd hw (by simp)
  | cons x l ih =>
    intro w a d hw hpf hpt
    rcases w with _ | w
    · rw [show (x :: l).set 0 a = a :: l from rfl, List.countP_cons,
        List.countP_cons]
      rw [List.getD_cons_zero] at hpf
      simp [hpf, hpt]
    · rw [show (x :: l).set (w + 1) a = x :: l.set w a from rfl,
        List.countP_cons, List.countP_cons]
      rw [List.getD_cons_succ] at hpf
      rw [ih w a d (by simpa using hw) hpf hpt]
      omega

theorem exists_empty_slot (T : List HashPos) (len : Nat)
    (hlen : len ≤ T.length)
    (hc : (T.take len).countP (fun s => s.pos != 0) < len) :
    ∃ w, w < len ∧ (T.getD w HashPos.zero).pos = 0 := by
  by_contra hno
  push_neg at hno
  have hall : ∀ a ∈ T.take len, (fun s => s.pos != 0) a = true := by
    intro a ha
    rcases List.mem_iff_getElem.mp ha with ⟨w, hw, hwa⟩
    have hwlen : w < len := by
      rw [List.length_take] at hw
      omega
    have hwT : w < T.length := by omega
    have ha' : a = T.getD w HashPos.zero := by
      rw [List.getD_eq_getElem T _ hwT, ← hwa, List.getElem_take]
    rw [ha']
    simp only [bne_iff_ne, ne_eq]
    exact hno w hwlen
  have hfull := List.countP_eq_length.mpr hall
  rw [hfull, List.length_take] at hc
  omega

theorem getD_set_self {α : Type} (l : List α) (w : Nat) (a d : α)
    (h : w < l.length) : (l.set w a).getD w d = a := by
  rw [List.getD_eq_getElem?_getD, List.getElem?_set_self h]
  rfl

theorem getD_set_ne {α : Type} (l : List α) (w x : Nat) (a d : α)
    (h : w ≠ x) : (l.set w a).getD x d = l.getD x d := by
  rw [List.getD_eq_getElem?_getD, List.getElem?_set_ne h,
    ← List.getD_eq_getElem?_getD]

/-! ## C2 groundwork: the linear-probe placement invariant -/

/-- The scratch table after inserting the first `n` entries of bucket `b`. -/
def insTab (b : List HashPos) (msize n : Nat) : List HashPos :=
  insertAll (b.take n) (b.length * 2) (List.replicate msize HashPos.zero)

/-- The home slot of entry `e` in a table of `len` slots:
`wh = (e.hash >> 8) % len`. -/
def bHome (len : Nat) (e : HashPos) : Nat := (e.hash >>> 8) % len

/-- The slot where the `j`-th entry of bucket `b` is stored. -/
def bSlot (b : List HashPos) (msize j : Nat) : Nat :=
  probeSlot (insTab b msize j) (b.length * 2)
    (bHome (b.length * 2) (b.getD j HashPos.zero)) (b.length * 2)

/-- Cyclic probe distance from the `j`-th entry's home slot to its slot. -/
def bDist (b : List HashPos) (msize j : Nat) : Nat :=
  (bSlot b msize j + b.length * 2 -
    bHome (b.length * 2) (b.getD j HashPos.zero)) % (b.length * 2)

theorem insTab_succ (b : List HashPos) (msize n : Nat) (hn : n < b.length) :
    insTab b msize (n + 1) =
      (insTab b msize n).set (bSlot b msize n) (b.getD n HashPos.zero) := by
  have hb : b.take (n + 1) = b.take n ++ [b.getD n HashPos.zero] := by
    rw [List.take_succ, List.getElem?_eq_getElem hn,
      List.getD_eq_getElem b _ hn]
    rfl
  unfold insTab
  rw [hb]
  unfold insertAll
  rw [List.foldl_append]
  rfl

/-- The placement invariant of the `while table[wh].pos != 0` probe loop,
after the first `n` entries of bucket `b` have been inserted: (i) the table
keeps its size; (ii) exactly `n` of the first `2·|b|` slots are occupied;
(iii) each inserted entry sits at its slot, within range; (iv) every slot
on the cyclic path from an entry's home to its slot is occupied; (v)
entries sharing a home slot sit at strictly increasing probe distances, in
insertion order; (vi) every occupied slot holds an inserted entry. -/
def InsInv (b : List HashPos) (msize n : Nat) : Prop :=
  let len := b.length * 2
  let t := insTab b msize n
  t.length = msize ∧
  (t.take len).countP (fun s => s.pos != 0) = n ∧
  (∀ j, j < n → bSlot b msize j < len ∧ bDist b msize j < len ∧
    (bHome len (b.getD j HashPos.zero) + bDist b msize j) % len =
      bSlot b msize j ∧
    t.getD (bSlot b msize j) HashPos.zero = b.getD j HashPos.zero) ∧
  (∀ j, j < n → ∀ d, d ≤ bDist b msize j →
    (t.getD ((bHome len (b.getD j HashPos.zero) + d) % len)
      HashPos.zero).pos ≠ 0) ∧
  (∀ j j', j < j' → j' < n →
    bHome len (b.getD j HashPos.zero) =
      bHome len (b.getD j' HashPos.zero) →
    bDist b msize j < bDist b msize j') ∧
  (∀ w, w < len → ((t.getD w HashPos.zero).pos = 0 ∨
    ∃ j, j < n ∧ bSlot b msize j = w ∧
      t.getD w HashPos.zero = b.getD j HashPos.zero))


/-- The probe-loop invariant holds after every prefix of the bucket. -/
theorem insertAll_invariant (b : List HashPos) (msize : Nat)
    (hmsize : b.length * 2 ≤ msize)
    (hbpos : ∀ e ∈ b, e.pos ≠ 0) :
    ∀ n, n ≤ b.length → InsInv b msize n := by
  have hmemj : ∀ j, j < b.length → b.getD j HashPos.zero ∈ b := by
    intro j hj
    rw [List.getD_eq_getElem b _ hj]
    exact List.getElem_mem hj
  intro n
  induction n with
  | zero =>
    intro _
    have ht0 : insTab b msize 0 = List.replicate msize HashPos.zero := by
      unfold insTab
      rw [List.take_zero, insertAll_nil]
    dsimp only [InsInv]
    refine ⟨?_, ?_, ?_, ?_, ?_, ?_⟩
    · rw [ht0, List.length_replicate]
    · rw [ht0, List.take_replicate]
      apply List.countP_eq_zero.mpr
      intro a ha
      rw [List.eq_of_mem_replicate ha]
      simp [HashPos.zero]
    · intro j hj
      exact absurd hj (by omega)
    · intro j hj
      exact absurd hj (by omega)
    · intro j j' _ hj'
      exact absurd hj' (by omega)
    · intro w _
      left
      rw [ht0, List.getD_eq_getElem?_getD, List.getElem?_replicate]
      split <;> rfl
  | succ n ih =>
    intro hn1
    have hn : n < b.length := by omega
    have hInv := ih (by omega)
    dsimp only [InsInv] at hInv
    obtain ⟨h1, h2, h3, h4, h5, h6⟩ := hInv
    have hepos : (b.getD n HashPos.zero).pos ≠ 0 := hbpos _ (hmemj n hn)
    have hhome : bHome (b.length * 2) (b.getD n HashPos.zero) <
        b.length * 2 := Nat.mod_lt _ (by omega)
    have hcount : ((insTab b msize n).take (b.length * 2)).countP
        (fun s => s.pos != 0) < b.length * 2 := by
      rw [h2]
      omega
    have hlenT : b.length * 2 ≤ (insTab b msize n).length := by
      rw [h1]
      omega
    obtain ⟨w0, hw0, hw0emp⟩ := exists_empty_slot _ _ hlenT hcount
    have hex : ∃ d, d < b.length * 2 ∧
        ((insTab b msize n).getD
          ((bHome (b.length * 2) (b.getD n HashPos.zero) + d) %
            (b.length * 2)) HashPos.zero).pos = 0 := by
      refine ⟨(w0 + b.length * 2 -
        bHome (b.length * 2) (b.getD n HashPos.zero)) % (b.length * 2),
        Nat.mod_lt _ (by omega), ?_⟩
      rw [cyc_home_hit _ _ _ hhome hw0]
      exact hw0emp
    obtain ⟨D, hD, hmin, hemp, hps⟩ :=
      probeSlot_first_empty (insTab b msize n) (b.length * 2)
        (b.length * 2) (bHome (b.length * 2) (b.getD n HashPos.zero))
        hhome hex
    have hslot_eq : bSlot b msize n =
        (bHome (b.length * 2) (b.getD n HashPos.zero) + D) %
          (b.length * 2) := hps
    have hdist_eq : bDist b msize n = D := by
      unfold bDist
      rw [hslot_eq]
      exact cyc_dist _ _ _ hhome hD
    have hslot_lt : bSlot b msize n < b.length * 2 := by
      rw [hslot_eq]
      exact Nat.mod_lt _ (by omega)
    have hslot_msize : bSlot b msize n < (insTab b msize n).length := by
      omega
    have hslotemp : ((insTab b msize n).getD (bSlot b msize n)
        HashPos.zero).pos = 0 := by
      rw [hslot_eq]
      exact hemp
    have hstep := insTab_succ b msize n hn
    have hgetD_new : (insTab b msize (n + 1)).getD (bSlot b msize n)
        HashPos.zero = b.getD n HashPos.zero := by
      rw [hstep]
      exact getD_set_self _ _ _ _ hslot_msize
    have hgetD_old : ∀ x, x ≠ bSlot b msize n →
        (insTab b msize (n + 1)).getD x HashPos.zero =
          (insTab b msize n).getD x HashPos.zero := by
      intro x hx
      rw [hstep]
      exact getD_set_ne _ _ _ _ _ (Ne.symm hx)
    have hocc_mono : ∀ x,
        ((insTab b msize n).getD x HashPos.zero).pos ≠ 0 →
        ((insTab b msize (n + 1)).getD x HashPos.zero).pos ≠ 0 := by
      intro x hx
      by_cases hxs : x = bSlot b msize n
      · subst hxs
        exact absurd hslotemp hx
      · rw [hgetD_old x hxs]
        exact hx
    have hslot_ne : ∀ j, j < n → bSlot b msize j ≠ bSlot b msize n := by
      intro j hj hc
      have h3j := h3 j hj
      have hjn0 : ((insTab b msize n).getD (bSlot b msize j)
          HashPos.zero).pos ≠ 0 := by
        rw [h3j.2.2.2]
        exact hbpos _ (hmemj j (by omega))
      rw [hc] at hjn0
      exact hjn0 hslotemp
    have htake_len : bSlot b msize n <
        ((insTab b msize n).take (b.length * 2)).length := by
      rw [List.length_take]
      omega
    have htake_getD : ((insTab b msize n).take (b.length * 2)).getD
        (bSlot b msize n) HashPos.zero =
        (insTab b msize n).getD (bSlot b msize n) HashPos.zero := by
      rw [List.getD_eq_getElem _ _ htake_len,
        List.getD_eq_getElem _ _ hslot_msize, List.getElem_take]
    have hpfalse : (fun s => s.pos != 0)
        (((insTab b msize n).take (b.length * 2)).getD (bSlot b msize n)
          HashPos.zero) = false := by
      rw [htake_getD]
      show (((insTab b msize n).getD (bSlot b msize n)
        HashPos.zero).pos != 0) = false
      rw [hslotemp]
      rfl
    have hptrue : (fun s => s.pos != 0) (b.getD n HashPos.zero) = true := by
      simp only [bne_iff_ne, ne_eq]
      exact hepos
    dsimp only [InsInv]
    refine ⟨?_, ?_, ?_, ?_, ?_, ?_⟩
    · rw [hstep, List.length_set]
      exact h1
    · rw [hstep, List.set_take,
        countP_set_incr _ _ _ _ _ htake_len hpfalse hptrue, h2]
    · intro j hj
      rcases Nat.lt_or_ge j n with hjn | hjn
      · have h3j := h3 j hjn
        refine ⟨h3j.1, h3j.2.1, h3j.2.2.1, ?_⟩
        rw [hgetD_old _ (hslot_ne j hjn)]
        exact h3j.2.2.2
      · have hjeq : j = n := by omega
        subst hjeq
        refine ⟨hslot_lt, by rw [hdist_eq]; exact hD, ?_, hgetD_new⟩
        rw [hdist_eq]
        exact hslot_eq.symm
    · intro j hj d hd
      rcases Nat.lt_or_ge j n with hjn | hjn
      · exact hocc_mono _ (h4 j hjn d hd)
      · have hjeq : j = n := by omega
        subst hjeq
        rw [hdist_eq] at hd
        rcases Nat.lt_or_ge d D with hdD | hdD
        · exact hocc_mono _ (hmin d hdD)
        · have hdeq : d = D := by omega
          subst hdeq
          rw [← hslot_eq, hgetD_new]
          exact hepos
    · intro j j' hjj' hj' hhomeeq
      rcases Nat.lt_or_ge j' n with hj'n | hj'n
      · exact h5 j j' hjj' hj'n hhomeeq
      · have hj'eq : j' = n := by omega
        subst hj'eq
        by_contra hge
        push_neg at hge
        rw [hdist_eq] at hge
        have hocc := h4 j hjj' D hge
        rw [hhomeeq] at hocc
        exact hocc hemp
    · intro w hw
      by_cases hws : w = bSlot b msize n
      · subst hws
        right
        exact ⟨n, by omega, rfl, hgetD_new⟩
      · rw [hgetD_old _ hws]
        rcases h6 w hw with hz | ⟨j, hjn, hjs, hjv⟩
        · left
          exact hz
        · right
          exact ⟨j, by omega, hjs, hjv⟩


/-! ## C2 groundwork: the reader probe walk -/

/-- Straight-line model of `find`'s probe walk from probe counter `t`:
`out t = none` means the slot visited at probe `t` is empty (iteration
ends), `some none` means the probe continues without a yield, and
`some (some v)` means the value `v` is yielded. -/
def walkOut (out : Nat → Option (Option (List Nat))) :
    Nat → Nat → List (List Nat)
  | _, 0 => []
  | t, r + 1 =>
    match out t with
    | none => []
    | some none => walkOut out (t + 1) r
    | some (some v) => v :: walkOut out (t + 1) r

/-- Draining `find`'s iterator follows the straight-line walk: probe `t`
visits slot `(h0 + t) % hslots`, and each probe's outcome is dictated by
that slot's contents and the record it points at. -/
theorem vcollect_walkOut (file : List Nat) (T : List HashPos)
    (key : List Nat) (khash hpos h0 : Nat)
    (out : Nat → Option (Option (List Nat)))
    (hflt : file.length < u32Mod)
    (hbound : hpos + 8 * T.length ≤ file.length)
    (hh0 : h0 < T.length)
    (hslot : ∀ w, w < T.length →
      sliceBytes file (hpos + 8 * w) (hpos + 8 * w + 8) =
        (T.getD w HashPos.zero).packBytes)
    (hlt : ∀ w, w < T.length → (T.getD w HashPos.zero).hash < u32Mod ∧
      (T.getD w HashPos.zero).pos < u32Mod)
    (hclass : ∀ t, t < T.length →
      ((T.getD ((h0 + t) % T.length) HashPos.zero).pos = 0 →
        out t = none) ∧
      ((T.getD ((h0 + t) % T.length) HashPos.zero).pos ≠ 0 →
        (T.getD ((h0 + t) % T.length) HashPos.zero).hash ≠ khash →
        out t = some none) ∧
      ((T.getD ((h0 + t) % T.length) HashPos.zero).pos ≠ 0 →
        (T.getD ((h0 + t) % T.length) HashPos.zero).hash = khash →
        ∃ kl dl,
          (T.getD ((h0 + t) % T.length) HashPos.zero).pos + 8 ≤
            file.length ∧
          sliceBytes file
            (T.getD ((h0 + t) % T.length) HashPos.zero).pos
            ((T.getD ((h0 + t) % T.length) HashPos.zero).pos + 8) =
            pack2 kl dl ∧ kl < u32Mod ∧ dl < u32Mod ∧
          ((out t = some none ∧ ¬(kl = key.length ∧
            CDB.read file key.length
              (((T.getD ((h0 + t) % T.length) HashPos.zero).pos + 8) %
                u32Mod) = some key)) ∨
           (∃ v, out t = some (some v) ∧ kl = key.length ∧
            CDB.read file key.length
              (((T.getD ((h0 + t) % T.length) HashPos.zero).pos + 8) %
                u32Mod) = some key ∧
            CDB.read file dl
              ((((T.getD ((h0 + t) % T.length) HashPos.zero).pos + 8) %
                u32Mod + key.length % u32Mod) % u32Mod) = some v)))) :
    ∀ (r : Nat) (s : VIter) (fuelc : Nat), s.key = key →
      s.khash = khash → s.hpos = hpos → s.hslots = T.length →
      s.kloop + r = T.length →
      s.kpos = hpos + 8 * ((h0 + s.kloop) % T.length) →
      r + 1 ≤ fuelc →
      vcollect file s fuelc = walkOut out s.kloop r := by
  intro r
  induction r with
  | zero =>
    intro s fuelc hskey hskh hshp hshs hsum hkpos hfuel
    rcases fuelc with _ | m
    · omega
    have hvn : vnext file s = (none, s) := by
      unfold vnext
      rw [show s.hslots - s.kloop = 0 from by omega]
      rfl
    rw [show vcollect file s (m + 1) = (match vnext file s with
      | (none, _) => []
      | (some v, s') => v :: vcollect file s' m) from rfl]
    rw [hvn]
    rfl
  | succ r ih =>
    intro s fuelc hskey hskh hshp hshs hsum hkpos hfuel
    rcases fuelc with _ | m
    · omega
    have hloop : s.kloop < s.hslots := by omega
    obtain ⟨hcA, hcB, hcC⟩ := hclass s.kloop (by omega)
    set w := (h0 + s.kloop) % T.length with hwdef
    have hww : w < T.length := by
      rw [hwdef]
      exact Nat.mod_lt _ (by omega)
    have hread : CDB.read file 8 s.kpos =
        some ((T.getD w HashPos.zero).packBytes) := by
      unfold CDB.read
      rw [if_pos (show s.kpos + 8 ≤ file.length from by
        rw [hkpos]
        omega)]
      rw [hkpos, hslot w hww]
    have hM : u32Mod = 4294967296 := rfl
    have hadv : s.advance.kpos =
        hpos + 8 * ((h0 + (s.kloop + 1)) % T.length) := by
      unfold VIter.advance
      dsimp only
      rw [hkpos, hshp, hshs]
      rw [Nat.mod_eq_of_lt (show hpos + 8 * w + 8 < u32Mod from by omega),
        Nat.mod_eq_of_lt (show T.length * 8 < u32Mod from by omega),
        Nat.mod_eq_of_lt (show hpos + T.length * 8 < u32Mod from by omega)]
      have hsucc : (h0 + (s.kloop + 1)) % T.length = (w + 1) % T.length := by
        rw [hwdef, cyc_mod_add, show h0 + s.kloop + 1 = h0 + (s.kloop + 1)
          from by omega]
      by_cases hwrap : w + 1 = T.length
      · rw [if_pos (show hpos + 8 * w + 8 = hpos + T.length * 8 from by
          omega)]
        rw [hsucc, hwrap, Nat.mod_self, Nat.mul_zero, Nat.add_zero]
      · rw [if_neg (show ¬ hpos + 8 * w + 8 = hpos + T.length * 8 from by
          omega)]
        rw [hsucc, Nat.mod_eq_of_lt (show w + 1 < T.length from by omega)]
        omega
    have hpk : (T.getD w HashPos.zero).packBytes =
        pack2 (T.getD w HashPos.zero).hash (T.getD w HashPos.zero).pos := rfl
    have hcollect_eq : vcollect file s (m + 1) = (match vnext file s with
      | (none, _) => []
      | (some v, s') => v :: vcollect file s' m) := rfl
    by_cases hz : (T.getD w HashPos.zero).pos = 0
    · have hvb : vbody file s = (some none, s, [(s.kpos, 8)]) := by
        unfold vbody
        rw [hread]
        dsimp only
        rw [hpk, unpack2_pack2 _ _ (hlt w hww).1 (hlt w hww).2]
        dsimp only
        rw [if_pos hz]
      have hvf : vnextFuel file s (r + 1) = (none, s, [(s.kpos, 8)]) := by
        show (if s.kloop < s.hslots then _ else ((none, s, []) :
          Option (List Nat) × VIter × List (Nat × Nat))) = _
        rw [if_pos hloop, hvb]
      have hvn : vnext file s = (none, s) := by
        unfold vnext
        rw [show s.hslots - s.kloop = r + 1 from by omega, hvf]
      rw [hcollect_eq, hvn]
      conv_rhs => rw [walkOut]
      rw [hcA hz]
    · by_cases hh : (T.getD w HashPos.zero).hash = khash
      · obtain ⟨kl, dl, hpb, hsl, hklu, hdlu, hout⟩ := hcC hz hh
        have hread2 : CDB.read file 8 (T.getD w HashPos.zero).pos =
            some (pack2 kl dl) := by
          unfold CDB.read
          rw [if_pos hpb, hsl]
        rcases hout with ⟨houtB, hmiss⟩ | ⟨v, houtC, hkl, hkread, hvread⟩
        · -- hash hit, key mismatch: the probe continues without a yield
          have hvb : (vbody file s).1 = none ∧
              (vbody file s).2.1 = s.advance := by
            unfold vbody
            rw [hread]
            dsimp only
            rw [hpk, unpack2_pack2 _ _ (hlt w hww).1 (hlt w hww).2]
            dsimp only
            rw [if_neg hz]
            simp only [VIter.advance_khash, VIter.advance_key, hskh, hskey]
            rw [if_pos hh, hread2]
            dsimp only
            rw [unpack2_pack2 kl dl hklu hdlu]
            dsimp only
            rw [if_neg hmiss]
            exact ⟨rfl, rfl⟩
          rcases hvbe : vbody file s with ⟨o, s1, tr⟩
          rw [hvbe] at hvb
          dsimp only at hvb
          obtain ⟨rfl, rfl⟩ := hvb
          have hvf : vnextFuel file s (r + 1) =
              ((vnextFuel file s.advance r).1,
                (vnextFuel file s.advance r).2.1,
                tr ++ (vnextFuel file s.advance r).2.2) := by
            show (if s.kloop < s.hslots then _ else ((none, s, []) :
              Option (List Nat) × VIter × List (Nat × Nat))) = _
            rw [if_pos hloop, hvbe]
          have hvneq : vnext file s = vnext file s.advance := by
            unfold vnext
            rw [show s.hslots - s.kloop = r + 1 from by omega, hvf,
              show s.advance.hslots - s.advance.kloop = r from by
                simp only [VIter.advance_hslots, VIter.advance_kloop]
                omega]
          have hih := ih s.advance (m + 1)
            (by rw [VIter.advance_key, hskey])
            (by rw [VIter.advance_khash, hskh])
            (by rw [VIter.advance_hpos, hshp])
            (by rw [VIter.advance_hslots, hshs])
            (by rw [VIter.advance_kloop]; omega)
            (by rw [VIter.advance_kloop, hadv])
            (by omega)
          rw [hcollect_eq, hvneq,
            show (match vnext file s.advance with
              | (none, _) => []
              | (some v, s') => v :: vcollect file s' m) =
              vcollect file s.advance (m + 1) from rfl, hih,
            VIter.advance_kloop]
          conv_rhs => rw [walkOut]
          rw [houtB]
        · -- hash hit and key match: yield the value at the record
          have hvb : vbody file s = (some (some v), s.advance,
              [(s.kpos, 8), ((T.getD w HashPos.zero).pos, 8),
               (((T.getD w HashPos.zero).pos + 8) % u32Mod, key.length),
               ((((T.getD w HashPos.zero).pos + 8) % u32Mod +
                 key.length % u32Mod) % u32Mod, dl)]) := by
            unfold vbody
            rw [hread]
            dsimp only
            rw [hpk, unpack2_pack2 _ _ (hlt w hww).1 (hlt w hww).2]
            dsimp only
            rw [if_neg hz]
            simp only [VIter.advance_khash, VIter.advance_key, hskh, hskey]
            rw [if_pos hh, hread2]
            dsimp only
            rw [unpack2_pack2 kl dl hklu hdlu]
            dsimp only
            rw [if_pos ⟨hkl, hkread⟩, hvread]
          have hvf : vnextFuel file s (r + 1) = (some v, s.advance,
              [(s.kpos, 8), ((T.getD w HashPos.zero).pos, 8),
               (((T.getD w HashPos.zero).pos + 8) % u32Mod, key.length),
               ((((T.getD w HashPos.zero).pos + 8) % u32Mod +
                 key.length % u32Mod) % u32Mod, dl)]) := by
            show (if s.kloop < s.hslots then _ else ((none, s, []) :
              Option (List Nat) × VIter × List (Nat × Nat))) = _
            rw [if_pos hloop, hvb]
          have hvn : vnext file s = (some v, s.advance) := by
            unfold vnext
            rw [show s.hslots - s.kloop = r + 1 from by omega, hvf]
          have hih := ih s.advance m
            (by rw [VIter.advance_key, hskey])
            (by rw [VIter.advance_khash, hskh])
            (by rw [VIter.advance_hpos, hshp])
            (by rw [VIter.advance_hslots, hshs])
            (by rw [VIter.advance_kloop]; omega)
            (by rw [VIter.advance_kloop, hadv])
            (by omega)
          rw [hcollect_eq, hvn]
          show v :: vcollect file s.advance m = walkOut out s.kloop (r + 1)
          rw [hih, VIter.advance_kloop]
          conv_rhs => rw [walkOut]
          rw [houtC]
      · -- hash mismatch: the probe continues without a yield
        have houtB := hcB hz hh
        have hvb : (vbody file s).1 = none ∧
            (vbody file s).2.1 = s.advance := by
          unfold vbody
          rw [hread]
          dsimp only
          rw [hpk, unpack2_pack2 _ _ (hlt w hww).1 (hlt w hww).2]
          dsimp only
          rw [if_neg hz]
          simp only [VIter.advance_khash, hskh]
          rw [if_neg hh]
          exact ⟨rfl, rfl⟩
        rcases hvbe : vbody file s with ⟨o, s1, tr⟩
        rw [hvbe] at hvb
        dsimp only at hvb
        obtain ⟨rfl, rfl⟩ := hvb
        have hvf : vnextFuel file s (r + 1) =
            ((vnextFuel file s.advance r).1,
              (vnextFuel file s.advance r).2.1,
              tr ++ (vnextFuel file s.advance r).2.2) := by
          show (if s.kloop < s.hslots then _ else ((none, s, []) :
            Option (List Nat) × VIter × List (Nat × Nat))) = _
          rw [if_pos hloop, hvbe]
        have hvneq : vnext file s = vnext file s.advance := by
          unfold vnext
          rw [show s.hslots - s.kloop = r + 1 from by omega, hvf,
            show s.advance.hslots - s.advance.kloop = r from by
              simp only [VIter.advance_hslots, VIter.advance_kloop]
              omega]
        have hih := ih s.advance (m + 1)
          (by rw [VIter.advance_key, hskey])
          (by rw [VIter.advance_khash, hskh])
          (by rw [VIter.advance_hpos, hshp])
          (by rw [VIter.advance_hslots, hshs])
          (by rw [VIter.advance_kloop]; omega)
          (by rw [VIter.advance_kloop, hadv])
          (by omega)
        rw [hcollect_eq, hvneq,
          show (match vnext file s.advance with
            | (none, _) => []
            | (some v, s') => v :: vcollect file s' m) =
            vcollect file s.advance (m + 1) from rfl, hih,
          VIter.advance_kloop]
        conv_rhs => rw [walkOut]
        rw [houtB]


/-- The probe walk from home slot `h0` yields exactly the matching
entries whose probe distance is at least `t`, in insertion order:
entries sharing the home slot sit at strictly increasing distances
(`InsInv`), so ascending-distance traversal is insertion order, and no
match hides behind an empty slot. -/
theorem walkOut_filter (b : List HashPos) (msize : Nat)
    (hmsize : b.length * 2 ≤ msize) (hbpos : ∀ e ∈ b, e.pos ≠ 0)
    (h0 : Nat) (hh0 : h0 < b.length * 2)
    (P : Nat → Bool) (val : Nat → List Nat)
    (out : Nat → Option (Option (List Nat)))
    (hinj : ∀ j j', j < b.length → j' < b.length →
      b.getD j HashPos.zero = b.getD j' HashPos.zero → j = j')
    (hPhome : ∀ j, j < b.length → P j = true →
      bHome (b.length * 2) (b.getD j HashPos.zero) = h0)
    (hout : ∀ t, t < b.length * 2 →
      (((insTab b msize b.length).getD ((h0 + t) % (b.length * 2))
          HashPos.zero).pos = 0 → out t = none) ∧
      (∀ j, j < b.length →
        bSlot b msize j = (h0 + t) % (b.length * 2) →
        out t = (if P j then some (some (val j)) else some none))) :
    ∀ (r t : Nat), t + r = b.length * 2 →
      walkOut out t r =
        ((List.range b.length).filter
          (fun j => P j && decide (t ≤ bDist b msize j))).map val := by
  have hInv := insertAll_invariant b msize hmsize hbpos b.length
    (le_refl _)
  dsimp only [InsInv] at hInv
  obtain ⟨h1, h2, h3, h4, h5, h6⟩ := hInv
  intro r
  induction r with
  | zero =>
    intro t ht
    have hnil : (List.range b.length).filter
        (fun j => P j && decide (t ≤ bDist b msize j)) = [] := by
      apply List.filter_eq_nil_iff.mpr
      intro j hj hcontra
      rw [List.mem_range] at hj
      rw [Bool.and_eq_true, decide_eq_true_iff] at hcontra
      obtain ⟨hPj, hle⟩ := hcontra
      have hd := (h3 j hj).2.1
      omega
    rw [hnil]
    rfl
  | succ r ih =>
    intro t ht
    have htlt : t < b.length * 2 := by omega
    have hwlt : (h0 + t) % (b.length * 2) < b.length * 2 :=
      Nat.mod_lt _ (by omega)
    obtain ⟨houtA, houtB⟩ := hout t htlt
    rcases h6 ((h0 + t) % (b.length * 2)) hwlt with hempty |
      ⟨j0, hj0, hj0slot, hj0val⟩
    · have hnil : (List.range b.length).filter
          (fun j => P j && decide (t ≤ bDist b msize j)) = [] := by
        apply List.filter_eq_nil_iff.mpr
        intro j hj hcontra
        rw [List.mem_range] at hj
        rw [Bool.and_eq_true, decide_eq_true_iff] at hcontra
        obtain ⟨hPj, hle⟩ := hcontra
        have hocc := h4 j hj t hle
        rw [hPhome j hj hPj] at hocc
        exact hocc hempty
      rw [walkOut, houtA hempty, hnil]
      rfl
    · by_cases hP0 : P j0 = true
      · have homej0 := hPhome j0 hj0 hP0
        have hdistlt := (h3 j0 hj0).2.1
        have hs := (h3 j0 hj0).2.2.1
        rw [homej0] at hs
        have hdj0 : bDist b msize j0 = t := by
          have e1 := cyc_dist (b.length * 2) h0 (bDist b msize j0) hh0
            hdistlt
          have e2 := cyc_dist (b.length * 2) h0 t hh0 htlt
          rw [← e1, ← e2, hs, hj0slot]
        have hvalout : out t = some (some (val j0)) := by
          rw [houtB j0 hj0 hj0slot, if_pos hP0]
        rw [walkOut, hvalout]
        show val j0 :: walkOut out (t + 1) r =
          ((List.range b.length).filter
            (fun j => P j && decide (t ≤ bDist b msize j))).map val
        rw [ih (t + 1) (by omega)]
        have hsplit : List.range b.length =
            (List.range j0 ++ [j0]) ++
              (List.range (b.length - (j0 + 1))).map
                (fun x => j0 + 1 + x) := by
          conv_lhs => rw [show b.length = (j0 + 1) + (b.length - (j0 + 1))
            from by omega]
          rw [List.range_add (j0 + 1) (b.length - (j0 + 1)),
            List.range_succ j0]
        have hpre0 : (List.range j0).filter
            (fun j => P j && decide (t ≤ bDist b msize j)) = [] := by
          apply List.filter_eq_nil_iff.mpr
          intro j hj hcontra
          rw [List.mem_range] at hj
          rw [Bool.and_eq_true, decide_eq_true_iff] at hcontra
          obtain ⟨hPj, hle⟩ := hcontra
          have hlt5 := h5 j j0 hj hj0
            (by rw [hPhome j (by omega) hPj, homej0])
          omega
        have hpre1 : (List.range j0).filter
            (fun j => P j && decide (t + 1 ≤ bDist b msize j)) = [] := by
          apply List.filter_eq_nil_iff.mpr
          intro j hj hcontra
          rw [List.mem_range] at hj
          rw [Bool.and_eq_true, decide_eq_true_iff] at hcontra
          obtain ⟨hPj, hle⟩ := hcontra
          have hlt5 := h5 j j0 hj hj0
            (by rw [hPhome j (by omega) hPj, homej0])
          omega
        have hc0 : (P j0 && decide (t ≤ bDist b msize j0)) = true := by
          rw [hP0, hdj0, decide_eq_true (le_refl t)]
          rfl
        have hc1 : (P j0 && decide (t + 1 ≤ bDist b msize j0)) = false := by
          rw [hdj0, decide_eq_false (by omega), Bool.and_false]
        have hj0f0 : [j0].filter
            (fun j => P j && decide (t ≤ bDist b msize j)) = [j0] := by
          simp [hc0]
        have hj0f1 : [j0].filter
            (fun j => P j && decide (t + 1 ≤ bDist b msize j)) = [] := by
          simp [hc1]
        have hsuf : ((List.range (b.length - (j0 + 1))).map
              (fun x => j0 + 1 + x)).filter
              (fun j => P j && decide (t ≤ bDist b msize j)) =
            ((List.range (b.length - (j0 + 1))).map
              (fun x => j0 + 1 + x)).filter
              (fun j => P j && decide (t + 1 ≤ bDist b msize j)) := by
          apply List.filter_congr
          intro j hj
          rcases List.mem_map.mp hj with ⟨x, hx, rfl⟩
          rw [List.mem_range] at hx
          by_cases hPj : P (j0 + 1 + x) = true
          · have hgt := h5 j0 (j0 + 1 + x) (by omega) (by omega)
              (by rw [homej0, hPhome (j0 + 1 + x) (by omega) hPj])
            show (P (j0 + 1 + x) &&
                decide (t ≤ bDist b msize (j0 + 1 + x))) =
              (P (j0 + 1 + x) &&
                decide (t + 1 ≤ bDist b msize (j0 + 1 + x)))
            rw [decide_eq_true (show t ≤ bDist b msize (j0 + 1 + x) from
                by omega),
              decide_eq_true (show t + 1 ≤ bDist b msize (j0 + 1 + x) from
                by omega)]
          · have hPj' : P (j0 + 1 + x) = false := Bool.eq_false_iff.mpr hPj
            show (P (j0 + 1 + x) &&
                decide (t ≤ bDist b msize (j0 + 1 + x))) =
              (P (j0 + 1 + x) &&
                decide (t + 1 ≤ bDist b msize (j0 + 1 + x)))
            rw [hPj', Bool.false_and, Bool.false_and]
        rw [hsplit, List.filter_append, List.filter_append,
          List.filter_append, List.filter_append, hpre0, hpre1, hj0f0,
          hj0f1, hsuf]
        simp only [List.nil_append, List.append_nil, List.map_append,
          List.map_cons, List.singleton_append]
      · have hskip : out t = some none := by
          rw [houtB j0 hj0 hj0slot, if_neg hP0]
        rw [walkOut, hskip]
        show walkOut out (t + 1) r =
          ((List.range b.length).filter
            (fun j => P j && decide (t ≤ bDist b msize j))).map val
        rw [ih (t + 1) (by omega)]
        refine congrArg (List.map val) ?_
        apply List.filter_congr
        intro j hj
        rw [List.mem_range] at hj
        by_cases hPj : P j = true
        · have hne : bDist b msize j ≠ t := by
            intro hdj
            have hsj := (h3 j hj).2.2.1
            rw [hPhome j hj hPj, hdj] at hsj
            have hbj := (h3 j hj).2.2.2
            rw [← hsj] at hbj
            have hval_eq : b.getD j HashPos.zero =
                b.getD j0 HashPos.zero := by
              rw [← hbj, hj0val]
            have hjj0 := hinj j j0 hj hj0 hval_eq
            rw [hjj0] at hPj
            exact hP0 hPj
          show (P j && decide (t + 1 ≤ bDist b msize j)) =
            (P j && decide (t ≤ bDist b msize j))
          rcases Nat.lt_or_ge (bDist b msize j) t with h2' | h2'
          · rw [decide_eq_false (show ¬ t + 1 ≤ bDist b msize j from
                by omega),
              decide_eq_false (show ¬ t ≤ bDist b msize j from by omega)]
          · rw [decide_eq_true (show t + 1 ≤ bDist b msize j from
                by omega),
              decide_eq_true (show t ≤ bDist b msize j from by omega)]
        · have hPj' : P j = false := Bool.eq_false_iff.mpr hPj
          show (P j && decide (t + 1 ≤ bDist b msize j)) =
            (P j && decide (t ≤ bDist b msize j))
          rw [hPj', Bool.false_and, Bool.false_and]


/-! ## C2 groundwork: entries and the records they point at -/

theorem bucketEntries_nil (base i : Nat) :
    bucketEntries [] base i = [] := rfl

theorem bucketEntries_cons (r : List Nat × List Nat)
    (rs : List (List Nat × List Nat)) (base i : Nat) :
    bucketEntries (r :: rs) base i =
      (if hash r.1 % 256 = i then [HashPos.mk (hash r.1) base] else []) ++
        bucketEntries rs (base + recSize r) i := rfl

/-- Look up the record whose encoding starts at byte offset `pos`,
scanning the records `rs` laid out from offset `base`. -/
def recAt : List (List Nat × List Nat) → Nat → Nat →
    Option (List Nat × List Nat)
  | [], _, _ => none
  | r :: rs, base, pos =>
    if pos = base then some r else recAt rs (base + recSize r) pos

theorem recAt_offset : ∀ (rs : List (List Nat × List Nat)) (j : Nat),
    j < rs.length → ∀ base,
    recAt rs base (base + sizeSum (rs.take j)) =
      some (rs.getD j ([], [])) := by
  intro rs
  induction rs with
  | nil =>
    intro j hj
    exact absurd hj (by simp)
  | cons r rs ih =>
    intro j hj base
    rcases j with _ | j
    · rw [show ((r :: rs).take 0) = [] from rfl, sizeSum_nil, Nat.add_zero]
      rw [show recAt (r :: rs) base base =
        (if base = base then some r else
          recAt rs (base + recSize r) base) from rfl, if_pos rfl]
      rfl
    · rw [List.take_succ_cons, sizeSum_cons, List.getD_cons_succ]
      have h8 := recSize_ge_8 r
      rw [show recAt (r :: rs) base
          (base + (recSize r + sizeSum (rs.take j))) =
        (if base + (recSize r + sizeSum (rs.take j)) = base then some r
         else recAt rs (base + recSize r)
           (base + (recSize r + sizeSum (rs.take j)))) from rfl]
      rw [if_neg (by omega)]
      rw [show base + (recSize r + sizeSum (rs.take j)) =
        (base + recSize r) + sizeSum (rs.take j) from by omega]
      exact ih j (by simpa using hj) (base + recSize r)

theorem bucketEntries_pos_ge : ∀ (rs : List (List Nat × List Nat))
    (base i : Nat) (e : HashPos), e ∈ bucketEntries rs base i →
    base ≤ e.pos := by
  intro rs
  induction rs with
  | nil =>
    intro base i e he
    exact absurd he (by simp [bucketEntries_nil])
  | cons r rs ih =>
    intro base i e he
    rw [bucketEntries_cons] at he
    rcases List.mem_append.mp he with h | h
    · split at h
      · rw [List.mem_singleton.mp h]
      · exact absurd h (by simp)
    · have hle := ih (base + recSize r) i e h
      have h8 := recSize_ge_8 r
      omega

theorem bucketEntries_getD_inj : ∀ (rs : List (List Nat × List Nat))
    (base i j j' : Nat), j < (bucketEntries rs base i).length →
    j' < (bucketEntries rs base i).length →
    (bucketEntries rs base i).getD j HashPos.zero =
      (bucketEntries rs base i).getD j' HashPos.zero → j = j' := by
  intro rs
  induction rs with
  | nil =>
    intro base i j j' hj
    exact absurd hj (by simp [bucketEntries_nil])
  | cons r rs ih =>
    intro base i j j' hj hj' heq
    by_cases hbk : hash r.1 % 256 = i
    · rw [bucketEntries_cons, if_pos hbk, List.singleton_append]
        at hj hj' heq
      have h8 := recSize_ge_8 r
      rcases j with _ | j <;> rcases j' with _ | j'
      · rfl
      · rw [List.getD_cons_zero, List.getD_cons_succ] at heq
        simp only [List.length_cons] at hj'
        have hmem : (bucketEntries rs (base + recSize r) i).getD j'
            HashPos.zero ∈ bucketEntries rs (base + recSize r) i := by
          rw [List.getD_eq_getElem _ _ (by omega)]
          exact List.getElem_mem (by omega)
        have hge := bucketEntries_pos_ge rs (base + recSize r) i _ hmem
        rw [← heq] at hge
        dsimp only at hge
        omega
      · rw [List.getD_cons_succ, List.getD_cons_zero] at heq
        simp only [List.length_cons] at hj
        have hmem : (bucketEntries rs (base + recSize r) i).getD j
            HashPos.zero ∈ bucketEntries rs (base + recSize r) i := by
          rw [List.getD_eq_getElem _ _ (by omega)]
          exact List.getElem_mem (by omega)
        have hge := bucketEntries_pos_ge rs (base + recSize r) i _ hmem
        rw [heq] at hge
        dsimp only at hge
        omega
      · rw [List.getD_cons_succ, List.getD_cons_succ] at heq
        simp only [List.length_cons] at hj hj'
        have := ih (base + recSize r) i j j' (by omega) (by omega) heq
        omega
    · rw [bucketEntries_cons, if_neg hbk, List.nil_append] at hj hj' heq
      exact ih (base + recSize r) i j j' hj hj' heq

theorem bucketEntries_eq_nil : ∀ (rs : List (List Nat × List Nat))
    (base i : Nat), bucketEntries rs base i = [] →
    ∀ r ∈ rs, hash r.1 % 256 ≠ i := by
  intro rs
  induction rs with
  | nil =>
    intro base i _ r hr
    exact absurd hr (by simp)
  | cons r0 rs ih =>
    intro base i h r hr
    rw [bucketEntries_cons] at h
    by_cases hbk : hash r0.1 % 256 = i
    · rw [if_pos hbk] at h
      exact absurd h (by simp)
    · rw [if_neg hbk, List.nil_append] at h
      rcases List.mem_cons.mp hr with rfl | hr'
      · exact hbk
      · exact ih (base + recSize r0) i h r hr'

theorem recAt_shift (r : List Nat × List Nat)
    (rs : List (List Nat × List Nat)) (base i j : Nat)
    (hj : j < (bucketEntries rs (base + recSize r) i).length) :
    recAt (r :: rs) base
        ((bucketEntries rs (base + recSize r) i).getD j
          HashPos.zero).pos =
      recAt rs (base + recSize r)
        ((bucketEntries rs (base + recSize r) i).getD j
          HashPos.zero).pos := by
  have hmem : (bucketEntries rs (base + recSize r) i).getD j HashPos.zero ∈
      bucketEntries rs (base + recSize r) i := by
    rw [List.getD_eq_getElem _ _ hj]
    exact List.getElem_mem hj
  have hge := bucketEntries_pos_ge rs (base + recSize r) i _ hmem
  have h8 := recSize_ge_8 r
  show (if ((bucketEntries rs (base + recSize r) i).getD j
      HashPos.zero).pos = base then some r
    else recAt rs (base + recSize r)
      ((bucketEntries rs (base + recSize r) i).getD j
        HashPos.zero).pos) = _
  rw [if_neg (by omega)]


/-- The matching entries of the key's bucket, taken in entry order, carry
exactly the values of the key's records in input order. -/
theorem bucket_filter_values (k : List Nat) :
    ∀ (rs : List (List Nat × List Nat)) (base : Nat),
    ((List.range (bucketEntries rs base (hash k % 256)).length).filter
      (fun j => match recAt rs base
          ((bucketEntries rs base (hash k % 256)).getD j HashPos.zero).pos
        with
        | some r => decide (r.1 = k)
        | none => false)).map
      (fun j => match recAt rs base
          ((bucketEntries rs base (hash k % 256)).getD j HashPos.zero).pos
        with
        | some r => r.2
        | none => []) =
    rs.filterMap
      (fun (r : List Nat × List Nat) =>
        if r.1 = k then some r.2 else none) := by
  intro rs
  induction rs with
  | nil =>
    intro base
    rfl
  | cons r rs ih =>
    intro base
    by_cases hbk : hash r.1 % 256 = hash k % 256
    · have hcons : bucketEntries (r :: rs) base (hash k % 256) =
          HashPos.mk (hash r.1) base ::
            bucketEntries rs (base + recSize r) (hash k % 256) := by
        rw [bucketEntries_cons, if_pos hbk, List.singleton_append]
      rw [hcons, List.length_cons, List.range_succ_eq_map]
      have hrc : recAt (r :: rs) base base = some r := by
        show (if base = base then some r else
          recAt rs (base + recSize r) base) = some r
        rw [if_pos rfl]
      have hfc : (List.range (bucketEntries rs (base + recSize r)
          (hash k % 256)).length).filter
          ((fun j => match recAt (r :: rs) base
            ((HashPos.mk (hash r.1) base :: bucketEntries rs
              (base + recSize r) (hash k % 256)).getD j HashPos.zero).pos
            with
            | some r0 => decide (r0.1 = k)
            | none => false) ∘ Nat.succ) =
        (List.range (bucketEntries rs (base + recSize r)
          (hash k % 256)).length).filter
          (fun j => match recAt rs (base + recSize r)
            ((bucketEntries rs (base + recSize r) (hash k % 256)).getD j
              HashPos.zero).pos
            with
            | some r0 => decide (r0.1 = k)
            | none => false) := by
        apply List.filter_congr
        intro j hj
        rw [List.mem_range] at hj
        show (match recAt (r :: rs) base
          ((HashPos.mk (hash r.1) base :: bucketEntries rs
            (base + recSize r) (hash k % 256)).getD (j + 1)
              HashPos.zero).pos with
          | some r0 => decide (r0.1 = k)
          | none => false) = _
        rw [List.getD_cons_succ, recAt_shift r rs base (hash k % 256) j hj]
      have hvc : ((List.range (bucketEntries rs (base + recSize r)
            (hash k % 256)).length).filter
            (fun j => match recAt rs (base + recSize r)
              ((bucketEntries rs (base + recSize r) (hash k % 256)).getD j
                HashPos.zero).pos
              with
              | some r0 => decide (r0.1 = k)
              | none => false)).map
          ((fun j => match recAt (r :: rs) base
            ((HashPos.mk (hash r.1) base :: bucketEntries rs
              (base + recSize r) (hash k % 256)).getD j HashPos.zero).pos
            with
            | some r0 => r0.2
            | none => []) ∘ Nat.succ) =
        ((List.range (bucketEntries rs (base + recSize r)
            (hash k % 256)).length).filter
            (fun j => match recAt rs (base + recSize r)
              ((bucketEntries rs (base + recSize r) (hash k % 256)).getD j
                HashPos.zero).pos
              with
              | some r0 => decide (r0.1 = k)
              | none => false)).map
          (fun j => match recAt rs (base + recSize r)
            ((bucketEntries rs (base + recSize r) (hash k % 256)).getD j
              HashPos.zero).pos
            with
            | some r0 => r0.2
            | none => []) := by
        apply List.map_congr_left
        intro j hj
        have hj' := List.mem_of_mem_filter hj
        rw [List.mem_range] at hj'
        show (match recAt (r :: rs) base
          ((HashPos.mk (hash r.1) base :: bucketEntries rs
            (base + recSize r) (hash k % 256)).getD (j + 1)
              HashPos.zero).pos with
          | some r0 => r0.2
          | none => []) = _
        rw [List.getD_cons_succ, recAt_shift r rs base (hash k % 256) j hj']
      by_cases hrk : r.1 = k
      · have hp0 : (match recAt (r :: rs) base
            ((HashPos.mk (hash r.1) base :: bucketEntries rs
              (base + recSize r) (hash k % 256)).getD 0 HashPos.zero).pos
            with
          | some r0 => decide (r0.1 = k)
          | none => false) = true := by
          rw [List.getD_cons_zero]
          show (match recAt (r :: rs) base base with
            | some r0 => decide (r0.1 = k)
            | none => false) = true
          rw [hrc]
          show decide (r.1 = k) = true
          rw [decide_eq_true hrk]
        rw [List.filter_cons, hp0, if_pos rfl, List.map_cons]
        have hv0 : (match recAt (r :: rs) base
            ((HashPos.mk (hash r.1) base :: bucketEntries rs
              (base + recSize r) (hash k % 256)).getD 0 HashPos.zero).pos
            with
          | some r0 => r0.2
          | none => []) = r.2 := by
          rw [List.getD_cons_zero]
          show (match recAt (r :: rs) base base with
            | some r0 => r0.2
            | none => []) = r.2
          rw [hrc]
        rw [hv0, List.filter_map, List.map_map, hfc, hvc,
          ih (base + recSize r)]
        have hfm := @List.filterMap_cons_some (List Nat × List Nat)
          (List Nat)
          (fun (r0 : List Nat × List Nat) =>
            if r0.1 = k then some r0.2 else none) r rs r.2
          (by
            show (if r.1 = k then some r.2 else none) = some r.2
            rw [if_pos hrk])
        rw [hfm]
      · have hp0 : (match recAt (r :: rs) base
            ((HashPos.mk (hash r.1) base :: bucketEntries rs
              (base + recSize r) (hash k % 256)).getD 0 HashPos.zero).pos
            with
          | some r0 => decide (r0.1 = k)
          | none => false) = false := by
          rw [List.getD_cons_zero]
          show (match recAt (r :: rs) base base with
            | some r0 => decide (r0.1 = k)
            | none => false) = false
          rw [hrc]
          show decide (r.1 = k) = false
          rw [decide_eq_false hrk]
        rw [List.filter_cons, hp0, if_neg Bool.false_ne_true]
        rw [List.filter_map, List.map_map, hfc, hvc, ih (base + recSize r)]
        have hfm := @List.filterMap_cons_none (List Nat × List Nat)
          (List Nat)
          (fun (r0 : List Nat × List Nat) =>
            if r0.1 = k then some r0.2 else none) r rs
          (by
            show (if r.1 = k then some r.2 else none) = none
            rw [if_neg hrk])
        rw [hfm]
    · have hconsN : bucketEntries (r :: rs) base (hash k % 256) =
          bucketEntries rs (base + recSize r) (hash k % 256) := by
        rw [bucketEntries_cons, if_neg hbk, List.nil_append]
      rw [hconsN]
      have hfc : (List.range (bucketEntries rs (base + recSize r)
          (hash k % 256)).length).filter
          (fun j => match recAt (r :: rs) base
            ((bucketEntries rs (base + recSize r) (hash k % 256)).getD j
              HashPos.zero).pos
            with
            | some r0 => decide (r0.1 = k)
            | none => false) =
        (List.range (bucketEntries rs (base + recSize r)
          (hash k % 256)).length).filter
          (fun j => match recAt rs (base + recSize r)
            ((bucketEntries rs (base + recSize r) (hash k % 256)).getD j
              HashPos.zero).pos
            with
            | some r0 => decide (r0.1 = k)
            | none => false) := by
        apply List.filter_congr
        intro j hj
        rw [List.mem_range] at hj
        show (match recAt (r :: rs) base
          ((bucketEntries rs (base + recSize r) (hash k % 256)).getD j
            HashPos.zero).pos with
          | some r0 => decide (r0.1 = k)
          | none => false) = _
        rw [recAt_shift r rs base (hash k % 256) j hj]
      have hvc : ((List.range (bucketEntries rs (base + recSize r)
            (hash k % 256)).length).filter
            (fun j => match recAt rs (base + recSize r)
              ((bucketEntries rs (base + recSize r) (hash k % 256)).getD j
                HashPos.zero).pos
              with
              | some r0 => decide (r0.1 = k)
              | none => false)).map
          (fun j => match recAt (r :: rs) base
            ((bucketEntries rs (base + recSize r) (hash k % 256)).getD j
              HashPos.zero).pos
            with
            | some r0 => r0.2
            | none => []) =
        ((List.range (bucketEntries rs (base + recSize r)
            (hash k % 256)).length).filter
            (fun j => match recAt rs (base + recSize r)
              ((bucketEntries rs (base + recSize r) (hash k % 256)).getD j
                HashPos.zero).pos
              with
              | some r0 => decide (r0.1 = k)
              | none => false)).map
          (fun j => match recAt rs (base + recSize r)
            ((bucketEntries rs (base + recSize r) (hash k % 256)).getD j
              HashPos.zero).pos
            with
            | some r0 => r0.2
            | none => []) := by
        apply List.map_congr_left
        intro j hj
        have hj' := List.mem_of_mem_filter hj
        rw [List.mem_range] at hj'
        show (match recAt (r :: rs) base
          ((bucketEntries rs (base + recSize r) (hash k % 256)).getD j
            HashPos.zero).pos with
          | some r0 => r0.2
          | none => []) = _
        rw [recAt_shift r rs base (hash k % 256) j hj']
      rw [hfc, hvc, ih (base + recSize r)]
      have hrk : r.1 ≠ k := by
        intro hc
        rw [hc] at hbk
        exact hbk rfl
      have hfm := @List.filterMap_cons_none (List Nat × List Nat)
        (List Nat)
        (fun (r0 : List Nat × List Nat) =>
          if r0.1 = k then some r0.2 else none) r rs
        (by
          show (if r.1 = k then some r.2 else none) = none
          rw [if_neg hrk])
      rw [hfm]


/-! ## C2 groundwork: instantiating the walk over the built image -/

theorem bTable_getD (b : List HashPos) (msize : Nat)
    (hmsize : b.length * 2 ≤ msize) (w : Nat) (hw : w < b.length * 2) :
    (bTable b msize).getD w HashPos.zero =
      (insTab b msize b.length).getD w HashPos.zero := by
  unfold bTable insTab
  rw [List.take_length]
  have hlen : w < ((insertAll b (b.length * 2)
      (List.replicate msize HashPos.zero)).take (b.length * 2)).length := by
    rw [List.length_take, insertAll_length, List.length_replicate]
    omega
  have hlen2 : w < (insertAll b (b.length * 2)
      (List.replicate msize HashPos.zero)).length := by
    rw [insertAll_length, List.length_replicate]
    omega
  rw [List.getD_eq_getElem _ _ hlen, List.getD_eq_getElem _ _ hlen2,
    List.getElem_take]

theorem new_entries_getD (i : Nat) :
    CDBMake.new.entries.getD i [] = [] := by
  rw [show CDBMake.new.entries = List.replicate 256 ([] : List HashPos)
    from rfl]
  rw [List.getD_eq_getElem?_getD, List.getElem?_replicate]
  split <;> rfl

/-- The outcome of probe `t` of `find`'s walk over table `T`: empty slot
ends the walk; a slot whose hash differs from the key's is skipped; a
hash hit compares the record's key bytes and yields its value on a
match. -/
def probeOut (rs : List (List Nat × List Nat)) (k : List Nat)
    (T : List HashPos) (h0 : Nat) : Nat → Option (Option (List Nat)) :=
  fun t =>
    let e := T.getD ((h0 + t) % T.length) HashPos.zero
    if e.pos = 0 then none
    else if e.hash = hash k then
      match recAt rs 2048 e.pos with
      | some r => if r.1 = k then some (some r.2) else some none
      | none => some none
    else some none

/-- Does the `j`-th entry of bucket `B` point at a record keyed `k`? -/
def probeMatch (rs : List (List Nat × List Nat)) (k : List Nat)
    (B : List HashPos) : Nat → Bool :=
  fun j => match recAt rs 2048 (B.getD j HashPos.zero).pos with
    | some r => decide (r.1 = k)
    | none => false

/-- The value of the record the `j`-th entry of bucket `B` points at. -/
def probeVal (rs : List (List Nat × List Nat)) (B : List HashPos) :
    Nat → List Nat :=
  fun j => match recAt rs 2048 (B.getD j HashPos.zero).pos with
    | some r => r.2
    | none => []


/-! ## C2: multi-value retrieval order -/

set_option maxRecDepth 2000 in
/-- Present keys, end to end: building from a fresh writer and draining
`find(k)` yields exactly the values of the records keyed `k`, in input
order, through the real header slot, hash-table probe, record comparison
and value reads. -/
theorem present_key_spec (rs : List (List Nat × List Nat)) (k : List Nat)
    (hb : 2048 + sizeSum rs + 24 * rs.length + 8 < u32Mod)
    (hbytes : ∀ r ∈ rs, ∀ x ∈ r.1, x < 256) :
    ∃ M v, CDBMake.new.runAdds rs = (M, none) ∧
      M.finish = Except.ok v ∧
      CDB.findAll v.inner k = some (rs.filterMap
        (fun (r : List Nat × List Nat) =>
          if r.1 = k then some r.2 else none)) := by
  have hM : u32Mod = 4294967296 := rfl
  have hrecb : ∀ r ∈ rs, recSize r ≤ sizeSum rs := recSize_le_sizeSum rs
  have hargs1 : CDBMake.new.file.pos = CDBMake.new.file.inner.length := by
    rw [CDBMake_new_file]
    dsimp only
    rw [List.length_replicate]
  have hargs2 : CDBMake.new.pos = CDBMake.new.file.inner.length := by
    rw [show CDBMake.new.pos = 2048 from rfl, CDBMake_new_file]
    dsimp only
    rw [List.length_replicate]
  have hargs3 : CDBMake.new.entries.length = 256 := by
    rw [show CDBMake.new.entries = List.replicate 256 ([] : List HashPos)
      from rfl, List.length_replicate]
  have hargs4 : CDBMake.new.pos + sizeSum rs < u32Mod := by
    rw [show CDBMake.new.pos = 2048 from rfl]
    omega
  have hargs5 : ∀ r ∈ rs, r.1.length < 4294967295 ∧
      r.2.length < 4294967295 := fun r hr => by
    have h := hrecb r hr
    unfold recSize at h
    constructor <;> omega
  obtain ⟨M, hrun, hinner, hfpM, hposM, hlenM, hsumM⟩ := runAdds_ok rs
    CDBMake.new hargs1 hargs2 hargs3 hargs4 hargs5
  have hentry : ∀ b e, b ∈ M.entries → e ∈ b → entryRecord rs 2048 e := by
    intro b e hbM heb
    rcases runAdds_entries rs CDBMake.new hargs1 hargs2 hargs3 hargs4 hargs5
      M hrun b e hbM heb with ⟨b0, hb0, he0⟩ | h
    · rw [show CDBMake.new.entries = List.replicate 256 ([] : List HashPos)
        from rfl] at hb0
      rw [List.eq_of_mem_replicate hb0] at he0
      exact absurd he0 (by simp)
    · rw [show CDBMake.new.pos = 2048 from rfl] at h
      exact h
  have hinner' : M.file.inner = List.replicate 2048 0 ++ encList rs := by
    rw [hinner, CDBMake_new_file]
  have hposM' : M.pos = 2048 + sizeSum rs := by
    rw [hposM, show CDBMake.new.pos = 2048 from rfl]
  have hsumM' : sumLens M.entries = rs.length := by
    rw [hsumM, show CDBMake.new.entries = List.replicate 256
      ([] : List HashPos) from rfl, sumLens_replicate_nil, Nat.zero_add]
  have hcnt : M.count = rs.length := by rw [count_eq_sumLens, hsumM']
  have hguard : M.maxsize + M.count ≤ 536870911 := by
    have h1 := maxsize_le M
    omega
  -- the bucket of the key, and the split of the 256 buckets around it
  have hj256 : hash k % 256 < 256 := Nat.mod_lt _ (by norm_num)
  have hjlen : hash k % 256 < M.entries.length := by omega
  have hsplitE : M.entries = M.entries.take (hash k % 256) ++
      (M.entries.getD (hash k % 256) [] ::
        M.entries.drop (hash k % 256 + 1)) := by
    rw [List.getD_eq_getElem M.entries [] hjlen,
      ← List.drop_eq_getElem_cons hjlen, List.take_append_drop]
  have hbs1len : (M.entries.take (hash k % 256)).length = hash k % 256 := by
    rw [List.length_take]
    omega
  have hsum_split : sumLens (M.entries.take (hash k % 256)) +
      sumLens (M.entries.getD (hash k % 256) [] ::
        M.entries.drop (hash k % 256 + 1)) = rs.length := by
    rw [← sumLens_append, ← hsplitE, hsumM']
  have hbjmem : M.entries.getD (hash k % 256) [] ∈ M.entries := by
    rw [List.getD_eq_getElem M.entries [] hjlen]
    exact List.getElem_mem hjlen
  have hfitbj : (M.entries.getD (hash k % 256) []).length * 2 ≤ M.maxsize :=
    maxsize_fit M _ hbjmem
  have hbjlen : (M.entries.getD (hash k % 256) []).length ≤ rs.length := by
    have := hsum_split
    rw [sumLens_cons] at this
    omega
  have hS1le : sumLens (M.entries.take (hash k % 256)) ≤ rs.length := by
    have := hsum_split
    rw [sumLens_cons] at this
    omega
  obtain ⟨hdr1, tb1, hloop1, hh1, ht1, -, -⟩ := finishLoop_ok
    (M.entries.take (hash k % 256)) 0
    (FinState.mk (List.replicate 2048 0)
      (List.replicate M.maxsize HashPos.zero) M.pos M.file) M.maxsize
    (by dsimp only)
    (by dsimp only; exact hfpM)
    (by dsimp only; omega)
    (by dsimp only; omega)
    (fun b hbb => maxsize_fit M b (List.mem_of_mem_take hbb))
    (by dsimp only; rw [List.length_replicate])
    (by rw [Nat.zero_add, hbs1len]; omega)
  dsimp only at hloop1
  obtain ⟨hdr, tb2, hloop2, hhl, htl2, hpre2, hslot2⟩ := finishLoop_ok
    (M.entries.getD (hash k % 256) [] ::
      M.entries.drop (hash k % 256 + 1)) (hash k % 256)
    (FinState.mk hdr1 (List.replicate M.maxsize HashPos.zero)
      (M.pos + 16 * sumLens (M.entries.take (hash k % 256)))
      (VecBuf.mk (M.file.inner ++ tb1)
        (M.file.inner.length + 16 * sumLens (M.entries.take (hash k % 256)))))
    M.maxsize
    (by dsimp only)
    (by dsimp only; rw [List.length_append, ht1])
    (by dsimp only; omega)
    (by
      dsimp only
      rw [sumLens_cons]
      rw [sumLens_cons] at hsum_split
      omega)
    (fun b hbb => by
      rcases List.mem_cons.mp hbb with rfl | hbb
      · exact hfitbj
      · exact maxsize_fit M b (List.mem_of_mem_drop hbb))
    (by dsimp only; exact hh1)
    (by
      have h2 : (M.entries.getD (hash k % 256) [] ::
          M.entries.drop (hash k % 256 + 1)).length = 256 - hash k % 256 := by
        rw [List.length_cons, List.length_drop]
        omega
      rw [h2]
      omega)
  dsimp only at hloop2
  have hslotj := hslot2 (M.entries.getD (hash k % 256) [])
    (M.entries.drop (hash k % 256 + 1)) rfl
  dsimp only at hslotj
  rw [sumLens_cons] at hsum_split
  have hfb := finishBucket_ok (hash k % 256)
    (M.entries.getD (hash k % 256) [])
    (FinState.mk hdr1 (List.replicate M.maxsize HashPos.zero)
      (M.pos + 16 * sumLens (M.entries.take (hash k % 256)))
      (VecBuf.mk (M.file.inner ++ tb1)
        (M.file.inner.length + 16 * sumLens (M.entries.take (hash k % 256)))))
    (by dsimp only; rw [List.length_append, ht1])
    (by dsimp only; omega)
    (by dsimp only; rw [List.length_replicate]; exact hfitbj)
    (by dsimp only; omega)
  dsimp only at hfb
  obtain ⟨hdr2, tb3, hloop3, -, -, -, -⟩ := finishLoop_ok
    (M.entries.drop (hash k % 256 + 1)) (hash k % 256 + 1)
    (FinState.mk
      (spliceBytes hdr1 (hash k % 256 * 8)
        (pack2 (M.pos + 16 * sumLens (M.entries.take (hash k % 256)))
          ((M.entries.getD (hash k % 256) []).length * 2 % u32Mod)))
      (List.replicate ((M.entries.getD (hash k % 256) []).length * 2)
          HashPos.zero ++
        (List.replicate M.maxsize HashPos.zero).drop
          ((M.entries.getD (hash k % 256) []).length * 2))
      (M.pos + 16 * sumLens (M.entries.take (hash k % 256)) +
        8 * ((M.entries.getD (hash k % 256) []).length * 2))
      (VecBuf.mk ((M.file.inner ++ tb1) ++
          slotsBytes ((insertAll (M.entries.getD (hash k % 256) [])
              ((M.entries.getD (hash k % 256) []).length * 2)
              (List.replicate M.maxsize HashPos.zero)).take
            ((M.entries.getD (hash k % 256) []).length * 2)))
        ((M.file.inner ++ tb1).length +
          8 * ((M.entries.getD (hash k % 256) []).length * 2))))
    M.maxsize
    (by
      dsimp only
      rw [List.drop_replicate, ← List.replicate_add,
        show (M.entries.getD (hash k % 256) []).length * 2 +
          (M.maxsize - (M.entries.getD (hash k % 256) []).length * 2) =
          M.maxsize from by omega])
    (by
      dsimp only
      simp only [List.length_append, slotsBytes_length, List.length_take,
        insertAll_length, List.length_replicate]
      rw [min_eq_left hfitbj])
    (by dsimp only; omega)
    (by dsimp only; omega)
    (fun b hbb => maxsize_fit M b (List.mem_of_mem_drop hbb))
    (by
      dsimp only
      rw [spliceBytes_length _ _ _ (by
        simp only [pack2_length]
        rw [hh1]
        omega)]
      exact hh1)
    (by
      rw [List.length_drop]
      omega)
  dsimp only at hloop3
  have hEQ : finishLoop (hash k % 256)
      (M.entries.getD (hash k % 256) [] ::
        M.entries.drop (hash k % 256 + 1))
      (FinState.mk hdr1 (List.replicate M.maxsize HashPos.zero)
        (M.pos + 16 * sumLens (M.entries.take (hash k % 256)))
        (VecBuf.mk (M.file.inner ++ tb1)
          (M.file.inner.length +
            16 * sumLens (M.entries.take (hash k % 256))))) =
      (FinState.mk hdr2
        (List.replicate ((M.entries.getD (hash k % 256) []).length * 2)
            HashPos.zero ++
          (List.replicate M.maxsize HashPos.zero).drop
            ((M.entries.getD (hash k % 256) []).length * 2))
        (M.pos + 16 * sumLens (M.entries.take (hash k % 256)) +
          8 * ((M.entries.getD (hash k % 256) []).length * 2) +
          16 * sumLens (M.entries.drop (hash k % 256 + 1)))
        (VecBuf.mk (((M.file.inner ++ tb1) ++
            slotsBytes ((insertAll (M.entries.getD (hash k % 256) [])
                ((M.entries.getD (hash k % 256) []).length * 2)
                (List.replicate M.maxsize HashPos.zero)).take
              ((M.entries.getD (hash k % 256) []).length * 2))) ++ tb3)
          (((M.file.inner ++ tb1) ++
            slotsBytes ((insertAll (M.entries.getD (hash k % 256) [])
                ((M.entries.getD (hash k % 256) []).length * 2)
                (List.replicate M.maxsize HashPos.zero)).take
              ((M.entries.getD (hash k % 256) []).length * 2))).length +
            16 * sumLens (M.entries.drop (hash k % 256 + 1)))), none) := by
    rw [show finishLoop (hash k % 256)
        (M.entries.getD (hash k % 256) [] ::
          M.entries.drop (hash k % 256 + 1))
        (FinState.mk hdr1 (List.replicate M.maxsize HashPos.zero)
          (M.pos + 16 * sumLens (M.entries.take (hash k % 256)))
          (VecBuf.mk (M.file.inner ++ tb1)
            (M.file.inner.length +
              16 * sumLens (M.entries.take (hash k % 256))))) =
      bindE (finishBucket (hash k % 256) (M.entries.getD (hash k % 256) [])
        (FinState.mk hdr1 (List.replicate M.maxsize HashPos.zero)
          (M.pos + 16 * sumLens (M.entries.take (hash k % 256)))
          (VecBuf.mk (M.file.inner ++ tb1)
            (M.file.inner.length +
              16 * sumLens (M.entries.take (hash k % 256))))))
        (finishLoop (hash k % 256 + 1)
          (M.entries.drop (hash k % 256 + 1))) from rfl]
    rw [hfb, bindE_ok]
    exact hloop3
  have hsame := hloop2.symm.trans hEQ
  have htb2 : tb2 =
      slotsBytes ((insertAll (M.entries.getD (hash k % 256) [])
          ((M.entries.getD (hash k % 256) []).length * 2)
          (List.replicate M.maxsize HashPos.zero)).take
        ((M.entries.getD (hash k % 256) []).length * 2)) ++ tb3 := by
    have hinj : (M.file.inner ++ tb1) ++ tb2 =
        ((M.file.inner ++ tb1) ++
          slotsBytes ((insertAll (M.entries.getD (hash k % 256) [])
              ((M.entries.getD (hash k % 256) []).length * 2)
              (List.replicate M.maxsize HashPos.zero)).take
            ((M.entries.getD (hash k % 256) []).length * 2))) ++ tb3 := by
      have h0 := congrArg (fun p => p.1.file.inner) hsame
      dsimp only at h0
      exact h0
    rw [List.append_assoc (M.file.inner ++ tb1)] at hinj
    exact List.append_cancel_left hinj
  rw [sumLens_cons] at htl2
  have hloopfull : finishLoop 0 M.entries
      (FinState.mk (List.replicate 2048 0)
        (List.replicate M.maxsize HashPos.zero) M.pos M.file) =
      (FinState.mk hdr (List.replicate M.maxsize HashPos.zero)
        (M.pos + 16 * sumLens (M.entries.take (hash k % 256)) +
          16 * sumLens (M.entries.getD (hash k % 256) [] ::
            M.entries.drop (hash k % 256 + 1)))
        (VecBuf.mk ((M.file.inner ++ tb1) ++ tb2)
          ((M.file.inner ++ tb1).length +
            16 * sumLens (M.entries.getD (hash k % 256) [] ::
              M.entries.drop (hash k % 256 + 1)))), none) := by
    conv_lhs => rw [hsplitE]
    rw [finishLoop_append, hloop1, bindE_ok, hbs1len, Nat.zero_add]
    exact hloop2
  have hfin : M.finish = Except.ok (VecBuf.mk
      (hdr ++ (encList rs ++ (tb1 ++ tb2))) 2048) := by
    unfold CDBMake.finish
    rw [if_neg (show ¬ M.maxsize + M.count > 4294967295 / 8 from by omega)]
    rw [hloopfull]
    dsimp only [VecBuf.seekStart]
    rw [VecBuf.write_eq_splice
      (VecBuf.mk ((M.file.inner ++ tb1) ++ tb2) 0) hdr
      (by dsimp only; omega)]
    dsimp only
    rw [List.take_zero, List.nil_append, hhl]
    simp only [Nat.zero_add]
    rw [hinner']
    rw [show ((List.replicate 2048 (0 : Nat) ++ encList rs) ++ tb1) ++ tb2 =
        List.replicate 2048 (0 : Nat) ++ (encList rs ++ (tb1 ++ tb2)) from by
      simp only [List.append_assoc]]
    have hdrop : (List.replicate 2048 (0 : Nat) ++
        (encList rs ++ (tb1 ++ tb2))).drop 2048 =
        encList rs ++ (tb1 ++ tb2) :=
      List.drop_left' (by rw [List.length_replicate])
    rw [hdrop]
  have hvlen : (hdr ++ (encList rs ++ (tb1 ++ tb2))).length =
      2048 + sizeSum rs + 16 * rs.length := by
    simp only [List.length_append, hhl, encList_length, ht1, htl2]
    omega
  have himgassoc : hdr ++ (encList rs ++ (tb1 ++ tb2)) =
      hdr ++ encList rs ++ (tb1 ++ tb2) := (List.append_assoc _ _ _).symm
  have hslotbytes : sliceBytes (hdr ++ (encList rs ++ (tb1 ++ tb2)))
      (hash k % 256 * 8) (hash k % 256 * 8 + 8) =
      pack2 (M.pos + 16 * sumLens (M.entries.take (hash k % 256)))
        ((M.entries.getD (hash k % 256) []).length * 2 % u32Mod) := by
    rw [sliceBytes_front hdr _ _ _ (by rw [hhl]; omega),
      sliceBytes_drop_take]
    exact hslotj
  have hmod2l : (M.entries.getD (hash k % 256) []).length * 2 % u32Mod =
      (M.entries.getD (hash k % 256) []).length * 2 :=
    Nat.mod_eq_of_lt (by omega)
  have hposbu : M.pos + 16 * sumLens (M.entries.take (hash k % 256)) <
      u32Mod := by omega
  have hAlen : (hdr ++ encList rs ++ tb1).length =
      M.pos + 16 * sumLens (M.entries.take (hash k % 256)) := by
    simp only [List.length_append, hhl, encList_length, ht1]
    omega
  have hformv : hdr ++ (encList rs ++ (tb1 ++ tb2)) =
      (hdr ++ encList rs ++ tb1) ++
        slotsBytes (bTable (M.entries.getD (hash k % 256) []) M.maxsize) ++
        tb3 := by
    rw [htb2]
    unfold bTable
    simp only [List.append_assoc]
  have hTlen : (bTable (M.entries.getD (hash k % 256) []) M.maxsize).length =
      (M.entries.getD (hash k % 256) []).length * 2 :=
    bTable_length _ _ hfitbj
  have hftcommon : hash k % 256 * 8 + 8 ≤
      (hdr ++ (encList rs ++ (tb1 ++ tb2))).length := by
    rw [hvlen]
    omega
  have hbuck : M.entries.getD (hash k % 256) [] =
      bucketEntries rs 2048 (hash k % 256) := by
    have hrb := runAdds_buckets rs CDBMake.new hargs1 hargs2 hargs3 hargs4
      hargs5 M hrun (hash k % 256) hj256
    rw [new_entries_getD, List.nil_append,
      show CDBMake.new.pos = 2048 from rfl] at hrb
    exact hrb
  have hbposB : ∀ e ∈ M.entries.getD (hash k % 256) [], e.pos ≠ 0 := by
    intro e he
    obtain ⟨jr, hjr, hht, hp2⟩ := hentry _ _ hbjmem he
    rw [hp2]
    omega
  have hslotfacts : ∀ e, e ∈ M.entries.getD (hash k % 256) [] →
      ∃ jr, jr < rs.length ∧ e.hash = hash (rs.getD jr ([], [])).1 ∧
        e.pos = 2048 + sizeSum (rs.take jr) ∧
        recAt rs 2048 e.pos = some (rs.getD jr ([], [])) := by
    intro e he
    obtain ⟨jr, hjr, hh2, hp2⟩ := hentry _ _ hbjmem he
    refine ⟨jr, hjr, hh2, hp2, ?_⟩
    rw [hp2]
    exact recAt_offset rs jr hjr 2048
  by_cases hlz : (M.entries.getD (hash k % 256) []).length = 0
  · -- empty bucket: no record carries the key, and the empty table ends
    -- the probe immediately
    have hfmnil : rs.filterMap
        (fun (r : List Nat × List Nat) =>
          if r.1 = k then some r.2 else none) = [] := by
      apply List.filterMap_eq_nil_iff.mpr
      intro r hr
      have hnb := bucketEntries_eq_nil rs 2048 (hash k % 256)
        (by rw [← hbuck]; exact List.length_eq_zero.mp hlz) r hr
      show (if r.1 = k then some r.2 else none) = none
      rw [if_neg (fun hc => hnb (by rw [hc]))]
    have hft : CDB.hashTable (hdr ++ (encList rs ++ (tb1 ++ tb2)))
        (hash k) =
        some (M.pos + 16 * sumLens (M.entries.take (hash k % 256)),
          (M.entries.getD (hash k % 256) []).length * 2, 0) := by
      unfold CDB.hashTable
      dsimp only
      rw [if_pos hftcommon, hslotbytes, hmod2l,
        unpack2_pack2 _ _ hposbu (by omega)]
      dsimp only
      rw [if_neg (show ¬ (M.entries.getD (hash k % 256) []).length * 2 > 0
        from by omega)]
    have hfs : CDB.findStart (hdr ++ (encList rs ++ (tb1 ++ tb2))) k =
        some (VIter.mk k (hash k) 0 0
          (M.pos + 16 * sumLens (M.entries.take (hash k % 256)))
          ((M.entries.getD (hash k % 256) []).length * 2)) := by
      unfold CDB.findStart
      rw [hft]
    refine ⟨M, _, hrun, hfin, ?_⟩
    unfold CDB.findAll
    rw [hfs]
    refine congrArg some ?_
    rw [hfmnil]
    have hvn : vnext (hdr ++ (encList rs ++ (tb1 ++ tb2)))
        (VIter.mk k (hash k) 0 0 (M.pos + 16 * sumLens (M.entries.take (hash k % 256))) ((M.entries.getD (hash k % 256) []).length * 2)) =
        (none, VIter.mk k (hash k) 0 0 (M.pos + 16 * sumLens (M.entries.take (hash k % 256))) ((M.entries.getD (hash k % 256) []).length * 2)) := by
      unfold vnext
      rw [show (VIter.mk k (hash k) 0 0 (M.pos + 16 * sumLens (M.entries.take (hash k % 256)))
          ((M.entries.getD (hash k % 256) []).length * 2)).hslots -
        (VIter.mk k (hash k) 0 0 (M.pos + 16 * sumLens (M.entries.take (hash k % 256)))
          ((M.entries.getD (hash k % 256) []).length * 2)).kloop = 0 from by dsimp only; omega]
      rfl
    rw [show vcollect (hdr ++ (encList rs ++ (tb1 ++ tb2)))
        (VIter.mk k (hash k) 0 0 (M.pos + 16 * sumLens (M.entries.take (hash k % 256))) ((M.entries.getD (hash k % 256) []).length * 2))
        ((VIter.mk k (hash k) 0 0 (M.pos + 16 * sumLens (M.entries.take (hash k % 256)))
          ((M.entries.getD (hash k % 256) []).length * 2)).hslots + 1) =
      (match vnext (hdr ++ (encList rs ++ (tb1 ++ tb2)))
          (VIter.mk k (hash k) 0 0 (M.pos + 16 * sumLens (M.entries.take (hash k % 256))) ((M.entries.getD (hash k % 256) []).length * 2)) with
        | (none, _) => []
        | (some v, s') => v :: vcollect (hdr ++ (encList rs ++ (tb1 ++ tb2))) s'
            ((VIter.mk k (hash k) 0 0 (M.pos + 16 * sumLens (M.entries.take (hash k % 256)))
              ((M.entries.getD (hash k % 256) []).length * 2)).hslots))
      from rfl]
    rw [hvn]
  · have hw0 : (hash k >>> 8) %
        ((M.entries.getD (hash k % 256) []).length * 2) <
        (M.entries.getD (hash k % 256) []).length * 2 :=
      Nat.mod_lt _ (by omega)
    have hft : CDB.hashTable (hdr ++ (encList rs ++ (tb1 ++ tb2)))
        (hash k) =
        some (M.pos + 16 * sumLens (M.entries.take (hash k % 256)),
          (M.entries.getD (hash k % 256) []).length * 2,
          M.pos + 16 * sumLens (M.entries.take (hash k % 256)) +
            (hash k >>> 8) %
              ((M.entries.getD (hash k % 256) []).length * 2) * 8) := by
      unfold CDB.hashTable
      dsimp only
      rw [if_pos hftcommon, hslotbytes, hmod2l,
        unpack2_pack2 _ _ hposbu (by omega)]
      dsimp only
      rw [if_pos (show (M.entries.getD (hash k % 256) []).length * 2 > 0
        from by omega)]
      rw [Nat.mod_eq_of_lt (show (hash k >>> 8) %
          ((M.entries.getD (hash k % 256) []).length * 2) * 8 < u32Mod
        from by omega)]
      rw [Nat.mod_eq_of_lt (show
          M.pos + 16 * sumLens (M.entries.take (hash k % 256)) +
            (hash k >>> 8) %
              ((M.entries.getD (hash k % 256) []).length * 2) * 8 < u32Mod
        from by omega)]
    have hfs : CDB.findStart (hdr ++ (encList rs ++ (tb1 ++ tb2))) k =
        some (VIter.mk k (hash k) 0
          (M.pos + 16 * sumLens (M.entries.take (hash k % 256)) +
            (hash k >>> 8) %
              ((M.entries.getD (hash k % 256) []).length * 2) * 8)
          (M.pos + 16 * sumLens (M.entries.take (hash k % 256)))
          ((M.entries.getD (hash k % 256) []).length * 2)) := by
      unfold CDB.findStart
      rw [hft]
    have hInv := insertAll_invariant (M.entries.getD (hash k % 256) [])
      M.maxsize hfitbj hbposB (M.entries.getD (hash k % 256) []).length (le_refl _)
    dsimp only [InsInv] at hInv
    obtain ⟨hI1, hI2, hI3, hI4, hI5, hI6⟩ := hInv
    have hinjB : ∀ j j', j < (M.entries.getD (hash k % 256) []).length → j' < (M.entries.getD (hash k % 256) []).length →
        (M.entries.getD (hash k % 256) []).getD j HashPos.zero = (M.entries.getD (hash k % 256) []).getD j' HashPos.zero →
        j = j' := by
      intro j j' hj hj' heq
      refine bucketEntries_getD_inj rs 2048 (hash k % 256) j j' ?_ ?_ ?_
      · rw [← hbuck]
        exact hj
      · rw [← hbuck]
        exact hj'
      · rw [← hbuck]
        exact heq
    have hPhomeB : ∀ j, j < (M.entries.getD (hash k % 256) []).length →
        (probeMatch rs k (M.entries.getD (hash k % 256) [])) j = true →
        bHome ((M.entries.getD (hash k % 256) []).length * 2) ((M.entries.getD (hash k % 256) []).getD j HashPos.zero) = (hash k >>> 8) % ((M.entries.getD (hash k % 256) []).length * 2) := by
      intro j hj hPj
      have hmemBj : (M.entries.getD (hash k % 256) []).getD j HashPos.zero ∈ M.entries.getD (hash k % 256) [] := by
        rw [List.getD_eq_getElem _ _ hj]
        exact List.getElem_mem hj
      obtain ⟨jr, hjr, hh2, hp2, hra⟩ := hslotfacts _ hmemBj
      have hPM2 : (probeMatch rs k (M.entries.getD (hash k % 256) [])) j = decide ((rs.getD jr ([], [])).1 = k) := by
        unfold probeMatch
        rw [hra]
      rw [hPM2] at hPj
      have hkk := of_decide_eq_true hPj
      unfold bHome
      rw [hh2, hkk]
    have houtB : ∀ t, t < (M.entries.getD (hash k % 256) []).length * 2 →
        (((insTab (M.entries.getD (hash k % 256) []) M.maxsize (M.entries.getD (hash k % 256) []).length).getD
            ((((hash k >>> 8) % ((M.entries.getD (hash k % 256) []).length * 2)) + t) % ((M.entries.getD (hash k % 256) []).length * 2)) HashPos.zero).pos = 0 →
          (probeOut rs k (bTable (M.entries.getD (hash k % 256) []) M.maxsize) ((hash k >>> 8) % ((M.entries.getD (hash k % 256) []).length * 2))) t = none) ∧
        (∀ j, j < (M.entries.getD (hash k % 256) []).length →
          bSlot (M.entries.getD (hash k % 256) []) M.maxsize j = (((hash k >>> 8) % ((M.entries.getD (hash k % 256) []).length * 2)) + t) % ((M.entries.getD (hash k % 256) []).length * 2) →
          (probeOut rs k (bTable (M.entries.getD (hash k % 256) []) M.maxsize) ((hash k >>> 8) % ((M.entries.getD (hash k % 256) []).length * 2))) t =
            (if (probeMatch rs k (M.entries.getD (hash k % 256) [])) j then some (some ((probeVal rs (M.entries.getD (hash k % 256) [])) j)) else some none)) := by
      intro t ht
      have hwmod : (((hash k >>> 8) % ((M.entries.getD (hash k % 256) []).length * 2)) + t) % ((M.entries.getD (hash k % 256) []).length * 2) < (M.entries.getD (hash k % 256) []).length * 2 :=
        Nat.mod_lt _ (by omega)
      have hTgetD : (bTable (M.entries.getD (hash k % 256) []) M.maxsize).getD ((((hash k >>> 8) % ((M.entries.getD (hash k % 256) []).length * 2)) + t) % (bTable (M.entries.getD (hash k % 256) []) M.maxsize).length)
          HashPos.zero =
          (insTab (M.entries.getD (hash k % 256) []) M.maxsize (M.entries.getD (hash k % 256) []).length).getD
            ((((hash k >>> 8) % ((M.entries.getD (hash k % 256) []).length * 2)) + t) % ((M.entries.getD (hash k % 256) []).length * 2)) HashPos.zero := by
        rw [hTlen]
        exact bTable_getD _ _ hfitbj _ hwmod
      constructor
      · intro hz0
        unfold probeOut
        dsimp only
        rw [hTgetD, if_pos hz0]
      · intro j hj hslotj
        have hsl := (hI3 j hj).2.2.2
        have hgetDeq : (bTable (M.entries.getD (hash k % 256) []) M.maxsize).getD ((((hash k >>> 8) % ((M.entries.getD (hash k % 256) []).length * 2)) + t) % (bTable (M.entries.getD (hash k % 256) []) M.maxsize).length)
            HashPos.zero = (M.entries.getD (hash k % 256) []).getD j HashPos.zero := by
          rw [hTgetD, ← hslotj]
          exact hsl
        have hmemBj : (M.entries.getD (hash k % 256) []).getD j HashPos.zero ∈ M.entries.getD (hash k % 256) [] := by
          rw [List.getD_eq_getElem _ _ hj]
          exact List.getElem_mem hj
        obtain ⟨jr, hjr, hh2, hp2, hra⟩ := hslotfacts _ hmemBj
        have hposnzj : ((M.entries.getD (hash k % 256) []).getD j HashPos.zero).pos ≠ 0 := by
          rw [hp2]
          omega
        have hPM2 : (probeMatch rs k (M.entries.getD (hash k % 256) [])) j = decide ((rs.getD jr ([], [])).1 = k) := by
          unfold probeMatch
          rw [hra]
        have hPV2 : (probeVal rs (M.entries.getD (hash k % 256) [])) j = (rs.getD jr ([], [])).2 := by
          unfold probeVal
          rw [hra]
        rw [hPM2, hPV2]
        by_cases hheq : ((M.entries.getD (hash k % 256) []).getD j HashPos.zero).hash = hash k
        · have hLHS : (probeOut rs k (bTable (M.entries.getD (hash k % 256) []) M.maxsize) ((hash k >>> 8) % ((M.entries.getD (hash k % 256) []).length * 2))) t =
              (if (rs.getD jr ([], [])).1 = k then
                some (some ((rs.getD jr ([], [])).2)) else some none) := by
            unfold probeOut
            dsimp only
            rw [hgetDeq, if_neg hposnzj, if_pos hheq, hra]
          rw [hLHS]
          by_cases hkk : (rs.getD jr ([], [])).1 = k
          · rw [if_pos hkk, decide_eq_true hkk, if_pos rfl]
          · rw [if_neg hkk, decide_eq_false hkk,
              if_neg Bool.false_ne_true]
        · have hLHS : (probeOut rs k (bTable (M.entries.getD (hash k % 256) []) M.maxsize) ((hash k >>> 8) % ((M.entries.getD (hash k % 256) []).length * 2))) t = some none := by
            unfold probeOut
            dsimp only
            rw [hgetDeq, if_neg hposnzj, if_neg hheq]
          rw [hLHS]
          have hkk : (rs.getD jr ([], [])).1 ≠ k := by
            intro hc
            rw [hh2, hc] at hheq
            exact hheq rfl
          rw [decide_eq_false hkk, if_neg Bool.false_ne_true]
    have hslotB : ∀ w, w < (bTable (M.entries.getD (hash k % 256) []) M.maxsize).length →
        sliceBytes (hdr ++ (encList rs ++ (tb1 ++ tb2))) (M.pos + 16 * sumLens (M.entries.take (hash k % 256)) + 8 * w) (M.pos + 16 * sumLens (M.entries.take (hash k % 256)) + 8 * w + 8) =
          ((bTable (M.entries.getD (hash k % 256) []) M.maxsize).getD w HashPos.zero).packBytes := by
      intro w hw
      rw [hformv, sliceBytes_inner (hdr ++ encList rs ++ tb1)
        (slotsBytes (bTable (M.entries.getD (hash k % 256) []) M.maxsize))
        tb3
        (M.pos + 16 * sumLens (M.entries.take (hash k % 256)) + 8 * w)
        (M.pos + 16 * sumLens (M.entries.take (hash k % 256)) + 8 * w + 8)
        (by rw [hAlen]; omega)
        (by
          rw [hAlen, slotsBytes_length, hTlen]
          rw [hTlen] at hw
          omega)]
      rw [hAlen, Nat.add_sub_cancel_left,
        show M.pos + 16 * sumLens (M.entries.take (hash k % 256)) + 8 * w + 8 - (M.pos + 16 * sumLens (M.entries.take (hash k % 256))) = 8 * w + 8 from by omega]
      exact slotsBytes_slice _ w hw
    have hltB : ∀ w, w < (bTable (M.entries.getD (hash k % 256) []) M.maxsize).length →
        ((bTable (M.entries.getD (hash k % 256) []) M.maxsize).getD w HashPos.zero).hash < u32Mod ∧
        ((bTable (M.entries.getD (hash k % 256) []) M.maxsize).getD w HashPos.zero).pos < u32Mod := by
      intro w hw
      rcases bTable_slot (M.entries.getD (hash k % 256) []) M.maxsize w hw with hz | hmem
      · refine ⟨?_, ?_⟩ <;> rw [hz] <;>
          norm_num [HashPos.zero, u32Mod]
      · obtain ⟨j2, hj2, hh2, hp2⟩ := hentry _ _ hbjmem hmem
        have hjmem : rs.getD j2 ([], []) ∈ rs := by
          rw [List.getD_eq_getElem rs ([], []) hj2]
          exact List.getElem_mem hj2
        constructor
        · rw [hh2]
          exact hash_lt _ (hbytes _ hjmem)
        · rw [hp2]
          have := sizeSum_take_le rs j2
          omega
    have hclassB : ∀ t, t < (bTable (M.entries.getD (hash k % 256) []) M.maxsize).length →
        (((bTable (M.entries.getD (hash k % 256) []) M.maxsize).getD (((hash k >>> 8) % ((M.entries.getD (hash k % 256) []).length * 2) + t) % (bTable (M.entries.getD (hash k % 256) []) M.maxsize).length) HashPos.zero).pos = 0 →
          (probeOut rs k (bTable (M.entries.getD (hash k % 256) []) M.maxsize) ((hash k >>> 8) % ((M.entries.getD (hash k % 256) []).length * 2))) t = none) ∧
        (((bTable (M.entries.getD (hash k % 256) []) M.maxsize).getD (((hash k >>> 8) % ((M.entries.getD (hash k % 256) []).length * 2) + t) % (bTable (M.entries.getD (hash k % 256) []) M.maxsize).length) HashPos.zero).pos ≠ 0 →
          ((bTable (M.entries.getD (hash k % 256) []) M.maxsize).getD (((hash k >>> 8) % ((M.entries.getD (hash k % 256) []).length * 2) + t) % (bTable (M.entries.getD (hash k % 256) []) M.maxsize).length) HashPos.zero).hash ≠ hash k →
          (probeOut rs k (bTable (M.entries.getD (hash k % 256) []) M.maxsize) ((hash k >>> 8) % ((M.entries.getD (hash k % 256) []).length * 2))) t = some none) ∧
        (((bTable (M.entries.getD (hash k % 256) []) M.maxsize).getD (((hash k >>> 8) % ((M.entries.getD (hash k % 256) []).length * 2) + t) % (bTable (M.entries.getD (hash k % 256) []) M.maxsize).length) HashPos.zero).pos ≠ 0 →
          ((bTable (M.entries.getD (hash k % 256) []) M.maxsize).getD (((hash k >>> 8) % ((M.entries.getD (hash k % 256) []).length * 2) + t) % (bTable (M.entries.getD (hash k % 256) []) M.maxsize).length) HashPos.zero).hash = hash k →
          ∃ kl dl,
            ((bTable (M.entries.getD (hash k % 256) []) M.maxsize).getD (((hash k >>> 8) % ((M.entries.getD (hash k % 256) []).length * 2) + t) % (bTable (M.entries.getD (hash k % 256) []) M.maxsize).length) HashPos.zero).pos + 8 ≤ (hdr ++ (encList rs ++ (tb1 ++ tb2))).length ∧
            sliceBytes (hdr ++ (encList rs ++ (tb1 ++ tb2))) ((bTable (M.entries.getD (hash k % 256) []) M.maxsize).getD (((hash k >>> 8) % ((M.entries.getD (hash k % 256) []).length * 2) + t) % (bTable (M.entries.getD (hash k % 256) []) M.maxsize).length) HashPos.zero).pos (((bTable (M.entries.getD (hash k % 256) []) M.maxsize).getD (((hash k >>> 8) % ((M.entries.getD (hash k % 256) []).length * 2) + t) % (bTable (M.entries.getD (hash k % 256) []) M.maxsize).length) HashPos.zero).pos + 8) = pack2 kl dl ∧
            kl < u32Mod ∧ dl < u32Mod ∧
            (((probeOut rs k (bTable (M.entries.getD (hash k % 256) []) M.maxsize) ((hash k >>> 8) % ((M.entries.getD (hash k % 256) []).length * 2))) t = some none ∧ ¬(kl = k.length ∧
              CDB.read (hdr ++ (encList rs ++ (tb1 ++ tb2))) k.length ((((bTable (M.entries.getD (hash k % 256) []) M.maxsize).getD (((hash k >>> 8) % ((M.entries.getD (hash k % 256) []).length * 2) + t) % (bTable (M.entries.getD (hash k % 256) []) M.maxsize).length) HashPos.zero).pos + 8) % u32Mod) =
                some k)) ∨
             (∃ v, (probeOut rs k (bTable (M.entries.getD (hash k % 256) []) M.maxsize) ((hash k >>> 8) % ((M.entries.getD (hash k % 256) []).length * 2))) t = some (some v) ∧ kl = k.length ∧
              CDB.read (hdr ++ (encList rs ++ (tb1 ++ tb2))) k.length ((((bTable (M.entries.getD (hash k % 256) []) M.maxsize).getD (((hash k >>> 8) % ((M.entries.getD (hash k % 256) []).length * 2) + t) % (bTable (M.entries.getD (hash k % 256) []) M.maxsize).length) HashPos.zero).pos + 8) % u32Mod) =
                some k ∧
              CDB.read (hdr ++ (encList rs ++ (tb1 ++ tb2))) dl (((((bTable (M.entries.getD (hash k % 256) []) M.maxsize).getD (((hash k >>> 8) % ((M.entries.getD (hash k % 256) []).length * 2) + t) % (bTable (M.entries.getD (hash k % 256) []) M.maxsize).length) HashPos.zero).pos + 8) % u32Mod +
                k.length % u32Mod) % u32Mod) = some v))) := by
      intro t ht
      have hwT : (((hash k >>> 8) % ((M.entries.getD (hash k % 256) []).length * 2)) + t) % (bTable (M.entries.getD (hash k % 256) []) M.maxsize).length < (bTable (M.entries.getD (hash k % 256) []) M.maxsize).length := by
        rw [hTlen]
        exact Nat.mod_lt _ (by omega)
      rcases bTable_slot (M.entries.getD (hash k % 256) []) M.maxsize _ hwT with hz | hmem
      · refine ⟨?_, ?_, ?_⟩
        · intro _
          unfold probeOut
          dsimp only
          rw [hz, if_pos (show HashPos.zero.pos = 0 from rfl)]
        · intro h1 _
          exact absurd (by rw [hz]; rfl) h1
        · intro h1 _
          exact absurd (by rw [hz]; rfl) h1
      · obtain ⟨jr, hjr, hh2, hp2, hra⟩ := hslotfacts _ hmem
        have hjmem : rs.getD jr ([], []) ∈ rs := by
          rw [List.getD_eq_getElem rs ([], []) hjr]
          exact List.getElem_mem hjr
        have hszx := hrecb _ hjmem
        unfold recSize at hszx
        have hstle := sizeSum_take_le rs (jr + 1)
        have hst := sizeSum_take_succ rs jr hjr
        unfold recSize at hst
        have hrecslices := encList_record_slices rs jr hjr hdr (tb1 ++ tb2)
        rw [hhl] at hrecslices
        have hvalslice := encList_value_slice rs jr hjr hdr (tb1 ++ tb2)
        rw [hhl] at hvalslice
        have hposnz : (((bTable (M.entries.getD (hash k % 256) []) M.maxsize).getD (((hash k >>> 8) % ((M.entries.getD (hash k % 256) []).length * 2) + t) % (bTable (M.entries.getD (hash k % 256) []) M.maxsize).length) HashPos.zero).pos : Nat) ≠ 0 := by
          rw [hp2]
          omega
        refine ⟨?_, ?_, ?_⟩
        · intro hc
          exact absurd hc hposnz
        · intro _ hneq
          unfold probeOut
          dsimp only
          rw [if_neg hposnz, if_neg hneq]
        · intro _ hheq
          refine ⟨(rs.getD jr ([], [])).1.length,
            (rs.getD jr ([], [])).2.length, ?_, ?_, ?_, ?_, ?_⟩
          · rw [hp2, hvlen]
            omega
          · rw [hp2, himgassoc]
            exact hrecslices.1
          · omega
          · omega
          · by_cases hkk : (rs.getD jr ([], [])).1 = k
            · right
              have hklen : (rs.getD jr ([], [])).1.length = k.length := by
                rw [hkk]
              refine ⟨(rs.getD jr ([], [])).2, ?_, hklen, ?_, ?_⟩
              · unfold probeOut
                dsimp only
                rw [if_neg hposnz, if_pos hheq, hra]
                show (if (rs.getD jr ([], [])).1 = k then
                    some (some ((rs.getD jr ([], [])).2)) else some none) =
                  some (some ((rs.getD jr ([], [])).2))
                rw [if_pos hkk]
              · rw [Nat.mod_eq_of_lt (show ((bTable (M.entries.getD (hash k % 256) []) M.maxsize).getD (((hash k >>> 8) % ((M.entries.getD (hash k % 256) []).length * 2) + t) % (bTable (M.entries.getD (hash k % 256) []) M.maxsize).length) HashPos.zero).pos + 8 < u32Mod from by
                  rw [hp2]
                  omega)]
                unfold CDB.read
                rw [if_pos (show ((bTable (M.entries.getD (hash k % 256) []) M.maxsize).getD (((hash k >>> 8) % ((M.entries.getD (hash k % 256) []).length * 2) + t) % (bTable (M.entries.getD (hash k % 256) []) M.maxsize).length) HashPos.zero).pos + 8 + k.length ≤
                    (hdr ++ (encList rs ++ (tb1 ++ tb2))).length from by
                  rw [hp2, hvlen]
                  omega)]
                rw [hp2, himgassoc]
                have hkey := hrecslices.2
                rw [hkk] at hkey
                rw [hkey]
              · rw [Nat.mod_eq_of_lt (show ((bTable (M.entries.getD (hash k % 256) []) M.maxsize).getD (((hash k >>> 8) % ((M.entries.getD (hash k % 256) []).length * 2) + t) % (bTable (M.entries.getD (hash k % 256) []) M.maxsize).length) HashPos.zero).pos + 8 < u32Mod from by
                    rw [hp2]
                    omega),
                  Nat.mod_eq_of_lt (show k.length < u32Mod from by omega),
                  Nat.mod_eq_of_lt (show ((bTable (M.entries.getD (hash k % 256) []) M.maxsize).getD (((hash k >>> 8) % ((M.entries.getD (hash k % 256) []).length * 2) + t) % (bTable (M.entries.getD (hash k % 256) []) M.maxsize).length) HashPos.zero).pos + 8 + k.length < u32Mod
                    from by
                    rw [hp2]
                    omega)]
                unfold CDB.read
                rw [if_pos (show ((bTable (M.entries.getD (hash k % 256) []) M.maxsize).getD (((hash k >>> 8) % ((M.entries.getD (hash k % 256) []).length * 2) + t) % (bTable (M.entries.getD (hash k % 256) []) M.maxsize).length) HashPos.zero).pos + 8 + k.length +
                    (rs.getD jr ([], [])).2.length ≤
                    (hdr ++ (encList rs ++ (tb1 ++ tb2))).length from by
                  rw [hp2, hvlen]
                  omega)]
                rw [hp2, himgassoc]
                have hval := hvalslice
                rw [hkk] at hval
                rw [hval]
            · left
              refine ⟨?_, ?_⟩
              · unfold probeOut
                dsimp only
                rw [if_neg hposnz, if_pos hheq, hra]
                show (if (rs.getD jr ([], [])).1 = k then
                    some (some ((rs.getD jr ([], [])).2)) else some none) =
                  some none
                rw [if_neg hkk]
              · rintro ⟨hkl, hkread⟩
                rw [Nat.mod_eq_of_lt (show ((bTable (M.entries.getD (hash k % 256) []) M.maxsize).getD (((hash k >>> 8) % ((M.entries.getD (hash k % 256) []).length * 2) + t) % (bTable (M.entries.getD (hash k % 256) []) M.maxsize).length) HashPos.zero).pos + 8 < u32Mod from by
                  rw [hp2]
                  omega)] at hkread
                unfold CDB.read at hkread
                rw [if_pos (show ((bTable (M.entries.getD (hash k % 256) []) M.maxsize).getD (((hash k >>> 8) % ((M.entries.getD (hash k % 256) []).length * 2) + t) % (bTable (M.entries.getD (hash k % 256) []) M.maxsize).length) HashPos.zero).pos + 8 + k.length ≤
                    (hdr ++ (encList rs ++ (tb1 ++ tb2))).length from by
                  rw [hp2, hvlen]
                  omega)] at hkread
                rw [hp2, himgassoc] at hkread
                have hkey := hrecslices.2
                rw [hkl] at hkey
                rw [hkey] at hkread
                have hKK : (rs.getD jr ([], [])).1 = k := by
                  injection hkread
                exact hkk hKK
    have hw0T : (hash k >>> 8) % ((M.entries.getD (hash k % 256) []).length * 2) < (bTable (M.entries.getD (hash k % 256) []) M.maxsize).length := by
      rw [hTlen]
      exact hw0
    have hfltB : (hdr ++ (encList rs ++ (tb1 ++ tb2))).length < u32Mod := by
      rw [hvlen]
      omega
    have hboundB : M.pos + 16 * sumLens (M.entries.take (hash k % 256)) + 8 * (bTable (M.entries.getD (hash k % 256) []) M.maxsize).length ≤ (hdr ++ (encList rs ++ (tb1 ++ tb2))).length := by
      rw [hTlen, hvlen]
      omega
    have hwalk := vcollect_walkOut (hdr ++ (encList rs ++ (tb1 ++ tb2))) (bTable (M.entries.getD (hash k % 256) []) M.maxsize) k (hash k)
      (M.pos + 16 * sumLens (M.entries.take (hash k % 256))) ((hash k >>> 8) % ((M.entries.getD (hash k % 256) []).length * 2)) (probeOut rs k (bTable (M.entries.getD (hash k % 256) []) M.maxsize) ((hash k >>> 8) % ((M.entries.getD (hash k % 256) []).length * 2)))
      hfltB hboundB hw0T hslotB hltB hclassB
      ((M.entries.getD (hash k % 256) []).length * 2)
      (VIter.mk k (hash k) 0
        (M.pos + 16 * sumLens (M.entries.take (hash k % 256)) + ((hash k >>> 8) % ((M.entries.getD (hash k % 256) []).length * 2)) * 8)
        (M.pos + 16 * sumLens (M.entries.take (hash k % 256)))
        ((M.entries.getD (hash k % 256) []).length * 2))
      ((M.entries.getD (hash k % 256) []).length * 2 + 1)
      rfl rfl rfl
      (by dsimp only; rw [hTlen])
      (by dsimp only; rw [hTlen]; omega)
      (by
        dsimp only
        rw [hTlen, Nat.add_zero, Nat.mod_eq_of_lt hw0]
        omega)
      (le_refl _)
    dsimp only at hwalk
    have hwf := walkOut_filter (M.entries.getD (hash k % 256) []) M.maxsize hfitbj hbposB
      ((hash k >>> 8) % ((M.entries.getD (hash k % 256) []).length * 2)) hw0 (probeMatch rs k (M.entries.getD (hash k % 256) [])) (probeVal rs (M.entries.getD (hash k % 256) [])) (probeOut rs k (bTable (M.entries.getD (hash k % 256) []) M.maxsize) ((hash k >>> 8) % ((M.entries.getD (hash k % 256) []).length * 2))) hinjB hPhomeB houtB
      ((M.entries.getD (hash k % 256) []).length * 2) 0 (by omega)
    have hfilter0 : (List.range (M.entries.getD (hash k % 256) []).length).filter
        (fun j => (probeMatch rs k (M.entries.getD (hash k % 256) [])) j && decide (0 ≤ bDist (M.entries.getD (hash k % 256) []) M.maxsize j)) =
        (List.range (M.entries.getD (hash k % 256) []).length).filter (probeMatch rs k (M.entries.getD (hash k % 256) [])) := by
      apply List.filter_congr
      intro j hj
      show ((probeMatch rs k (M.entries.getD (hash k % 256) [])) j && decide (0 ≤ bDist (M.entries.getD (hash k % 256) []) M.maxsize j)) = (probeMatch rs k (M.entries.getD (hash k % 256) [])) j
      rw [decide_eq_true (Nat.zero_le _), Bool.and_true]
    have hvals : ((List.range (M.entries.getD (hash k % 256) []).length).filter (probeMatch rs k (M.entries.getD (hash k % 256) []))).map (probeVal rs (M.entries.getD (hash k % 256) [])) =
        rs.filterMap (fun (r : List Nat × List Nat) =>
          if r.1 = k then some r.2 else none) := by
      rw [hbuck]
      exact bucket_filter_values k rs 2048
    refine ⟨M, _, hrun, hfin, ?_⟩
    unfold CDB.findAll
    rw [hfs]
    refine congrArg some ?_
    dsimp only
    rw [hwalk, hwf, hfilter0, hvals]



/-- C2: for any record sequence built through the writer (byte-valued
keys, total size within the 32-bit limits) and any key `k` appearing at
input positions `i_1 < i_2 < ... < i_m`, draining `find(k)` over the
finished image yields exactly the values `v_{i_1}, v_{i_2}, ...,
v_{i_m}`, in that order: the per-bucket linear-probe insertion places
entries sharing a home slot at strictly increasing probe distances in
insertion order, and the reader's probe chain visits them in that
order. -/
theorem multi_value_retrieval_order (rs : List (List Nat × List Nat))
    (k : List Nat)
    (hb : 2048 + sizeSum rs + 24 * rs.length + 8 < u32Mod)
    (hbytes : ∀ r ∈ rs, ∀ x ∈ r.1, x < 256) :
    ∃ M v, CDBMake.new.runAdds rs = (M, none) ∧
      M.finish = Except.ok v ∧
      CDB.findAll v.inner k = some (rs.filterMap
        (fun (r : List Nat × List Nat) =>
          if r.1 = k then some r.2 else none)) :=
  present_key_spec rs k hb hbytes

/-- C2 witness: the key `[1]` appears at input positions 0 and 2 of a
three-record build; `find([1])` yields `[10]` then `[30]`, in input
order. -/
theorem multi_value_retrieval_order_witness :
    ∃ M v, CDBMake.new.runAdds [([1], [10]), ([2], [20]), ([1], [30])] =
        (M, none) ∧
      M.finish = Except.ok v ∧
      CDB.findAll v.inner [1] = some [[10], [30]] := by
  obtain ⟨M, v, h1, h2, h3⟩ := multi_value_retrieval_order
    [([1], [10]), ([2], [20]), ([1], [30])] [1] (by decide) (by decide)
  refine ⟨M, v, h1, h2, ?_⟩
  rw [h3]
  rfl

end Cdb